import Mathlib

/-!
Verification of the BFV core: RNS polynomial engine (modelled from the spec where
the corresponding source files are not available), the plaintext encode / decode /
scale pipeline (`plaintext.rs`) and the key-switching subsystem
(`key_switching_key.rs`, BV and Hybrid variants).

Machine integers are modelled as `Nat` / `Int` with explicit reductions; panics and
assertion failures are modelled as `Option.none`; randomness is modelled by passing
the sampled values (or a deterministic stream) explicitly, constrained by the
distribution's support.
-/

set_option maxRecDepth 40000
set_option maxHeartbeats 4000000

namespace BFV

/-! ## Fast modular exponentiation (fuel-based, used by primality certificates) -/

def powModAux (m a : Nat) : Nat → Nat → Nat
  | 0, _ => 1 % m
  | fuel+1, e =>
    if e = 0 then 1 % m
    else
      let r := powModAux m (a * a % m) fuel (e / 2)
      if e % 2 = 1 then r * a % m else r

def powMod (m a e : Nat) : Nat := powModAux m a 64 e

theorem powModAux_correct (m : Nat) : ∀ fuel a e, e < 2 ^ fuel →
    powModAux m a fuel e = a ^ e % m := by
  intro fuel
  induction fuel with
  | zero =>
    intro a e he
    interval_cases e
    simp [powModAux]
  | succ n ih =>
    intro a e he
    rcases Nat.eq_zero_or_pos e with rfl | hpos
    · simp [powModAux]
    · have hlt : e / 2 < 2 ^ n := by
        have h2n : 2 ^ (n+1) = 2 ^ n * 2 := by rw [Nat.pow_succ]
        omega
      have hrec := ih (a * a % m) (e / 2) hlt
      have hsq : (a * a % m) ^ (e / 2) % m = a ^ (2 * (e / 2)) % m := by
        rw [← Nat.pow_mod, Nat.pow_mul, Nat.pow_two]
      by_cases h2 : e % 2 = 1
      · have hee : 2 * (e / 2) + 1 = e := by omega
        have hu : powModAux m a (n+1) e = powModAux m (a*a%m) n (e/2) * a % m := by
          simp [powModAux, Nat.pos_iff_ne_zero.mp hpos, h2]
        rw [hu, hrec, hsq, Nat.mod_mul_mod, ← Nat.pow_succ, Nat.succ_eq_add_one, hee]
      · have hee : 2 * (e / 2) = e := by omega
        have hu : powModAux m a (n+1) e = powModAux m (a*a%m) n (e/2) := by
          simp [powModAux, Nat.pos_iff_ne_zero.mp hpos, h2]
        rw [hu, hrec, hsq, hee]

theorem powMod_correct (m a e : Nat) (he : e < 2 ^ 64) : powMod m a e = a ^ e % m :=
  powModAux_correct m 64 a e he

/-! ## Modular inverse (extended Euclid, fuel-based)

Modelled from the spec: every modulus supports `inv` ("modular inverse via Fermat
or extended Euclid"); the source file `modulus.rs` is not available. -/

def egcdAux : Nat → Nat → Nat → Int → Int → Nat × Int
  | 0, r0, _, s0, _ => (r0, s0)
  | fuel+1, r0, r1, s0, s1 =>
    if r1 = 0 then (r0, s0)
    else egcdAux fuel r1 (r0 % r1) s1 (s0 - (r0 / r1 : Nat) * s1)

/-- `invMod q a` is the inverse of `a` modulo `q` (when `a` is invertible). -/
def invMod (q a : Nat) : Nat :=
  ((egcdAux (q + 1) a q 1 0).2.emod q).toNat

theorem egcdAux_gcd : ∀ fuel r0 r1 s0 s1, r1 < fuel →
    (egcdAux fuel r0 r1 s0 s1).1 = Nat.gcd r0 r1 := by
  intro fuel
  induction fuel with
  | zero => intro r0 r1 s0 s1 h; omega
  | succ n ih =>
    intro r0 r1 s0 s1 h
    by_cases h1 : r1 = 0
    · subst h1; simp [egcdAux]
    · have hu : egcdAux (n+1) r0 r1 s0 s1
          = egcdAux n r1 (r0 % r1) s1 (s0 - (r0 / r1 : Nat) * s1) := by
        simp [egcdAux, h1]
      rw [hu, ih _ _ _ _ (by have := Nat.mod_lt r0 (y := r1) (by omega); omega)]
      rw [Nat.gcd_comm r1 (r0 % r1), ← Nat.gcd_rec r1 r0, Nat.gcd_comm r1 r0]

theorem egcdAux_bezout (q a : Nat) : ∀ (fuel : Nat) (r0 r1 : Nat) (s0 s1 : Int),
    ((r0 : Int) ≡ s0 * a [ZMOD q]) → ((r1 : Int) ≡ s1 * a [ZMOD q]) →
    (((egcdAux fuel r0 r1 s0 s1).1 : Int) ≡ (egcdAux fuel r0 r1 s0 s1).2 * a [ZMOD q]) := by
  intro fuel
  induction fuel with
  | zero => intro r0 r1 s0 s1 h0 h1; exact h0
  | succ n ih =>
    intro r0 r1 s0 s1 h0 h1
    by_cases hz : r1 = 0
    · subst hz; simpa [egcdAux] using h0
    · have hu : egcdAux (n+1) r0 r1 s0 s1
          = egcdAux n r1 (r0 % r1) s1 (s0 - (r0 / r1 : Nat) * s1) := by
        simp [egcdAux, hz]
      rw [hu]
      apply ih _ _ _ _ h1
      have hmod : ((r0 % r1 : Nat) : Int) = (r0 : Int) - ((r0 / r1 : Nat) : Int) * r1 := by
        push_cast
        rw [Int.emod_def]
        ring
      rw [hmod]
      calc (r0 : Int) - ((r0 / r1 : Nat) : Int) * (r1 : Int)
          ≡ s0 * a - ((r0 / r1 : Nat) : Int) * (s1 * a) [ZMOD q] :=
            Int.ModEq.sub h0 (Int.ModEq.mul_left _ h1)
        _ = (s0 - (r0 / r1 : Nat) * s1) * a := by ring

theorem invMod_spec (q a : Nat) (hq : 1 < q) (h : Nat.Coprime a q) :
    a * invMod q a % q = 1 := by
  have hg : (egcdAux (q+1) a q 1 0).1 = Nat.gcd a q :=
    egcdAux_gcd (q+1) a q 1 0 (by omega)
  have hb : (((egcdAux (q+1) a q 1 0).1 : Int) ≡ (egcdAux (q+1) a q 1 0).2 * a [ZMOD q]) := by
    apply egcdAux_bezout q a (q+1) a q 1 0
    · simp [Int.ModEq]
    · simp [Int.ModEq]
  rw [hg, h] at hb
  norm_num at hb
  have hqz : ((q : Int)) ≠ 0 := by
    have : (0 : Int) < (q : Int) := by exact_mod_cast Nat.lt_of_lt_of_le Nat.zero_lt_one hq.le
    omega
  have hinv : ((invMod q a : Nat) : Int) = (egcdAux (q+1) a q 1 0).2 % q :=
    Int.toNat_of_nonneg (Int.emod_nonneg _ hqz)
  have hsq : ((egcdAux (q+1) a q 1 0).2 % q) ≡ (egcdAux (q+1) a q 1 0).2 [ZMOD (q : Int)] :=
    Int.mod_modEq _ _
  have hmul : ((a : Int) * ((egcdAux (q+1) a q 1 0).2 % q)) ≡ 1 [ZMOD (q : Int)] := by
    calc (a : Int) * ((egcdAux (q+1) a q 1 0).2 % q)
        ≡ (a : Int) * (egcdAux (q+1) a q 1 0).2 [ZMOD (q : Int)] := Int.ModEq.mul_left _ hsq
      _ = (egcdAux (q+1) a q 1 0).2 * a := mul_comm _ _
      _ ≡ 1 [ZMOD (q : Int)] := hb.symm
  have hcast : ((a * invMod q a % q : Nat) : Int) = 1 % (q : Int) := by
    push_cast
    rw [hinv]
    exact hmul
  have h1q : (1 : Int) % q = 1 := Int.emod_eq_of_lt (by omega) (by exact_mod_cast hq)
  rw [h1q] at hcast
  exact_mod_cast hcast

/-! ## Vectorized modular arithmetic (modelled from the spec, `modulus.rs` missing) -/

def addVec (q : Nat) (u v : List Nat) : List Nat :=
  List.zipWith (fun a b => (a + b) % q) u v

def subVec (q : Nat) (u v : List Nat) : List Nat :=
  List.zipWith (fun a b => (a + (q - b)) % q) u v

def mulVec (q : Nat) (u v : List Nat) : List Nat :=
  List.zipWith (fun a b => a * b % q) u v

def scalarMulVec (q c : Nat) (v : List Nat) : List Nat :=
  v.map (fun a => c * a % q)

def reduceVecU64 (q : Nat) (v : List Nat) : List Nat := v.map (· % q)

def reduceVecI64 (q : Nat) (v : List Int) : List Nat :=
  v.map (fun x => (x % (q : Int)).toNat)

/-- Centered representative: maps a residue in `[0, q)` to `(-q/2, q/2]`. -/
def center (q x : Nat) : Int := if 2 * x ≤ q then (x : Int) else (x : Int) - q

def negMod (q x : Nat) : Nat := (q - x % q) % q

/-- Rounding division `⌊a / t⌉` with ties rounded down, matching the centered
representative convention `(-t/2, t/2]`. -/
def divRound (a t : Nat) : Nat := (2 * a + t - 1) / (2 * t)

/-- `VecOk q N v`: the residue-vector invariant — length `N`, entries in `[0, q)`. -/
def VecOk (q N : Nat) (v : List Nat) : Prop :=
  v.length = N ∧ ∀ x ∈ v, x < q

instance (q N : Nat) (v : List Nat) : Decidable (VecOk q N v) := by
  unfold VecOk; infer_instance

theorem center_spec (q x : Nat) (hx : x < q) :
    (center q x) % (q : Int) = (x : Int) % q ∧
    2 * (center q x) ≤ q ∧ -(q : Int) < 2 * (center q x) := by
  unfold center
  by_cases h : 2 * x ≤ q <;> simp [h] <;> omega

theorem divRound_eq (a t : Nat) (ht : 0 < t) :
    (divRound a t : Int) * t = (a : Int) - center t (a % t) := by
  have hdr : t * (a / t) + a % t = a := Nat.div_add_mod a t
  have hrlt : a % t < t := Nat.mod_lt _ ht
  generalize hd : a / t = d at hdr
  generalize hr : a % t = r at hdr hrlt ⊢
  have hsum : d * (2 * t) + 2 * r = 2 * a := by
    calc d * (2 * t) + 2 * r = 2 * (t * d + r) := by ring
      _ = 2 * a := by rw [hdr]
  have ikey : (d : Int) * t + r = a := by
    have hc : ((t * d + r : Nat) : Int) = (a : Int) := by exact_mod_cast hdr
    push_cast at hc
    linarith
  unfold divRound
  by_cases h : 2 * r ≤ t
  · have hdiv : (2 * a + t - 1) / (2 * t) = d := by
      apply Nat.div_eq_of_lt_le
      · omega
      · have hexp : (d + 1) * (2 * t) = d * (2 * t) + 2 * t := by ring
        omega
    rw [hdiv, center, if_pos h]
    linear_combination ikey
  · have hdiv : (2 * a + t - 1) / (2 * t) = d + 1 := by
      apply Nat.div_eq_of_lt_le
      · have hexp : (d + 1) * (2 * t) = d * (2 * t) + 2 * t := by ring
        omega
      · have hexp : (d + 1 + 1) * (2 * t) = d * (2 * t) + 2 * t + 2 * t := by ring
        omega
    rw [hdiv, center, if_neg h]
    push_cast
    linear_combination ikey

/-! ## Negacyclic polynomial multiplication modulo `X^N + 1` -/

/-- Coefficient `i` of the second factor as it contributes to output coefficient
`k` of a negacyclic product: `v[k-i]` for `i ≤ k`, and `-v[N+k-i]` for `i > k`. -/
def ncTerm (v : List Int) (N k i : Nat) : Int :=
  if i ≤ k then v.getD (k - i) 0 else -(v.getD (N + k - i) 0)

/-- Integer coefficient `k` of the negacyclic product of `u` and `v` in
`Z[X] / (X^N + 1)`. -/
def ncmInt (u v : List Int) (N k : Nat) : Int :=
  ∑ i in Finset.range N, u.getD i 0 * ncTerm v N k i

def intsOf (u : List Nat) : List Int := u.map (fun x => Int.ofNat x)

/-- Negacyclic product of residue vectors modulo `q`. -/
def negacyclicMul (q N : Nat) (u v : List Nat) : List Nat :=
  (List.range N).map (fun k => ((ncmInt (intsOf u) (intsOf v) N k) % (q : Int)).toNat)

theorem modEq_sum (m : Int) (s : Finset Nat) (f g : Nat → Int)
    (h : ∀ i ∈ s, f i ≡ g i [ZMOD m]) :
    (∑ i in s, f i) ≡ (∑ i in s, g i) [ZMOD m] := by
  induction s using Finset.induction with
  | empty => simp
  | insert hx ih =>
    rw [Finset.sum_insert hx, Finset.sum_insert hx]
    exact Int.ModEq.add (h _ (Finset.mem_insert_self _ _))
      (ih (fun i hi => h i (Finset.mem_insert_of_mem hi)))

theorem ncmInt_congr_left (m : Int) (u u' v : List Int) (N k : Nat)
    (h : ∀ i < N, u.getD i 0 ≡ u'.getD i 0 [ZMOD m]) :
    ncmInt u v N k ≡ ncmInt u' v N k [ZMOD m] := by
  unfold ncmInt
  exact modEq_sum m _ _ _ (fun i hi =>
    Int.ModEq.mul (h i (Finset.mem_range.mp hi)) (Int.ModEq.refl _))

theorem ncmInt_congr_right (m : Int) (u v v' : List Int) (N k : Nat)
    (h : ∀ i, v.getD i 0 ≡ v'.getD i 0 [ZMOD m]) :
    ncmInt u v N k ≡ ncmInt u v' N k [ZMOD m] := by
  unfold ncmInt
  exact modEq_sum m _ _ _ (fun i _hi => by
    apply Int.ModEq.mul (Int.ModEq.refl _)
    unfold ncTerm
    by_cases hik : i ≤ k
    · simp only [if_pos hik]
      exact h _
    · simp only [if_neg hik]
      exact Int.ModEq.neg (h _))

theorem ncmInt_bound (u v : List Int) (N k : Nat) (U V : Int)
    (hu : ∀ i < N, |u.getD i 0| ≤ U) (hv : ∀ i, |v.getD i 0| ≤ V) :
    |ncmInt u v N k| ≤ N * (U * V) := by
  unfold ncmInt
  calc |∑ i in Finset.range N, u.getD i 0 * ncTerm v N k i|
      ≤ ∑ i in Finset.range N, |u.getD i 0 * ncTerm v N k i| :=
        Finset.abs_sum_le_sum_abs _ _
    _ ≤ ∑ _i in Finset.range N, U * V := by
        apply Finset.sum_le_sum
        intro i hi
        rw [abs_mul]
        have h1 := hu i (Finset.mem_range.mp hi)
        have h2 : |ncTerm v N k i| ≤ V := by
          unfold ncTerm
          by_cases hik : i ≤ k
          · simp only [if_pos hik]; exact hv _
          · simp only [if_neg hik]; rw [abs_neg]; exact hv _
        have hU : (0 : Int) ≤ U := le_trans (abs_nonneg _) h1
        have hV : (0 : Int) ≤ |ncTerm v N k i| := abs_nonneg _
        exact mul_le_mul h1 h2 hV hU
    _ = N * (U * V) := by rw [Finset.sum_const, Finset.card_range, nsmul_eq_mul]

/-! ## The NTT operator

Modelled from the spec (`ntt.rs` is not available): a negacyclic number-theoretic
transform for a modulus `q` and degree `N` — a bit-exact bijection between the
Coefficient and Evaluation domains that maps negacyclic multiplication to
pointwise multiplication, addition to addition, and constants to constant
vectors. -/

def constVec (q N c : Nat) : List Nat := c % q :: List.replicate (N - 1) 0

structure NttOp where
  q : Nat
  N : Nat
  fwd : List Nat → List Nat
  bwd : List Nat → List Nat
  fwd_ok : ∀ v, VecOk q N v → VecOk q N (fwd v)
  bwd_ok : ∀ v, VecOk q N v → VecOk q N (bwd v)
  bwd_fwd : ∀ v, VecOk q N v → bwd (fwd v) = v
  fwd_bwd : ∀ v, VecOk q N v → fwd (bwd v) = v
  fwd_add : ∀ u v, VecOk q N u → VecOk q N v →
    fwd (addVec q u v) = addVec q (fwd u) (fwd v)
  fwd_mul : ∀ u v, VecOk q N u → VecOk q N v →
    fwd (negacyclicMul q N u v) = mulVec q (fwd u) (fwd v)
  fwd_const : ∀ c, 0 < N → fwd (constVec q N c) = List.replicate N (c % q)

/-! ### Well-formedness of the vector operations -/

theorem zipWith_mod_lt (q : Nat) (hq : 0 < q) (g : Nat → Nat → Nat) :
    ∀ (u v : List Nat), ∀ x ∈ List.zipWith (fun a b => g a b % q) u v, x < q := by
  intro u
  induction u with
  | nil => intro v x hx; simp at hx
  | cons a as ih =>
    intro v x hx
    cases v with
    | nil => simp at hx
    | cons b bs =>
      simp only [List.zipWith_cons_cons, List.mem_cons] at hx
      rcases hx with rfl | hx
      · exact Nat.mod_lt _ hq
      · exact ih bs x hx

theorem map_mod_lt (q : Nat) (hq : 0 < q) (g : Nat → Nat) (v : List Nat) :
    ∀ x ∈ v.map (fun a => g a % q), x < q := by
  intro x hx
  obtain ⟨a, _, rfl⟩ := List.mem_map.mp hx
  exact Nat.mod_lt _ hq

theorem addVec_ok (q N : Nat) (hq : 0 < q) (u v : List Nat)
    (hu : u.length = N) (hv : v.length = N) : VecOk q N (addVec q u v) :=
  ⟨by simp [addVec, hu, hv], zipWith_mod_lt q hq _ u v⟩

theorem subVec_ok (q N : Nat) (hq : 0 < q) (u v : List Nat)
    (hu : u.length = N) (hv : v.length = N) : VecOk q N (subVec q u v) :=
  ⟨by simp [subVec, hu, hv], zipWith_mod_lt q hq _ u v⟩

theorem mulVec_ok (q N : Nat) (hq : 0 < q) (u v : List Nat)
    (hu : u.length = N) (hv : v.length = N) : VecOk q N (mulVec q u v) :=
  ⟨by simp [mulVec, hu, hv], zipWith_mod_lt q hq _ u v⟩

theorem scalarMulVec_ok (q N c : Nat) (hq : 0 < q) (v : List Nat)
    (hv : v.length = N) : VecOk q N (scalarMulVec q c v) :=
  ⟨by simp [scalarMulVec, hv], map_mod_lt q hq _ v⟩

theorem reduceVecU64_ok (q N : Nat) (hq : 0 < q) (v : List Nat)
    (hv : v.length = N) : VecOk q N (reduceVecU64 q v) :=
  ⟨by simp [reduceVecU64, hv], map_mod_lt q hq id v⟩

theorem reduceVecI64_ok (q N : Nat) (hq : 0 < q) (v : List Int)
    (hv : v.length = N) : VecOk q N (reduceVecI64 q v) := by
  refine ⟨by simp [reduceVecI64, hv], ?_⟩
  intro x hx
  obtain ⟨a, _, rfl⟩ := List.mem_map.mp hx
  have h1 : a % (q : Int) < q := Int.emod_lt_of_pos a (by exact_mod_cast hq)
  have h2 : 0 ≤ a % (q : Int) := Int.emod_nonneg a (by omega)
  omega

theorem negacyclicMul_ok (q N : Nat) (hq : 0 < q) (u v : List Nat) :
    VecOk q N (negacyclicMul q N u v) := by
  refine ⟨by simp [negacyclicMul], ?_⟩
  intro x hx
  obtain ⟨k, _, rfl⟩ := List.mem_map.mp hx
  have h1 : ncmInt (intsOf u) (intsOf v) N k % (q : Int) < q :=
    Int.emod_lt_of_pos _ (by exact_mod_cast hq)
  have h2 : 0 ≤ ncmInt (intsOf u) (intsOf v) N k % (q : Int) :=
    Int.emod_nonneg _ (by omega)
  omega

/-! ### Derived NTT facts -/

theorem NttOp.bwd_add (op : NttOp) (u v : List Nat)
    (hq : 0 < op.q) (hu : VecOk op.q op.N u) (hv : VecOk op.q op.N v) :
    op.bwd (addVec op.q u v) = addVec op.q (op.bwd u) (op.bwd v) := by
  have hbu := op.bwd_ok u hu
  have hbv := op.bwd_ok v hv
  have hsum : VecOk op.q op.N (addVec op.q (op.bwd u) (op.bwd v)) :=
    addVec_ok _ _ hq _ _ hbu.1 hbv.1
  calc op.bwd (addVec op.q u v)
      = op.bwd (addVec op.q (op.fwd (op.bwd u)) (op.fwd (op.bwd v))) := by
        rw [op.fwd_bwd u hu, op.fwd_bwd v hv]
    _ = op.bwd (op.fwd (addVec op.q (op.bwd u) (op.bwd v))) := by
        rw [op.fwd_add _ _ hbu hbv]
    _ = addVec op.q (op.bwd u) (op.bwd v) := op.bwd_fwd _ hsum

theorem NttOp.bwd_mul (op : NttOp) (u v : List Nat)
    (hq : 0 < op.q) (hu : VecOk op.q op.N u) (hv : VecOk op.q op.N v) :
    op.bwd (mulVec op.q u v) = negacyclicMul op.q op.N (op.bwd u) (op.bwd v) := by
  have hbu := op.bwd_ok u hu
  have hbv := op.bwd_ok v hv
  have hprod : VecOk op.q op.N (negacyclicMul op.q op.N (op.bwd u) (op.bwd v)) :=
    negacyclicMul_ok _ _ hq _ _
  calc op.bwd (mulVec op.q u v)
      = op.bwd (mulVec op.q (op.fwd (op.bwd u)) (op.fwd (op.bwd v))) := by
        rw [op.fwd_bwd u hu, op.fwd_bwd v hv]
    _ = op.bwd (op.fwd (negacyclicMul op.q op.N (op.bwd u) (op.bwd v))) := by
        rw [op.fwd_mul _ _ hbu hbv]
    _ = negacyclicMul op.q op.N (op.bwd u) (op.bwd v) := op.bwd_fwd _ hprod

/-! ### A concrete NTT operator for degree 1 (`Z_q[X]/(X+1) = Z_q`) -/

theorem vecOk_one (q : Nat) (v : List Nat) (h : VecOk q 1 v) :
    ∃ a, v = [a] ∧ a < q := by
  obtain ⟨hlen, hlt⟩ := h
  match v, hlen with
  | [a], _ => exact ⟨a, rfl, hlt a (List.mem_singleton_self a)⟩

theorem natMod_toNat (q m : Nat) : ((m : Int) % (q : Int)).toNat = m % q := by
  omega

theorem negacyclicMul_one (q a b : Nat) :
    negacyclicMul q 1 [a] [b] = [a * b % q] := by
  unfold negacyclicMul ncmInt intsOf
  rw [show List.range 1 = [0] from rfl]
  simp [ncTerm]
  rw [show ((a : Int) * b) = ((a * b : Nat) : Int) by push_cast; ring]
  exact natMod_toNat q (a * b)

def idNtt (q : Nat) : NttOp where
  q := q
  N := 1
  fwd := id
  bwd := id
  fwd_ok := fun _ h => h
  bwd_ok := fun _ h => h
  bwd_fwd := fun _ _ => rfl
  fwd_bwd := fun _ _ => rfl
  fwd_add := fun _ _ _ _ => rfl
  fwd_mul := fun u v hu hv => by
    obtain ⟨a, rfl, _⟩ := vecOk_one q u hu
    obtain ⟨b, rfl, _⟩ := vecOk_one q v hv
    simpa [mulVec] using negacyclicMul_one q a b
  fwd_const := fun c _ => by simp [constVec]

instance : Inhabited NttOp := ⟨idNtt 1⟩

/-! ## Polynomial contexts and polynomials

Modelled from the spec (`poly.rs` is not available): a context is an ordered
chain of moduli with a degree; a polynomial is an `L × N` residue matrix tagged
with a representation.  The NTT operators attached to a context in the source
are passed alongside as a list. -/

structure PolyContext where
  moduli : List Nat
  degree : Nat
deriving DecidableEq

inductive Representation where
  | Coefficient
  | Evaluation
deriving DecidableEq

structure Poly where
  context : PolyContext
  representation : Representation
  coefficients : List (List Nat)
deriving DecidableEq

/-- Residue-matrix invariant for a polynomial. -/
def PolyOk (p : Poly) : Prop :=
  p.coefficients.length = p.context.moduli.length ∧
  ∀ i < p.coefficients.length,
    VecOk (p.context.moduli.getD i 0) p.context.degree (p.coefficients.getD i [])

instance (p : Poly) : Decidable (PolyOk p) := by
  unfold PolyOk; infer_instance

/-- `OpsMatch C ops`: the NTT operator list attached to context `C` is
consistent with its moduli and degree. -/
def OpsMatch (C : PolyContext) (ops : List NttOp) : Prop :=
  ops.length = C.moduli.length ∧
  ∀ i < ops.length,
    (ops.getD i default).q = C.moduli.getD i 0 ∧ (ops.getD i default).N = C.degree

instance (C : PolyContext) (ops : List NttOp) : Decidable (OpsMatch C ops) := by
  unfold OpsMatch; infer_instance

/-- Context validity: all moduli exceed 1, are pairwise coprime; positive degree. -/
def CtxOk (C : PolyContext) : Prop :=
  (∀ q ∈ C.moduli, 1 < q) ∧ C.moduli.Pairwise Nat.Coprime ∧ 0 < C.degree

instance (C : PolyContext) : Decidable (CtxOk C) := by
  unfold CtxOk; infer_instance

def zipWith3 (f : α → β → γ → δ) : List α → List β → List γ → List δ
  | a :: as, b :: bs, c :: cs => f a b c :: zipWith3 f as bs cs
  | _, _, _ => []

/-! ### Polynomial operations (modelled from the spec, `poly.rs` missing) -/

def polyAdd (p1 p2 : Poly) : Poly :=
  { p1 with coefficients := zipWith3 addVec p1.context.moduli p1.coefficients p2.coefficients }

def polySub (p1 p2 : Poly) : Poly :=
  { p1 with coefficients := zipWith3 subVec p1.context.moduli p1.coefficients p2.coefficients }

/-- Pointwise (Evaluation-domain) product, the `*` of the source in Evaluation
representation. -/
def polyMulEval (p1 p2 : Poly) : Poly :=
  { p1 with coefficients := zipWith3 mulVec p1.context.moduli p1.coefficients p2.coefficients }

/-- `change_representation`: forward NTT per row to go to Evaluation, inverse
NTT per row to go back; the identity when the representation already matches. -/
def changeRep (ops : List NttOp) (p : Poly) (target : Representation) : Poly :=
  if p.representation = target then p
  else if target = Representation.Evaluation then
    { p with representation := target,
             coefficients := List.zipWith (fun op row => op.fwd row) ops p.coefficients }
  else
    { p with representation := target,
             coefficients := List.zipWith (fun op row => op.bwd row) ops p.coefficients }

/-- `try_convert_from_u64` / `try_convert_from_biguint`: reduce the value
vector modulo every modulus of the chain. -/
def liftNat (C : PolyContext) (r : Representation) (vals : List Nat) : Poly :=
  { context := C, representation := r,
    coefficients := C.moduli.map (fun q => reduceVecU64 q vals) }

/-- `try_convert_from_i64`: signed input, reduced into `[0, q)` per modulus. -/
def liftInt (C : PolyContext) (r : Representation) (vals : List Int) : Poly :=
  { context := C, representation := r,
    coefficients := C.moduli.map (fun q => reduceVecI64 q vals) }

def polyZero (C : PolyContext) (r : Representation) : Poly :=
  { context := C, representation := r,
    coefficients := C.moduli.map (fun _ => List.replicate C.degree 0) }

/-- Accumulation pattern of the source: the first element seeds the
accumulator, the rest are folded in with `+=`. -/
def sumPolys1 : List Poly → Poly
  | [] => polyZero ⟨[], 0⟩ Representation.Evaluation
  | h :: t => t.foldl polyAdd h

/-! ## BFV parameters and the plaintext encoder (`plaintext.rs`)

The parameter bundle itself lives in `parameters.rs`, which is not available;
it is modelled from the spec as the data the encoder reads: degree, plaintext
modulus and its NTT, the SIMD slot permutation, and the per-level contexts. -/

inductive PolyType where
  | Q
  | P
deriving DecidableEq

structure BfvParameters where
  degree : Nat
  plaintext_modulus : Nat
  plaintext_ntt_op : NttOp
  matrix_reps_index_map : List Nat
  polyContexts : PolyType → Nat → PolyContext
  polyOps : PolyType → Nat → List NttOp

/-- Modelled from the spec: the precomputed per-level constant `[Q_l mod t]`. -/
def qlModT (params : BfvParameters) (level : Nat) : Nat :=
  (params.polyContexts PolyType.Q level).moduli.prod % params.plaintext_modulus

/-- Validity of the parameter bundle (spec section 4.3). -/
def ParamsOk (params : BfvParameters) : Prop :=
  0 < params.degree ∧ 1 < params.plaintext_modulus ∧
  params.plaintext_ntt_op.q = params.plaintext_modulus ∧
  params.plaintext_ntt_op.N = params.degree ∧
  params.matrix_reps_index_map.length = params.degree ∧
  (∀ i ∈ params.matrix_reps_index_map, i < params.degree) ∧
  params.matrix_reps_index_map.Nodup

/-- Validity of the ciphertext context chain at one level. -/
def LevelOk (params : BfvParameters) (level : Nat) : Prop :=
  CtxOk (params.polyContexts PolyType.Q level) ∧
  OpsMatch (params.polyContexts PolyType.Q level) (params.polyOps PolyType.Q level) ∧
  (params.polyContexts PolyType.Q level).degree = params.degree ∧
  ∀ q ∈ (params.polyContexts PolyType.Q level).moduli,
    Nat.Coprime params.plaintext_modulus q

inductive EncodingType where
  | Simd
  | Poly
deriving DecidableEq

inductive PolyCache where
  | Mul (polyType : PolyType)
  | AddSub (repr : Representation)
  | All (polyType : PolyType) (repr : Representation)
  | None
deriving DecidableEq

structure Encoding where
  encoding_type : EncodingType
  poly_cache : PolyCache
  level : Nat
deriving DecidableEq

structure Plaintext where
  m : List Nat
  encoding : Option Encoding
  mul_poly : Option Poly
  add_sub_poly : Option Poly
deriving DecidableEq

/-! ### The scatter loop of `encode` -/

/-- The write loop `for (i, v) in m: m1[pos(i)] = v` over a zero buffer. -/
def scatterN (pos : Nat → Nat) (m base : List Nat) (n : Nat) : List Nat :=
  (List.range n).foldl (fun acc i => acc.set (pos i) (m.getD i 0)) base

def scatterAt (pos : Nat → Nat) (m base : List Nat) : List Nat :=
  scatterN pos m base m.length

theorem scatterN_succ (pos : Nat → Nat) (m base : List Nat) (n : Nat) :
    scatterN pos m base (n+1) = (scatterN pos m base n).set (pos n) (m.getD n 0) := by
  unfold scatterN
  rw [List.range_succ, List.foldl_append]
  rfl

theorem scatterN_length (pos : Nat → Nat) (m base : List Nat) :
    ∀ n, (scatterN pos m base n).length = base.length := by
  intro n
  induction n with
  | zero => rfl
  | succ k ih => rw [scatterN_succ, List.length_set, ih]

theorem scatterN_getD_miss (pos : Nat → Nat) (m base : List Nat) (k : Nat) :
    ∀ n, (∀ i < n, pos i ≠ k) →
    (scatterN pos m base n).getD k 0 = base.getD k 0 := by
  intro n
  induction n with
  | zero => intro _; rfl
  | succ j ih =>
    intro h
    rw [scatterN_succ]
    rw [List.getD_eq_getElem?_getD, List.getElem?_set_ne (h j (by omega)),
      ← List.getD_eq_getElem?_getD]
    exact ih (fun i hi => h i (by omega))

theorem scatterN_getD_hit (pos : Nat → Nat) (m base : List Nat) (i : Nat)
    (hlt : pos i < base.length)
    (hinj : ∀ j, j < m.length → pos j = pos i → j = i) :
    ∀ n, n ≤ m.length → i < n → (scatterN pos m base n).getD (pos i) 0 = m.getD i 0 := by
  intro n
  induction n with
  | zero => omega
  | succ j ih =>
    intro hnm hin
    rw [scatterN_succ]
    by_cases hij : i = j
    · subst hij
      rw [List.getD_eq_getElem?_getD,
        List.getElem?_set_self (by rw [scatterN_length]; exact hlt)]
      rfl
    · rw [List.getD_eq_getElem?_getD,
        List.getElem?_set_ne (fun hc => hij (hinj j (by omega) hc).symm),
        ← List.getD_eq_getElem?_getD]
      exact ih (by omega) (by omega)

/-! ### `Plaintext::scale_m`, `Plaintext::encode`, `Plaintext::decode` -/

/-- `Plaintext::scale_m` (`plaintext.rs` lines 153-208): multiply `m` by
`[Q_l mod t]` mod `t`, center each value, multiply by the inverse of `-t`
modulo every `q_i` (reducing into `[0, q_i)`), assemble the Coefficient-form
polynomial, switch it to Evaluation, then into the requested representation. -/
def scale_m (m : List Nat) (params : BfvParameters) (encoding : Encoding)
    (representation : Representation) : Poly :=
  let t := params.plaintext_modulus
  let m1 := scalarMulVec t (qlModT params encoding.level) m
  let ctx := params.polyContexts PolyType.Q encoding.level
  let rows := ctx.moduli.map (fun qi =>
    let delta := invMod qi (negMod qi t)
    m1.map (fun x => ((center t x * (delta : Int)) % (qi : Int)).toNat))
  let mPoly : Poly :=
    { context := ctx, representation := Representation.Coefficient, coefficients := rows }
  let ops := params.polyOps PolyType.Q encoding.level
  let mPolyE := changeRep ops mPoly Representation.Evaluation
  if representation ≠ Representation.Evaluation then changeRep ops mPolyE representation
  else mPolyE

/-- The scatter positions used by `encode`: through the SIMD permutation for
`Simd`, the identity for `Poly` encoding. -/
def encodePos (params : BfvParameters) (encoding : Encoding) (i : Nat) : Nat :=
  if encoding.encoding_type = EncodingType.Simd then
    params.matrix_reps_index_map.getD i 0
  else i

/-- `Plaintext::encode` (`plaintext.rs` lines 68-122).  The length assertion is
modelled as `none`. -/
def encode (m : List Nat) (params : BfvParameters) (encoding : Encoding) :
    Option Plaintext :=
  if m.length ≤ params.degree then
    let scattered := scatterAt (encodePos params encoding) m
      (List.replicate params.degree 0)
    let mr := reduceVecU64 params.plaintext_modulus scattered
    let m1 := if encoding.encoding_type = EncodingType.Simd then
        params.plaintext_ntt_op.bwd mr
      else mr
    let cached : Option Poly × Option Poly :=
      match encoding.poly_cache with
      | PolyCache.Mul pt =>
        let ctx := params.polyContexts pt encoding.level
        let ops := params.polyOps pt encoding.level
        (some (changeRep ops (liftNat ctx Representation.Coefficient m1)
          Representation.Evaluation), none)
      | PolyCache.AddSub r => (none, some (scale_m m1 params encoding r))
      | PolyCache.All pt r =>
        let ctx := params.polyContexts pt encoding.level
        let ops := params.polyOps pt encoding.level
        (some (changeRep ops (liftNat ctx Representation.Coefficient m1)
          Representation.Evaluation), some (scale_m m1 params encoding r))
      | PolyCache.None => (none, none)
    some { m := m1, encoding := some encoding,
           mul_poly := cached.1, add_sub_poly := cached.2 }
  else none

/-- `Plaintext::decode` (`plaintext.rs` lines 124-146).  The assertion
`assert!(self.encoding.is_none())` is modelled as `none`. -/
def decode (pt : Plaintext) (encoding : Encoding) (params : BfvParameters) :
    Option (List Nat) :=
  if pt.encoding.isSome then none
  else
    let m1 := if encoding.encoding_type = EncodingType.Simd then
        params.plaintext_ntt_op.fwd pt.m
      else pt.m
    some ((List.range params.degree).map (fun i =>
      m1.getD (encodePos params encoding i) 0))

/-! ### Facts about `encode` and `decode` -/

theorem getD_map_mod (q : Nat) (v : List Nat) (k : Nat) (h : k < v.length) :
    (reduceVecU64 q v).getD k 0 = v.getD k 0 % q := by
  unfold reduceVecU64
  rw [List.getD_eq_getElem?_getD, List.getElem?_map, List.getElem?_eq_getElem h,
    List.getD_eq_getElem?_getD, List.getElem?_eq_getElem h]
  rfl

theorem getD_replicate_zero (n k : Nat) : (List.replicate n (0 : Nat)).getD k 0 = 0 := by
  rw [List.getD_eq_getElem?_getD, List.getElem?_replicate]
  by_cases h : k < n <;> simp [h]

theorem getD_mem_of_lt (l : List Nat) (n : Nat) (h : n < l.length) : l.getD n 0 ∈ l := by
  rw [List.getD_eq_getElem?_getD, List.getElem?_eq_getElem h]
  exact List.getElem_mem h

theorem nodup_getD_inj (l : List Nat) (h : l.Nodup) (i j : Nat)
    (hi : i < l.length) (hj : j < l.length) (he : l.getD i 0 = l.getD j 0) : i = j := by
  rw [List.getD_eq_getElem?_getD, List.getD_eq_getElem?_getD,
    List.getElem?_eq_getElem hi, List.getElem?_eq_getElem hj] at he
  simp only [Option.getD_some] at he
  exact (List.Nodup.getElem_inj_iff h).mp he

theorem encode_fields (m : List Nat) (params : BfvParameters) (enc : Encoding)
    (pt : Plaintext) (he : encode m params enc = some pt) :
    m.length ≤ params.degree ∧
    pt.m = (if enc.encoding_type = EncodingType.Simd then
        params.plaintext_ntt_op.bwd (reduceVecU64 params.plaintext_modulus
          (scatterAt (encodePos params enc) m (List.replicate params.degree 0)))
      else reduceVecU64 params.plaintext_modulus
          (scatterAt (encodePos params enc) m (List.replicate params.degree 0))) ∧
    pt.encoding = some enc := by
  unfold encode at he
  by_cases h : m.length ≤ params.degree
  · rw [if_pos h] at he
    injection he with he
    refine ⟨h, ?_, ?_⟩ <;> rw [← he]
  · rw [if_neg h] at he
    cases he

/-- The mathematical content of the decode path once the stored-encoding
assertion is out of the way: applied to a plaintext whose `encoding` field is
cleared, decoding the buffer produced by `encode` returns the message,
zero-padded to the degree and reduced modulo `t`. -/
theorem decode_encode_cleared (params : BfvParameters) (enc : Encoding)
    (m : List Nat) (pt : Plaintext)
    (hp : ParamsOk params) (he : encode m params enc = some pt) :
    decode { pt with encoding := none } enc params
      = some ((List.range params.degree).map (fun i =>
          if i < m.length then m.getD i 0 % params.plaintext_modulus else 0)) := by
  obtain ⟨hN, ht, hq, hNN, hπlen, hπlt, hπnd⟩ := hp
  obtain ⟨hm, hptm, -⟩ := encode_fields m params enc pt he
  unfold decode
  rw [if_neg (by simp)]
  have hmr : VecOk params.plaintext_modulus params.degree
      (reduceVecU64 params.plaintext_modulus
        (scatterAt (encodePos params enc) m (List.replicate params.degree 0))) := by
    apply reduceVecU64_ok _ _ (by omega)
    rw [scatterAt, scatterN_length, List.length_replicate]
  have hmr' : VecOk params.plaintext_ntt_op.q params.plaintext_ntt_op.N
      (reduceVecU64 params.plaintext_modulus
        (scatterAt (encodePos params enc) m (List.replicate params.degree 0))) := by
    rw [hq, hNN]; exact hmr
  have hm1 : (if enc.encoding_type = EncodingType.Simd then
        params.plaintext_ntt_op.fwd pt.m else pt.m)
      = reduceVecU64 params.plaintext_modulus
          (scatterAt (encodePos params enc) m (List.replicate params.degree 0)) := by
    by_cases hsimd : enc.encoding_type = EncodingType.Simd
    · rw [if_pos hsimd, hptm, if_pos hsimd, params.plaintext_ntt_op.fwd_bwd _ hmr']
    · rw [if_neg hsimd, hptm, if_neg hsimd]
  simp only [hm1]
  congr 1
  apply List.map_congr_left
  intro i hi
  have hiN : i < params.degree := List.mem_range.mp hi
  have hposlt : encodePos params enc i < params.degree := by
    unfold encodePos
    by_cases hsimd : enc.encoding_type = EncodingType.Simd
    · rw [if_pos hsimd]
      exact hπlt _ (getD_mem_of_lt _ _ (by omega))
    · rw [if_neg hsimd]; exact hiN
  have hsclen : (scatterAt (encodePos params enc) m
      (List.replicate params.degree 0)).length = params.degree := by
    rw [scatterAt, scatterN_length, List.length_replicate]
  rw [getD_map_mod _ _ _ (by rw [hsclen]; exact hposlt)]
  have hinj : ∀ j, j < m.length → encodePos params enc j = encodePos params enc i → j = i := by
    intro j hj hpe
    unfold encodePos at hpe
    by_cases hsimd : enc.encoding_type = EncodingType.Simd
    · rw [if_pos hsimd, if_pos hsimd] at hpe
      exact nodup_getD_inj _ hπnd j i (by omega) (by omega) hpe
    · rwa [if_neg hsimd, if_neg hsimd] at hpe
  by_cases him : i < m.length
  · rw [if_pos him, scatterAt,
      scatterN_getD_hit _ _ _ i (by rw [List.length_replicate]; exact hposlt) hinj
        m.length le_rfl him]
  · rw [if_neg him, scatterAt,
      scatterN_getD_miss _ _ _ _ m.length
        (fun j hj hc => him (hinj j hj hc ▸ hj)),
      getD_replicate_zero, Nat.zero_mod]

/-! ### Concrete parameters used to exhibit behaviour at explicit inputs
(degree 1, plaintext modulus 5, ciphertext chain `[17, 13]`). -/

def tCtx : PolyContext := { moduli := [17, 13], degree := 1 }

def tParams : BfvParameters :=
  { degree := 1
    plaintext_modulus := 5
    plaintext_ntt_op := idNtt 5
    matrix_reps_index_map := [0]
    polyContexts := fun _ _ => tCtx
    polyOps := fun _ _ => [idNtt 17, idNtt 13] }

def tEnc : Encoding :=
  { encoding_type := EncodingType.Simd, poly_cache := PolyCache.None, level := 0 }

theorem tParams_ok : ParamsOk tParams := by
  unfold ParamsOk
  exact ⟨by decide, by decide, rfl, rfl, rfl, by decide, by decide⟩

/-- C9: a `Plaintext` whose `encoding` field is set — in particular any
plaintext returned by `Plaintext::encode`, which always stores its encoding —
makes `decode` fail its `assert!(self.encoding.is_none())` regardless of the
encoding argument and parameters passed. -/
theorem decode_rejects_stored_encoding (pt : Plaintext) (enc : Encoding)
    (params : BfvParameters) (h : pt.encoding.isSome) :
    decode pt enc params = none ∧
    ∀ m params' enc' pt', encode m params' enc' = some pt' →
      pt'.encoding = some enc' := by
  constructor
  · unfold decode
    rw [if_pos h]
  · intro m params' enc' pt' he
    exact (encode_fields m params' enc' pt' he).2.2

theorem decode_rejects_stored_encoding_witness :
    decode { m := [0], encoding := some tEnc, mul_poly := none,
             add_sub_poly := none } tEnc tParams = none :=
  (decode_rejects_stored_encoding _ tEnc tParams (by decide)).1

/-- C1 (code bug): at the concrete input `m = [1]` with the SIMD encoding
descriptor, `decode (encode m)` panics — `encode` stores the encoding and
`decode` asserts it absent — where the claim says it returns `m`; and once the
stored encoding is cleared the decode path does recover `m` zero-padded and
reduced modulo `t`, so the round-trip invariant is the intent and the
assertion is the slip. -/
theorem encode_decode_roundtrip_panics :
    ((encode [1] tParams tEnc).bind (fun pt => decode pt tEnc tParams) = none) ∧
    ((encode [1] tParams tEnc).bind (fun pt =>
        decode { pt with encoding := none } tEnc tParams) = some [1]) := by
  have hs : (encode [1] tParams tEnc).isSome := by decide
  obtain ⟨pt, hpt⟩ := Option.isSome_iff_exists.mp hs
  constructor
  · rw [hpt, Option.some_bind]
    have hsome : pt.encoding.isSome := by
      rw [(encode_fields _ _ _ _ hpt).2.2]
      rfl
    exact (decode_rejects_stored_encoding pt tEnc tParams hsome).1
  · rw [hpt, Option.some_bind]
    rw [decode_encode_cleared tParams tEnc [1] pt tParams_ok hpt]
    rfl

/-! ## CRT reconstruction

Modelled from the spec (`poly.rs` missing): reconstructing the big-integer
coefficients of an RNS polynomial, `x = sum_i x_i * Qhat_i * Qhat_i_inv mod Q`. -/

def qHat (mods : List Nat) (i : Nat) : Nat := (mods.eraseIdx i).prod

def crtRec (mods rs : List Nat) : Nat :=
  (∑ i in Finset.range mods.length,
    rs.getD i 0 * qHat mods i * invMod (mods.getD i 0) (qHat mods i % mods.getD i 0))
  % mods.prod

theorem getD_mem_of_lt' {α : Type} [Inhabited α] (l : List α) (n : Nat) (d : α)
    (h : n < l.length) : l.getD n d ∈ l := by
  rw [List.getD_eq_getElem?_getD, List.getElem?_eq_getElem h]
  exact List.getElem_mem h

theorem mem_eraseIdx_of_ne (mods : List Nat) (i j : Nat) (hne : i ≠ j)
    (hj : j < mods.length) : mods.getD j 0 ∈ mods.eraseIdx i := by
  rcases Nat.lt_or_ge j i with hji | hij
  · have hjlen : j < (mods.eraseIdx i).length := by
      rw [List.length_eraseIdx]
      split <;> omega
    have : (mods.eraseIdx i).getD j 0 = mods.getD j 0 := by
      rw [List.getD_eq_getElem?_getD, List.getD_eq_getElem?_getD,
        List.getElem?_eq_getElem hjlen, List.getElem?_eq_getElem hj,
        List.getElem_eraseIdx_of_lt _ _ _ hjlen hji]
    rw [← this]
    exact getD_mem_of_lt' _ _ _ hjlen
  · have hij' : i < j := by omega
    have hj1 : j - 1 < (mods.eraseIdx i).length := by
      rw [List.length_eraseIdx]
      split <;> omega
    have : (mods.eraseIdx i).getD (j - 1) 0 = mods.getD j 0 := by
      rw [List.getD_eq_getElem?_getD, List.getD_eq_getElem?_getD,
        List.getElem?_eq_getElem hj1, List.getElem?_eq_getElem hj]
      simp only [Option.getD_some]
      rw [List.getElem_eraseIdx_of_ge _ _ _ hj1 (by omega)]
      congr 1
      omega
    rw [← this]
    exact getD_mem_of_lt' _ _ _ hj1

theorem pairwise_coprime_eraseIdx (mods : List Nat) (h : mods.Pairwise Nat.Coprime)
    (j : Nat) (hj : j < mods.length) :
    ∀ x ∈ mods.eraseIdx j, Nat.Coprime (mods.getD j 0) x := by
  intro x hx
  obtain ⟨k, hk, hxk⟩ := List.mem_iff_getElem.mp hx
  have hpg := List.pairwise_iff_getElem.mp h
  have hjget : mods.getD j 0 = mods[j] := by
    rw [List.getD_eq_getElem?_getD, List.getElem?_eq_getElem hj]
    rfl
  rcases Nat.lt_or_ge k j with hkj | hjk
  · have hklen : k < mods.length := by
      rw [List.length_eraseIdx] at hk
      split at hk <;> omega
    have hget : (mods.eraseIdx j)[k] = mods[k] := List.getElem_eraseIdx_of_lt _ _ _ hk hkj
    rw [← hxk, hget, hjget]
    exact Nat.Coprime.symm (hpg k j hklen hj hkj)
  · have hk1 : k + 1 < mods.length := by
      rw [List.length_eraseIdx] at hk
      split at hk <;> omega
    have hget : (mods.eraseIdx j)[k] = mods[k + 1] := by
      rw [List.getElem_eraseIdx_of_ge _ _ _ hk hjk]
    rw [← hxk, hget, hjget]
    exact hpg j (k + 1) hj hk1 (by omega)

theorem coprime_qHat (mods : List Nat) (h : mods.Pairwise Nat.Coprime)
    (j : Nat) (hj : j < mods.length) :
    Nat.Coprime (qHat mods j) (mods.getD j 0) := by
  unfold qHat
  rw [Nat.coprime_comm]
  exact Nat.coprime_list_prod_right_iff.mpr (pairwise_coprime_eraseIdx mods h j hj)

theorem dvd_qHat_of_ne (mods : List Nat) (i j : Nat) (hne : i ≠ j)
    (hj : j < mods.length) : mods.getD j 0 ∣ qHat mods i :=
  List.dvd_prod (mem_eraseIdx_of_ne mods i j hne hj)

theorem modEq_list_prod (mods : List Nat) (h : mods.Pairwise Nat.Coprime) (a b : Int) :
    (∀ j < mods.length, a ≡ b [ZMOD (mods.getD j 0 : Nat)]) →
    a ≡ b [ZMOD (mods.prod : Nat)] := by
  induction mods with
  | nil =>
    intro _
    simp only [List.prod_nil, Nat.cast_one]
    exact Int.modEq_one
  | cons q qs ih =>
    intro hall
    have hq : a ≡ b [ZMOD (q : Nat)] := hall 0 (by simp)
    have hqs : a ≡ b [ZMOD (qs.prod : Nat)] :=
      ih (List.Pairwise.sublist (List.sublist_cons_self q qs) h)
        (fun j hjl => hall (j + 1) (by simpa using Nat.succ_lt_succ hjl))
    have hcop : Nat.Coprime q qs.prod :=
      Nat.coprime_list_prod_right_iff.mpr (fun n hn => List.rel_of_pairwise_cons h hn)
    have hcop' : (Nat.cast q : Int).natAbs.Coprime (Nat.cast (qs.prod) : Int).natAbs := by
      rw [Int.natAbs_ofNat, Int.natAbs_ofNat]
      exact hcop
    have := (Int.modEq_and_modEq_iff_modEq_mul hcop').mp ⟨hq, hqs⟩
    simpa [List.prod_cons] using this

/-- The reconstructed integer is congruent to `y` modulo the full product
whenever each residue is congruent to `y` at its own modulus. -/
theorem crtRec_modEq (mods rs : List Nat) (hcop : mods.Pairwise Nat.Coprime)
    (hgt : ∀ q ∈ mods, 1 < q) (y : Int)
    (hres : ∀ j < mods.length, ((rs.getD j 0 : Nat) : Int) ≡ y [ZMOD (mods.getD j 0 : Nat)]) :
    ((crtRec mods rs : Nat) : Int) ≡ y [ZMOD (mods.prod : Nat)] := by
  unfold crtRec
  have hmodstep : ∀ S : Nat, (((S % mods.prod : Nat)) : Int) ≡ (S : Int)
      [ZMOD (mods.prod : Nat)] := by
    intro S
    have : ((S % mods.prod : Nat) : Int) = (S : Int) % (mods.prod : Nat) := by push_cast; rfl
    rw [this]
    exact Int.mod_modEq _ _
  refine (hmodstep _).trans ?_
  apply modEq_list_prod mods hcop
  intro j hj
  have hqj : 1 < mods.getD j 0 := hgt _ (getD_mem_of_lt' _ _ _ hj)
  -- split off the j-th term of the sum
  have hsplit := Finset.add_sum_erase (Finset.range mods.length)
    (fun i => rs.getD i 0 * qHat mods i * invMod (mods.getD i 0) (qHat mods i % mods.getD i 0))
    (Finset.mem_range.mpr hj)
  have hcast : ((∑ i in Finset.range mods.length,
      rs.getD i 0 * qHat mods i * invMod (mods.getD i 0) (qHat mods i % mods.getD i 0) : Nat) : Int)
      = ((rs.getD j 0 * qHat mods j * invMod (mods.getD j 0) (qHat mods j % mods.getD j 0) : Nat) : Int)
        + ((∑ i in (Finset.range mods.length).erase j,
            rs.getD i 0 * qHat mods i * invMod (mods.getD i 0) (qHat mods i % mods.getD i 0) : Nat) : Int) := by
    rw [← hsplit]
    push_cast
    ring
  rw [hcast]
  -- the erased part vanishes modulo the j-th modulus
  have hrest : ((∑ i in (Finset.range mods.length).erase j,
      rs.getD i 0 * qHat mods i * invMod (mods.getD i 0) (qHat mods i % mods.getD i 0) : Nat) : Int)
      ≡ 0 [ZMOD (mods.getD j 0 : Nat)] := by
    have : ((∑ i in (Finset.range mods.length).erase j,
        rs.getD i 0 * qHat mods i * invMod (mods.getD i 0) (qHat mods i % mods.getD i 0) : Nat) : Int)
        = ∑ i in (Finset.range mods.length).erase j,
          ((rs.getD i 0 * qHat mods i * invMod (mods.getD i 0) (qHat mods i % mods.getD i 0) : Nat) : Int) := by
      push_cast
      rfl
    rw [this]
    have hz : (0 : Int) = ∑ _i in (Finset.range mods.length).erase j, (0 : Int) := by simp
    rw [hz]
    apply modEq_sum
    intro i hi
    have hine : i ≠ j := Finset.ne_of_mem_erase hi
    have hdvd : (mods.getD j 0 : Int) ∣
        ((rs.getD i 0 * qHat mods i * invMod (mods.getD i 0) (qHat mods i % mods.getD i 0) : Nat) : Int) := by
      have : mods.getD j 0 ∣ rs.getD i 0 * qHat mods i *
          invMod (mods.getD i 0) (qHat mods i % mods.getD i 0) :=
        Dvd.dvd.mul_right (Dvd.dvd.mul_left (dvd_qHat_of_ne mods i j hine hj) _) _
      exact_mod_cast Int.natCast_dvd_natCast.mpr this
    exact Int.modEq_zero_iff_dvd.mpr hdvd
  -- the j-th term is congruent to the residue
  have hinvco : Nat.Coprime (qHat mods j % mods.getD j 0) (mods.getD j 0) := by
    have h1 : Nat.gcd (qHat mods j % mods.getD j 0) (mods.getD j 0)
        = Nat.gcd (mods.getD j 0) (qHat mods j) := (Nat.gcd_rec _ _).symm
    have h2 : Nat.gcd (mods.getD j 0) (qHat mods j) = Nat.gcd (qHat mods j) (mods.getD j 0) :=
      Nat.gcd_comm _ _
    unfold Nat.Coprime
    rw [h1, h2]
    exact coprime_qHat mods hcop j hj
  have hinv1 : (qHat mods j % mods.getD j 0) *
      invMod (mods.getD j 0) (qHat mods j % mods.getD j 0) % mods.getD j 0 = 1 :=
    invMod_spec _ _ hqj hinvco
  have hmul1 : qHat mods j * invMod (mods.getD j 0) (qHat mods j % mods.getD j 0)
      ≡ 1 [MOD mods.getD j 0] := by
    calc qHat mods j * invMod (mods.getD j 0) (qHat mods j % mods.getD j 0)
        ≡ (qHat mods j % mods.getD j 0) *
          invMod (mods.getD j 0) (qHat mods j % mods.getD j 0) [MOD mods.getD j 0] :=
          Nat.ModEq.mul_right _ (Nat.mod_modEq _ _).symm
      _ ≡ 1 [MOD mods.getD j 0] := by
          unfold Nat.ModEq
          rw [hinv1, Nat.one_mod_eq_one.mpr (by omega)]
  have hterm : ((rs.getD j 0 * qHat mods j *
      invMod (mods.getD j 0) (qHat mods j % mods.getD j 0) : Nat) : Int)
      ≡ (rs.getD j 0 : Int) [ZMOD (mods.getD j 0 : Nat)] := by
    have hn : rs.getD j 0 * qHat mods j * invMod (mods.getD j 0) (qHat mods j % mods.getD j 0)
        ≡ rs.getD j 0 * 1 [MOD mods.getD j 0] := by
      rw [mul_assoc]
      exact Nat.ModEq.mul_left _ hmul1
    have hn' : rs.getD j 0 * qHat mods j * invMod (mods.getD j 0) (qHat mods j % mods.getD j 0)
        ≡ rs.getD j 0 [MOD mods.getD j 0] := by simpa using hn
    exact Int.natCast_modEq_iff.mpr hn'
  calc ((rs.getD j 0 * qHat mods j *
        invMod (mods.getD j 0) (qHat mods j % mods.getD j 0) : Nat) : Int)
        + ((∑ i in (Finset.range mods.length).erase j,
            rs.getD i 0 * qHat mods i * invMod (mods.getD i 0) (qHat mods i % mods.getD i 0) : Nat) : Int)
      ≡ (rs.getD j 0 : Int) + 0 [ZMOD (mods.getD j 0 : Nat)] := Int.ModEq.add hterm hrest
    _ = (rs.getD j 0 : Int) := add_zero _
    _ ≡ y [ZMOD (mods.getD j 0 : Nat)] := hres j hj

theorem crtRec_lt (mods rs : List Nat) (hgt : ∀ q ∈ mods, 1 < q) :
    crtRec mods rs < mods.prod := by
  have hpos : 0 < mods.prod := List.prod_pos (fun q hq => by have := hgt q hq; omega)
  unfold crtRec
  exact Nat.mod_lt _ hpos

/-- Reconstruction is exact: residues of an integer `k < Q` reconstruct to `k`. -/
theorem crtRec_eq (mods rs : List Nat) (hcop : mods.Pairwise Nat.Coprime)
    (hgt : ∀ q ∈ mods, 1 < q) (k : Nat) (hk : k < mods.prod)
    (hres : ∀ j < mods.length, rs.getD j 0 = k % mods.getD j 0) :
    crtRec mods rs = k := by
  have hme : ((crtRec mods rs : Nat) : Int) ≡ (k : Int) [ZMOD (mods.prod : Nat)] := by
    apply crtRec_modEq mods rs hcop hgt
    intro j hj
    rw [hres j hj]
    exact Int.natCast_modEq_iff.mpr (Nat.mod_modEq k _)
  have hnat : crtRec mods rs ≡ k [MOD mods.prod] := Int.natCast_modEq_iff.mp hme
  have h1 : crtRec mods rs % mods.prod = k % mods.prod := hnat
  rw [Nat.mod_eq_of_lt (crtRec_lt mods rs hgt), Nat.mod_eq_of_lt hk] at h1
  exact h1

/-- The centered reconstruction of residues congruent to an integer `y` of
magnitude at most `B` is itself bounded by `B` in magnitude. -/
theorem center_crtRec_bound (mods rs : List Nat) (hcop : mods.Pairwise Nat.Coprime)
    (hgt : ∀ q ∈ mods, 1 < q) (y : Int) (B : Nat) (hy : |y| ≤ (B : Int))
    (hres : ∀ j < mods.length, ((rs.getD j 0 : Nat) : Int) ≡ y [ZMOD (mods.getD j 0 : Nat)]) :
    |center mods.prod (crtRec mods rs)| ≤ (B : Int) := by
  have hv : crtRec mods rs < mods.prod := crtRec_lt mods rs hgt
  obtain ⟨hcmod, hchigh, hclow⟩ := center_spec mods.prod (crtRec mods rs) hv
  have hcy : center mods.prod (crtRec mods rs) ≡ y [ZMOD (mods.prod : Nat)] :=
    Int.ModEq.trans hcmod (crtRec_modEq mods rs hcop hgt y hres)
  obtain ⟨hyl, hyr⟩ := abs_le.mp hy
  rcases Int.le_or_lt (mods.prod : Int) (2 * B) with hcase | hcase
  · apply abs_le.mpr
    omega
  · have hdvd : ((mods.prod : Nat) : Int) ∣ center mods.prod (crtRec mods rs) - y :=
      Int.ModEq.dvd hcy.symm
    have hzero : center mods.prod (crtRec mods rs) - y = 0 := by
      apply Int.eq_zero_of_abs_lt_dvd hdvd
      have := abs_lt.mpr (show -(mods.prod : Int) < center mods.prod (crtRec mods rs) - y
          ∧ center mods.prod (crtRec mods rs) - y < (mods.prod : Int) by omega)
      exact this
    have : center mods.prod (crtRec mods rs) = y := by omega
    rw [this]
    exact hy

/-! ## The `scale_m` identity (claim C3) -/

theorem getD_eq_getElem {α : Type} (l : List α) (i : Nat) (d : α) (h : i < l.length) :
    l.getD i d = l[i] := by
  rw [List.getD_eq_getElem?_getD, List.getElem?_eq_getElem h]
  rfl

theorem negMod_coprime (q t : Nat) (hq : 0 < q) (h : Nat.Coprime t q) :
    Nat.Coprime (negMod q t) q := by
  have hgq : Nat.gcd (negMod q t) q ∣ q := Nat.gcd_dvd_right _ _
  have hgn : Nat.gcd (negMod q t) q ∣ negMod q t := Nat.gcd_dvd_left _ _
  unfold negMod at hgn
  have hsub : Nat.gcd (negMod q t) q ∣ q - t % q := (Nat.dvd_mod_iff hgq).mp hgn
  have hmod : Nat.gcd (negMod q t) q ∣ t % q := by
    have heq : q - (q - t % q) = t % q := by
      have : t % q < q := Nat.mod_lt _ hq
      omega
    have := Nat.dvd_sub' hgq hsub
    rwa [heq] at this
  have hdt : Nat.gcd (negMod q t) q ∣ t := (Nat.dvd_mod_iff hgq).mp hmod
  have : Nat.gcd (negMod q t) q ∣ Nat.gcd t q := Nat.dvd_gcd hdt hgq
  rw [h] at this
  exact Nat.dvd_one.mp this

theorem negMod_modEq (q t : Nat) (hq : 0 < q) :
    ((negMod q t : Nat) : Int) ≡ -(t : Int) [ZMOD q] := by
  unfold negMod
  have hle : t % q ≤ q := le_of_lt (Nat.mod_lt _ hq)
  calc (((q - t % q) % q : Nat) : Int)
      ≡ ((q - t % q : Nat) : Int) [ZMOD q] :=
        Int.natCast_modEq_iff.mpr (Nat.mod_modEq _ _)
    _ = (q : Int) - ((t % q : Nat) : Int) := by
        push_cast [hle]
        ring
    _ ≡ 0 - ((t % q : Nat) : Int) [ZMOD q] :=
        Int.ModEq.sub (Int.modEq_zero_iff_dvd.mpr dvd_rfl) (Int.ModEq.refl _)
    _ = -((t % q : Nat) : Int) := by ring
    _ ≡ -(t : Int) [ZMOD q] :=
        Int.ModEq.neg (Int.natCast_modEq_iff.mpr (Nat.mod_modEq _ _))

/-- The per-entry identity of `scale_m`: centering `[Q*m]_t` and multiplying by
the inverse of `-t` modulo `q` computes `round(Q*[m]_t / t) mod q`. -/
theorem scale_entry (t q Qp x : Nat) (ht : 1 < t) (hq : 1 < q)
    (hcop : Nat.Coprime t q) (hdvd : q ∣ Qp) :
    ((center t ((Qp % t) * x % t) * (invMod q (negMod q t) : Int)) % (q : Int)).toNat
      = divRound (Qp * (x % t)) t % q := by
  have harg : (Qp % t) * x % t = Qp * (x % t) % t := by
    have h1 : (Qp % t) * x % t = Qp * x % t := Nat.mod_mul_mod
    have h2 : Qp * (x % t) % t = Qp * x % t := by
      rw [Nat.mul_mod, Nat.mod_mod_of_dvd x dvd_rfl, ← Nat.mul_mod]
    rw [h1, h2]
  rw [harg]
  have hkey := divRound_eq (Qp * (x % t)) t (by omega)
  have hcoq : Nat.Coprime (negMod q t) q := negMod_coprime q t (by omega) hcop
  have hinv := invMod_spec q (negMod q t) hq hcoq
  have hinvInt : ((negMod q t : Nat) : Int) * ((invMod q (negMod q t) : Nat) : Int)
      ≡ 1 [ZMOD q] := by
    have hn : negMod q t * invMod q (negMod q t) ≡ 1 [MOD q] := by
      unfold Nat.ModEq
      rw [hinv, Nat.one_mod_eq_one.mpr (by omega)]
    have := Int.natCast_modEq_iff.mpr hn
    push_cast at this
    exact this
  have hneg : (-(t : Int)) * ((invMod q (negMod q t) : Nat) : Int) ≡ 1 [ZMOD q] :=
    Int.ModEq.trans (Int.ModEq.mul_right _ (negMod_modEq q t (by omega)).symm) hinvInt
  have ha0 : ((Qp * (x % t) : Nat) : Int) ≡ 0 [ZMOD q] := by
    apply Int.modEq_zero_iff_dvd.mpr
    exact_mod_cast Int.natCast_dvd_natCast.mpr (Dvd.dvd.mul_right hdvd _)
  have hcong : center t (Qp * (x % t) % t) * ((invMod q (negMod q t) : Nat) : Int)
      ≡ (divRound (Qp * (x % t)) t : Int) [ZMOD q] := by
    have h1 : (divRound (Qp * (x % t)) t : Int)
        ≡ (divRound (Qp * (x % t)) t : Int) * ((-(t : Int)) *
            ((invMod q (negMod q t) : Nat) : Int)) [ZMOD q] := by
      have := Int.ModEq.mul_left (divRound (Qp * (x % t)) t : Int) hneg
      simpa using this.symm
    have h2 : (divRound (Qp * (x % t)) t : Int) * ((-(t : Int)) *
          ((invMod q (negMod q t) : Nat) : Int))
        = (center t (Qp * (x % t) % t) - ((Qp * (x % t) : Nat) : Int)) *
            ((invMod q (negMod q t) : Nat) : Int) := by
      have : (divRound (Qp * (x % t)) t : Int) * (-(t : Int))
          = center t (Qp * (x % t) % t) - ((Qp * (x % t) : Nat) : Int) := by
        have hk := hkey
        push_cast at hk ⊢
        linarith
      rw [← mul_assoc, this]
    have h3 : (center t (Qp * (x % t) % t) - ((Qp * (x % t) : Nat) : Int)) *
          ((invMod q (negMod q t) : Nat) : Int)
        ≡ (center t (Qp * (x % t) % t) - 0) *
            ((invMod q (negMod q t) : Nat) : Int) [ZMOD q] :=
      Int.ModEq.mul_right _ (Int.ModEq.sub (Int.ModEq.refl _) ha0)
    have h4 : (center t (Qp * (x % t) % t) - 0) *
          ((invMod q (negMod q t) : Nat) : Int)
        = center t (Qp * (x % t) % t) * ((invMod q (negMod q t) : Nat) : Int) := by
      ring
    exact (((h1.trans (h2 ▸ Int.ModEq.refl _)).trans h3).trans (h4 ▸ Int.ModEq.refl _)).symm
  have hfin : (center t (Qp * (x % t) % t) * ((invMod q (negMod q t) : Nat) : Int)) % (q : Int)
      = ((divRound (Qp * (x % t)) t % q : Nat) : Int) := by
    rw [hcong]
    push_cast
    rfl
  rw [hfin]
  exact Int.toNat_ofNat _

theorem getD_map_lt {α β : Type} (f : α → β) (l : List α) (i : Nat) (d : β) (d0 : α)
    (h : i < l.length) : (l.map f).getD i d = f (l.getD i d0) := by
  rw [List.getD_eq_getElem?_getD, List.getElem?_map, List.getElem?_eq_getElem h,
    getD_eq_getElem _ _ _ h]
  rfl

/-- Converting a Coefficient-form polynomial to Evaluation and back is the
identity (rowwise NTT round trip). -/
theorem changeRep_coeff_roundtrip (ops : List NttOp) (p : Poly)
    (hrep : p.representation = Representation.Coefficient)
    (hok : PolyOk p) (hmatch : OpsMatch p.context ops) :
    changeRep ops (changeRep ops p Representation.Evaluation) Representation.Coefficient = p := by
  obtain ⟨hlen, hvec⟩ := hok
  obtain ⟨holen, hops⟩ := hmatch
  have hco : List.zipWith (fun op row => op.bwd row) ops
      (List.zipWith (fun op row => op.fwd row) ops p.coefficients) = p.coefficients := by
    apply List.ext_getElem
    · simp [hlen, holen]
    · intro i h1 h2
      rw [List.getElem_zipWith, List.getElem_zipWith]
      have hi : i < ops.length := by simp at h1; omega
      have hic : i < p.coefficients.length := by simp at h1; omega
      have hvi := hvec i hic
      rw [getD_eq_getElem _ _ _ hic] at hvi
      have hqi := hops i hi
      rw [getD_eq_getElem _ _ _ hi] at hqi
      have hvok : VecOk ops[i].q ops[i].N p.coefficients[i] := by
        rw [hqi.1, hqi.2]
        exact hvi
      exact ops[i].bwd_fwd _ hvok
  cases p with
  | mk ctx r c =>
    simp only at hco hrep
    subst hrep
    simp [changeRep] at hco ⊢
    exact hco

/-- The polynomial `[round(Q_l * [m]_t / t)]_{Q_l}` in Coefficient form, as the
claim describes the result of `scale_m`. -/
def scaleSpecPoly (params : BfvParameters) (level : Nat) (m : List Nat) : Poly :=
  { context := params.polyContexts PolyType.Q level
    representation := Representation.Coefficient
    coefficients := (params.polyContexts PolyType.Q level).moduli.map (fun qi =>
      m.map (fun x => divRound ((params.polyContexts PolyType.Q level).moduli.prod
        * (x % params.plaintext_modulus)) params.plaintext_modulus % qi)) }

theorem scaleSpecPoly_ok (params : BfvParameters) (level : Nat) (m : List Nat)
    (hq0 : ∀ q ∈ (params.polyContexts PolyType.Q level).moduli, 1 < q)
    (hdeg : (params.polyContexts PolyType.Q level).degree = params.degree)
    (hm : m.length = params.degree) : PolyOk (scaleSpecPoly params level m) := by
  unfold scaleSpecPoly PolyOk
  constructor
  · simp
  · intro i hi
    simp only [List.length_map] at hi
    rw [getD_map_lt _ _ _ _ 0 hi]
    constructor
    · simp [hm, hdeg]
    · apply map_mod_lt
      have := hq0 ((params.polyContexts PolyType.Q level).moduli.getD i 0)
        (getD_mem_of_lt' _ i 0 hi)
      omega

theorem changeRep_same {r : Representation} (ops : List NttOp) (p : Poly)
    (h : p.representation = r) : changeRep ops p r = p := by
  unfold changeRep
  rw [if_pos h]

theorem divRound_zero (t : Nat) (ht : 0 < t) : divRound 0 t = 0 := by
  unfold divRound
  apply Nat.div_eq_of_lt
  omega

theorem divRound_lt_self (Qp t : Nat) (hQ : 0 < Qp) (ht : 1 < t) : divRound Qp t < Qp := by
  unfold divRound
  apply Nat.div_lt_of_lt_mul
  obtain ⟨s, rfl⟩ : ∃ s, t = s + 2 := ⟨t - 2, by omega⟩
  have h2 : s ≤ Qp * s := Nat.le_mul_of_pos_left s hQ
  calc 2 * Qp + (s + 2) - 1 = 2 * Qp + s + 1 := by omega
    _ < 4 * Qp + 2 * (Qp * s) := by omega
    _ = 2 * (s + 2) * Qp := by ring

/-- C3: `scale_m m params enc rep` equals the RNS polynomial
`[round(Q_l * [m]_t / t)]_{Q_l}` converted into the requested representation;
and for `m = [1, 0, ..., 0]` the reconstructed big-integer coefficient 0 is
`round(Q_l / t)` while all other coefficients reconstruct to 0. -/
theorem scale_m_spec (params : BfvParameters) (enc : Encoding) (rep : Representation)
    (m : List Nat) (hp : ParamsOk params) (hl : LevelOk params enc.level)
    (hm : m.length = params.degree) :
    scale_m m params enc rep
      = changeRep (params.polyOps PolyType.Q enc.level)
          (scaleSpecPoly params enc.level m) rep
    ∧ (m = 1 :: List.replicate (params.degree - 1) 0 →
        crtRec (params.polyContexts PolyType.Q enc.level).moduli
            ((scale_m m params enc Representation.Coefficient).coefficients.map
              (fun row => row.getD 0 0))
          = divRound (params.polyContexts PolyType.Q enc.level).moduli.prod
              params.plaintext_modulus
        ∧ ∀ j, 0 < j → j < params.degree →
            crtRec (params.polyContexts PolyType.Q enc.level).moduli
              ((scale_m m params enc Representation.Coefficient).coefficients.map
                (fun row => row.getD j 0)) = 0) := by
  obtain ⟨hN, ht, hq1, hq2, hq3, hq4, hq5⟩ := hp
  obtain ⟨⟨hqgt, hqcop, hdeg⟩, hopm, hdegeq, htcop⟩ := hl
  have hrows : (params.polyContexts PolyType.Q enc.level).moduli.map (fun qi =>
        (scalarMulVec params.plaintext_modulus (qlModT params enc.level) m).map
          (fun x => ((center params.plaintext_modulus x *
            (invMod qi (negMod qi params.plaintext_modulus) : Int)) % (qi : Int)).toNat))
      = (scaleSpecPoly params enc.level m).coefficients := by
    unfold scaleSpecPoly
    simp only
    apply List.map_congr_left
    intro qi hqi
    unfold scalarMulVec
    rw [List.map_map]
    apply List.map_congr_left
    intro x _
    show ((center params.plaintext_modulus (qlModT params enc.level * x %
        params.plaintext_modulus) *
        (invMod qi (negMod qi params.plaintext_modulus) : Int)) % (qi : Int)).toNat = _
    unfold qlModT
    exact scale_entry params.plaintext_modulus qi
      (params.polyContexts PolyType.Q enc.level).moduli.prod x ht (hqgt qi hqi)
      (htcop qi hqi) (List.dvd_prod hqi)
  have hAgen : ∀ r, scale_m m params enc r
      = changeRep (params.polyOps PolyType.Q enc.level)
          (scaleSpecPoly params enc.level m) r := by
    intro r
    have hunf : scale_m m params enc r =
        (if r ≠ Representation.Evaluation then
          changeRep (params.polyOps PolyType.Q enc.level)
            (changeRep (params.polyOps PolyType.Q enc.level)
              (scaleSpecPoly params enc.level m) Representation.Evaluation) r
        else changeRep (params.polyOps PolyType.Q enc.level)
            (scaleSpecPoly params enc.level m) Representation.Evaluation) := by
      unfold scale_m
      simp only [hrows]
      rfl
    rw [hunf]
    cases r with
    | Evaluation => simp
    | Coefficient =>
      rw [if_pos (by intro hcontra; cases hcontra)]
      rw [changeRep_coeff_roundtrip _ _ rfl
        (scaleSpecPoly_ok params enc.level m hqgt hdegeq hm) ⟨hopm.1, hopm.2⟩]
      exact (changeRep_same _ _ rfl).symm
  refine ⟨hAgen rep, ?_⟩
  intro hconc
  have hcoeff : (scale_m m params enc Representation.Coefficient).coefficients
      = (scaleSpecPoly params enc.level m).coefficients := by
    rw [hAgen Representation.Coefficient,
      changeRep_same (r := Representation.Coefficient)
        (params.polyOps PolyType.Q enc.level) (scaleSpecPoly params enc.level m) rfl]
  have hcol : ∀ j, j < params.degree →
      ∀ i, i < (params.polyContexts PolyType.Q enc.level).moduli.length →
      ((scale_m m params enc Representation.Coefficient).coefficients.map
        (fun row => row.getD j 0)).getD i 0
      = divRound ((params.polyContexts PolyType.Q enc.level).moduli.prod
          * (m.getD j 0 % params.plaintext_modulus)) params.plaintext_modulus
        % (params.polyContexts PolyType.Q enc.level).moduli.getD i 0 := by
    intro j hj i hi
    rw [hcoeff]
    unfold scaleSpecPoly
    simp only
    rw [List.map_map]
    rw [getD_map_lt _ _ _ _ 0 (by simpa using hi)]
    show (m.map _).getD j 0 = _
    rw [getD_map_lt _ _ _ _ 0 (by omega)]
  constructor
  · apply crtRec_eq _ _ hqcop hqgt
    · apply divRound_lt_self
      · exact List.prod_pos (fun q hq => by have := hqgt q hq; omega)
      · exact ht
    · intro i hi
      rw [hcol 0 (by omega) i hi]
      rw [hconc]
      show divRound (_ * (1 % params.plaintext_modulus)) _ % _ = _
      rw [Nat.mod_eq_of_lt ht, Nat.mul_one]
  · intro j hj0 hjN
    apply crtRec_eq _ _ hqcop hqgt 0
      (List.prod_pos (fun q hq => by have := hqgt q hq; omega))
    intro i hi
    rw [hcol j hjN i hi, hconc]
    have hj' : j - 1 + 1 = j := by omega
    have hgd : (1 :: List.replicate (params.degree - 1) 0).getD j 0 = 0 := by
      rw [← hj', List.getD_cons_succ, getD_replicate_zero]
    rw [hgd]
    rw [Nat.zero_mod, Nat.mul_zero, divRound_zero _ (by omega), Nat.zero_mod]

theorem tLevel_ok : LevelOk tParams 0 := by
  refine ⟨⟨by decide, ?_, by decide⟩, ⟨rfl, by decide⟩, rfl, by decide⟩
  decide

theorem scale_m_spec_witness :
    (scale_m [1] tParams tEnc Representation.Coefficient
      = changeRep (tParams.polyOps PolyType.Q tEnc.level)
          (scaleSpecPoly tParams tEnc.level [1]) Representation.Coefficient)
    ∧ ([1] = 1 :: List.replicate (tParams.degree - 1) 0 →
        crtRec (tParams.polyContexts PolyType.Q tEnc.level).moduli
            ((scale_m [1] tParams tEnc Representation.Coefficient).coefficients.map
              (fun row => row.getD 0 0))
          = divRound (tParams.polyContexts PolyType.Q tEnc.level).moduli.prod
              tParams.plaintext_modulus
        ∧ ∀ j, 0 < j → j < tParams.degree →
            crtRec (tParams.polyContexts PolyType.Q tEnc.level).moduli
              ((scale_m [1] tParams tEnc Representation.Coefficient).coefficients.map
                (fun row => row.getD j 0)) = 0) :=
  scale_m_spec tParams tEnc Representation.Coefficient [1] tParams_ok tLevel_ok rfl

/-! ## Key switching (`key_switching_key.rs`)

Randomness model: the ChaCha-seeded uniform sampler is an abstract deterministic
function `prg` of the stored seed (spec: "reconstruction is deterministic given
the seed"), and the Gaussian error vectors `es` are passed explicitly, one
signed integer vector per key element, constrained by the Gaussian bound where
a claim needs it. -/

/-- Modelled from the spec: the per-residue CRT generators `g_i =
Qhat_i * Qhat_i^-1 mod Q` attached to a ciphertext context (`poly.rs` missing). -/
def ctxG (C : PolyContext) : List Nat :=
  (List.range C.moduli.length).map (fun i =>
    qHat C.moduli i * invMod (C.moduli.getD i 0) (qHat C.moduli i % C.moduli.getD i 0))

/-- Modelled from the spec: `Poly::random` driven by a ChaCha stream seeded with
the stored seed; `prg seed i C` is the `i`-th polynomial drawn from the stream. -/
def generateC1Stream (prg : Nat → Nat → PolyContext → Poly) (count : Nat)
    (C : PolyContext) (seed : Nat) : List Poly :=
  (List.range count).map (fun i => prg seed i C)

/-- `BVKeySwitchingKey::generate_c1` (`key_switching_key.rs`). -/
def bvGenerateC1 (prg : Nat → Nat → PolyContext → Poly) (count : Nat)
    (ksk_ctx : PolyContext) (seed : Nat) : List Poly :=
  generateC1Stream prg count ksk_ctx seed

/-- `HybridKeySwitchingKey::generate_c1` (`key_switching_key.rs`). -/
def hybridGenerateC1 (prg : Nat → Nat → PolyContext → Poly) (count : Nat)
    (qp_ctx : PolyContext) (seed : Nat) : List Poly :=
  generateC1Stream prg count qp_ctx seed

/-- `BVKeySwitchingKey::generate_c0` (`key_switching_key.rs`):
`c0_i = g_i * a + e_i - c1_i * s`, all in Evaluation form over the ksk context. -/
def bvGenerateC0 (kskOps : List NttOp) (gs : List Nat) (kskCtx : PolyContext)
    (a : Poly) (c1s : List Poly) (sk : List Int) (es : List (List Int)) : List Poly :=
  let skP := changeRep kskOps (liftInt kskCtx Representation.Coefficient sk)
    Representation.Evaluation
  zipWith3 (fun gi c1 e =>
    let gP := liftNat kskCtx Representation.Evaluation (List.replicate kskCtx.degree gi)
    let gm := polyMulEval gP a
    let eP := changeRep kskOps (liftInt kskCtx Representation.Coefficient e)
      Representation.Evaluation
    polySub (polyAdd eP gm) (polyMulEval c1 skP)) gs c1s es

structure BVKeySwitchingKey where
  c0s : List Poly
  c1s : List Poly
  seed : Nat
  ciphertext_ctx : PolyContext
  ksk_ctx : PolyContext

/-- `BVKeySwitchingKey::new` (`key_switching_key.rs`). -/
def bvNew (prg : Nat → Nat → PolyContext → Poly) (kskOps : List NttOp) (a : Poly)
    (sk : List Int) (ciphertext_ctx : PolyContext) (es : List (List Int))
    (seed : Nat) : BVKeySwitchingKey :=
  let ksk_ctx := a.context
  let c1s := bvGenerateC1 prg ciphertext_ctx.moduli.length ksk_ctx seed
  let c0s := bvGenerateC0 kskOps (ctxG ciphertext_ctx) ksk_ctx a c1s sk es
  { c0s := c0s, c1s := c1s, seed := seed,
    ciphertext_ctx := ciphertext_ctx, ksk_ctx := ksk_ctx }

/-- The per-residue-row lift of `switch`: each row of the input becomes a
Coefficient polynomial over the ksk context and is sent to Evaluation form. -/
def liftRows (kskOps : List NttOp) (kctx : PolyContext) (x : Poly) : List Poly :=
  x.coefficients.map (fun row =>
    changeRep kskOps (liftNat kctx Representation.Coefficient row)
      Representation.Evaluation)

/-- `BVKeySwitchingKey::switch` (`key_switching_key.rs`): lift each residue row
of the input into the ksk context, NTT it, and accumulate the products with
the key elements (the first product seeds each accumulator). -/
def bvSwitch (kskOps : List NttOp) (k : BVKeySwitchingKey) (x : Poly) : List Poly :=
  let ps := liftRows kskOps k.ksk_ctx x
  [ sumPolys1 (List.zipWith polyMulEval ps k.c0s),
    sumPolys1 (List.zipWith (fun p c1 => polyMulEval c1 p) ps k.c1s) ]

/-! ### Hybrid variant -/

/-- `slice::chunks`: split a list into consecutive groups of `n` (the last group
may be shorter). -/
def chunksAux (n : Nat) : Nat → List α → List (List α)
  | 0, _ => []
  | _, [] => []
  | fuel+1, a :: l => (a :: l).take n :: chunksAux n fuel ((a :: l).drop n)

def chunks (n : Nat) (l : List α) : List (List α) := chunksAux n l.length l

/-- `BigUint::bits` (fuel-based binary length). -/
def natBitsAux : Nat → Nat → Nat
  | 0, _ => 0
  | fuel+1, x => if x = 0 then 0 else natBitsAux fuel (x / 2) + 1

def natBits (x : Nat) : Nat := natBitsAux (x + 1) x

/-- The `alpha` formula of `HybridKeySwitchingKey::new`:
`(len + (dnum >> 1)) / dnum`. -/
def hybridAlpha (len dnum : Nat) : Nat := (len + (dnum >>> 1)) / dnum

/-- The digit products `Q_j` of the ciphertext chain. -/
def digitProds (dnum : Nat) (mods : List Nat) : List Nat :=
  (chunks dnum mods).map List.prod

/-- The bit width of the largest digit product (`maxbits` in the source). -/
def hybridMaxBits (dnum : Nat) (mods : List Nat) : Nat :=
  ((digitProds dnum mods).map natBits).foldl max 0

/-- The size of the auxiliary chain: `ceil(maxbits / aux_bits)`.  The source
computes this with `f64` arithmetic, which is exact for every reachable bit
count (at most a few hundred), so the integer ceiling is the faithful model. -/
def hybridSizeP (dnum auxBits : Nat) (mods : List Nat) : Nat :=
  (hybridMaxBits dnum mods + auxBits - 1) / auxBits

/-- The contract of `nb_theory::generate_prime` (not under `src/`), modelled
from the spec: a returned prime has exactly `bits` bits, is congruent to
`1 mod M` and lies below the upper bound. -/
def GenPrimeOk (gp : Nat → Nat → Nat → Option Nat) : Prop :=
  ∀ bits M ub p, gp bits M ub = some p →
    Nat.Prime p ∧ p % M = 1 ∧ 2 ^ (bits - 1) ≤ p ∧ p < 2 ^ bits ∧ p < ub

/-- The inner retry loop of the special-modulus search: on a collision the
upper bound is moved down to the colliding prime.  The fuel equals the initial
upper bound, which dominates the number of retries. -/
def findAuxPrimeAux (gp : Nat → Nat → Nat → Option Nat) (bits M : Nat)
    (avoid : List Nat) : Nat → Nat → Option (Nat × Nat)
  | 0, _ => none
  | fuel+1, ub =>
    match gp bits M ub with
    | none => none
    | some p => if p ∈ avoid then findAuxPrimeAux gp bits M avoid fuel p
                else some (p, ub)

def findAuxPrime (gp : Nat → Nat → Nat → Option Nat) (bits M : Nat)
    (avoid : List Nat) (ub : Nat) : Option (Nat × Nat) :=
  findAuxPrimeAux gp bits M avoid ub ub

/-- The outer loop of the special-modulus search (`for _ in 0..size_p`). -/
def genPList (gp : Nat → Nat → Nat → Option Nat) (bits M : Nat) (qmods : List Nat) :
    Nat → Nat → List Nat → Option (List Nat)
  | 0, _, acc => some acc
  | k+1, ub, acc =>
    match findAuxPrime gp bits M (acc ++ qmods) ub with
    | none => none
    | some (p, ub') => genPList gp bits M qmods k ub' (acc ++ [p])

/-- The special moduli `P` generated by `HybridKeySwitchingKey::new`,
with `aux_bits = 60` and congruence modulus `2 * degree`. -/
def hybridPModuli (gp : Nat → Nat → Nat → Option Nat) (C : PolyContext) :
    Option (List Nat) :=
  genPList gp 60 (2 * C.degree) C.moduli (hybridSizeP 3 60 C.moduli) (2 ^ 60) []

/-- The constants `g_j = P * Qj_hat * Qj_hat_inv_modQj`. -/
def hybridG (pProd : Nat) (mods : List Nat) (dnum : Nat) : List Nat :=
  (chunks dnum mods).map (fun chunk =>
    let qj := chunk.prod
    let qjHat := mods.prod / qj
    pProd * qjHat * invMod qj (qjHat % qj))

/-- One residue row of `HybridKeySwitchingKey::generate_c0`: over the Q rows
(`r < aLen`) `c0 = g * a + e - s * c1`; over the P rows `c0 = e - s * c1`,
computed without extending `a` into `P`. -/
def hybridC0Row (qpOps : List NttOp) (qp_ctx : PolyContext) (aLen : Nat)
    (aRows : List (List Nat)) (sk : List Int) (c1 : Poly) (gj : Nat)
    (e : List Int) (r : Nat) : List Nat :=
  let q := qp_ctx.moduli.getD r 0
  let op := qpOps.getD r default
  let skRow := op.fwd (reduceVecI64 q sk)
  let eRow := op.fwd (reduceVecI64 q e)
  if r < aLen then
    subVec q (addVec q (scalarMulVec q (gj % q) (aRows.getD r [])) eRow)
      (mulVec q skRow (c1.coefficients.getD r []))
  else
    subVec q eRow (mulVec q skRow (c1.coefficients.getD r []))

/-- `HybridKeySwitchingKey::generate_c0` (`key_switching_key.rs`). -/
def hybridGenerateC0 (qpOps : List NttOp) (qp_ctx : PolyContext) (c1s : List Poly)
    (g : List Nat) (a : Poly) (sk : List Int) (es : List (List Int)) : List Poly :=
  zipWith3 (fun c1 gj e =>
    { context := qp_ctx
      representation := Representation.Evaluation
      coefficients := (List.range qp_ctx.moduli.length).map
        (hybridC0Row qpOps qp_ctx a.context.moduli.length a.coefficients sk c1 gj e) })
    c1s g es

structure HybridKeySwitchingKey where
  ciphertext_ctx : PolyContext
  ksk_ctx : PolyContext
  p_ctx : PolyContext
  qp_ctx : PolyContext
  seed : Nat
  dnum : Nat
  alpha : Nat
  g : List Nat
  c0s : List Poly
  c1s : List Poly

/-- `HybridKeySwitchingKey::new` (`key_switching_key.rs`), the parts the claims
concern: the fixed `dnum = 3` and `aux_bits = 60`, the `alpha` formula, the
digit products, the special-modulus search (`none` models the panic on
exhaustion), the `g` constants and the two key-element vectors.  The
precomputed basis-switching tables, used only by `switch`, are omitted. -/
def hybridNew (gp : Nat → Nat → Nat → Option Nat)
    (prg : Nat → Nat → PolyContext → Poly) (qpOps : List NttOp) (a : Poly)
    (sk : List Int) (ciphertext_ctx : PolyContext) (es : List (List Int))
    (seed : Nat) : Option HybridKeySwitchingKey :=
  let dnum := 3
  let alpha := hybridAlpha ciphertext_ctx.moduli.length dnum
  let ksk_ctx := a.context
  match hybridPModuli gp ciphertext_ctx with
  | none => none
  | some p_moduli =>
    let p_ctx : PolyContext := { moduli := p_moduli, degree := ksk_ctx.degree }
    let g := hybridG p_moduli.prod ciphertext_ctx.moduli dnum
    let qp_ctx : PolyContext :=
      { moduli := ksk_ctx.moduli ++ p_moduli, degree := ksk_ctx.degree }
    let c1s := hybridGenerateC1 prg g.length qp_ctx seed
    let c0s := hybridGenerateC0 qpOps qp_ctx c1s g a sk es
    some { ciphertext_ctx := ciphertext_ctx, ksk_ctx := ksk_ctx, p_ctx := p_ctx
           qp_ctx := qp_ctx, seed := seed, dnum := dnum, alpha := alpha
           g := g, c0s := c0s, c1s := c1s }

/-! ### List-level helper lemmas for the key-switching proofs -/

theorem zipWith3_length (f : α → β → γ → δ) :
    ∀ (as : List α) (bs : List β) (cs : List γ),
    (zipWith3 f as bs cs).length = min (min as.length bs.length) cs.length := by
  intro as
  induction as with
  | nil => intro bs cs; cases bs <;> cases cs <;> simp [zipWith3]
  | cons a as ih =>
    intro bs cs
    cases bs with
    | nil => simp [zipWith3]
    | cons b bs =>
      cases cs with
      | nil => simp [zipWith3]
      | cons c cs =>
        simp only [zipWith3, List.length_cons, ih]
        omega

theorem zipWith3_getD (f : α → β → γ → δ) (da : α) (db : β) (dc : γ) (d : δ) :
    ∀ (as : List α) (bs : List β) (cs : List γ) (i : Nat),
    i < as.length → i < bs.length → i < cs.length →
    (zipWith3 f as bs cs).getD i d = f (as.getD i da) (bs.getD i db) (cs.getD i dc) := by
  intro as
  induction as with
  | nil => intro bs cs i ha; simp at ha
  | cons a as ih =>
    intro bs cs i ha hb hc
    cases bs with
    | nil => simp at hb
    | cons b bs =>
      cases cs with
      | nil => simp at hc
      | cons c cs =>
        cases i with
        | zero => rfl
        | succ n =>
          show (zipWith3 f as bs cs).getD n d = _
          exact ih bs cs n (Nat.lt_of_succ_lt_succ ha) (Nat.lt_of_succ_lt_succ hb)
            (Nat.lt_of_succ_lt_succ hc)

theorem getD_zipWith (f : α → β → γ) (da : α) (db : β) (d : γ) :
    ∀ (as : List α) (bs : List β) (i : Nat), i < as.length → i < bs.length →
    (List.zipWith f as bs).getD i d = f (as.getD i da) (bs.getD i db) := by
  intro as
  induction as with
  | nil => intro bs i ha; simp at ha
  | cons a as ih =>
    intro bs i ha hb
    cases bs with
    | nil => simp at hb
    | cons b bs =>
      cases i with
      | zero => rfl
      | succ n =>
        show (List.zipWith f as bs).getD n d = _
        exact ih bs n (Nat.lt_of_succ_lt_succ ha) (Nat.lt_of_succ_lt_succ hb)

theorem zipWith_congr_mem (f g : α → β → γ) :
    ∀ (as : List α) (bs : List β),
    (∀ a ∈ as, ∀ b ∈ bs, f a b = g a b) →
    List.zipWith f as bs = List.zipWith g as bs := by
  intro as
  induction as with
  | nil => intro bs _; rfl
  | cons a as ih =>
    intro bs h
    cases bs with
    | nil => rfl
    | cons b bs =>
      simp only [List.zipWith_cons_cons]
      refine congrArg₂ _ (h a (List.mem_cons_self a as) b (List.mem_cons_self b bs)) ?_
      exact ih bs (fun a' ha' b' hb' =>
        h a' (List.mem_cons_of_mem a ha') b' (List.mem_cons_of_mem b hb'))

theorem generateC1Stream_length (prg : Nat → Nat → PolyContext → Poly)
    (count : Nat) (C : PolyContext) (seed : Nat) :
    (generateC1Stream prg count C seed).length = count := by
  simp [generateC1Stream]

/-! ### Zero-seeded versus head-seeded accumulation -/

theorem addVec_replicate_zero (q : Nat) :
    ∀ (v : List Nat), (∀ x ∈ v, x < q) →
    addVec q (List.replicate v.length 0) v = v := by
  intro v
  induction v with
  | nil => intro _; rfl
  | cons b bs ih =>
    intro hlt
    show ((0 + b) % q) :: addVec q (List.replicate bs.length 0) bs = b :: bs
    rw [ih (fun x hx => hlt x (List.mem_cons_of_mem b hx)), Nat.zero_add,
      Nat.mod_eq_of_lt (hlt b (List.mem_cons_self b bs))]

theorem zipWith3_addVec_zero (N : Nat) :
    ∀ (ms : List Nat) (rows : List (List Nat)),
    rows.length = ms.length →
    (∀ i < rows.length, VecOk (ms.getD i 0) N (rows.getD i [])) →
    zipWith3 addVec ms (ms.map (fun _ => List.replicate N 0)) rows = rows := by
  intro ms
  induction ms with
  | nil =>
    intro rows hlen _
    cases rows with
    | nil => rfl
    | cons r rs => simp at hlen
  | cons q ms ih =>
    intro rows hlen hok
    cases rows with
    | nil => simp at hlen
    | cons r rs =>
      have h0 := hok 0 (by simp)
      simp only [List.getD_cons_zero] at h0
      show addVec q (List.replicate N 0) r :: zipWith3 addVec ms (ms.map _) rs = r :: rs
      rw [ih rs (by simpa using hlen)
        (fun i hi => by simpa using hok (i+1) (by simpa using hi))]
      rw [show List.replicate N 0 = List.replicate r.length 0 from by rw [h0.1],
        addVec_replicate_zero q r h0.2]

theorem polyAdd_zero (C : PolyContext) (p : Poly) (hctx : p.context = C)
    (hrep : p.representation = Representation.Evaluation) (hok : PolyOk p) :
    polyAdd (polyZero C Representation.Evaluation) p = p := by
  cases p with
  | mk ctx rep coeffs =>
    simp only at hctx hrep
    subst hctx
    subst hrep
    unfold polyAdd polyZero
    simp only [Poly.mk.injEq, true_and]
    exact zipWith3_addVec_zero _ _ coeffs hok.1 hok.2

theorem foldl_polyAdd_fields :
    ∀ (l : List Poly) (acc : Poly),
    (l.foldl polyAdd acc).context = acc.context ∧
    (l.foldl polyAdd acc).representation = acc.representation := by
  intro l
  induction l with
  | nil => intro acc; exact ⟨rfl, rfl⟩
  | cons p t ih =>
    intro acc
    rcases ih (polyAdd acc p) with ⟨h1, h2⟩
    exact ⟨h1, h2⟩

/-- Follows the spec's words for `switch`: the zero-seeded accumulator
`Σ_i p_i · c_i` over the ksk context in Evaluation form. -/
def specSum (C : PolyContext) (l : List Poly) : Poly :=
  l.foldl polyAdd (polyZero C Representation.Evaluation)

theorem specSum_fields (C : PolyContext) (l : List Poly) :
    (specSum C l).context = C ∧
    (specSum C l).representation = Representation.Evaluation :=
  foldl_polyAdd_fields l (polyZero C Representation.Evaluation)

theorem sumPolys1_eq_specSum (C : PolyContext) (l : List Poly) (hne : l ≠ [])
    (hall : ∀ p ∈ l, p.context = C ∧ p.representation = Representation.Evaluation ∧ PolyOk p) :
    sumPolys1 l = specSum C l := by
  cases l with
  | nil => exact absurd rfl hne
  | cons h t =>
    have hh := hall h (List.mem_cons_self h t)
    show t.foldl polyAdd h = (h :: t).foldl polyAdd (polyZero C Representation.Evaluation)
    rw [List.foldl_cons, polyAdd_zero C h hh.1 hh.2.1 hh.2.2]

/-! ### Facts about the lifted rows and Evaluation-form products -/

theorem changeRep_toEval (ops : List NttOp) (p : Poly)
    (h : p.representation = Representation.Coefficient) :
    changeRep ops p Representation.Evaluation =
      { p with representation := Representation.Evaluation,
               coefficients := List.zipWith (fun op row => op.fwd row) ops p.coefficients } := by
  have hne : ¬ p.representation = Representation.Evaluation := by
    rw [h]; intro hc; cases hc
  unfold changeRep
  rw [if_neg hne, if_pos rfl]

theorem liftRows_mem (kskOps : List NttOp) (kctx : PolyContext) (x : Poly)
    (hops : OpsMatch kctx kskOps) (hq : ∀ q ∈ kctx.moduli, 0 < q)
    (hrows : ∀ row ∈ x.coefficients, row.length = kctx.degree) :
    ∀ p ∈ liftRows kskOps kctx x,
      p.context = kctx ∧ p.representation = Representation.Evaluation ∧ PolyOk p := by
  intro p hp
  obtain ⟨row, hrow, rfl⟩ := List.mem_map.mp hp
  have hlen := hrows row hrow
  rw [changeRep_toEval kskOps _ rfl]
  refine ⟨rfl, rfl, ?_, ?_⟩
  · show (List.zipWith _ kskOps (liftNat kctx Representation.Coefficient row).coefficients).length
      = kctx.moduli.length
    simp [liftNat, List.length_zipWith, hops.1]
  · intro i hi
    have hilen : i < kctx.moduli.length := by
      simpa [liftNat, List.length_zipWith, hops.1] using hi
    have hiops : i < kskOps.length := by rw [hops.1]; exact hilen
    show VecOk (kctx.moduli.getD i 0) kctx.degree _
    rw [getD_zipWith _ default [] []]
    · rw [show (liftNat kctx Representation.Coefficient row).coefficients
          = kctx.moduli.map (fun q => reduceVecU64 q row) from rfl,
        getD_map_lt _ _ i [] 0 hilen]
      obtain ⟨hqq, hN⟩ := hops.2 i hiops
      rw [← hqq, ← hN]
      apply (kskOps.getD i default).fwd_ok
      rw [hqq, hN]
      exact reduceVecU64_ok _ _ (hq _ (getD_mem_of_lt _ _ hilen)) _ hlen
    · exact hiops
    · simpa [liftNat] using hilen

theorem polyMulEval_ok (p1 p2 : Poly) (hq : ∀ q ∈ p1.context.moduli, 0 < q)
    (h1 : PolyOk p1) (h2 : PolyOk p2) (hctx : p2.context = p1.context) :
    PolyOk (polyMulEval p1 p2) := by
  obtain ⟨hl1, hv1⟩ := h1
  obtain ⟨hl2, hv2⟩ := h2
  constructor
  · show (zipWith3 mulVec p1.context.moduli p1.coefficients p2.coefficients).length
      = p1.context.moduli.length
    rw [zipWith3_length, hl1, hl2, hctx]
    omega
  · intro i hi
    have hilen : i < p1.context.moduli.length := by
      simpa [polyMulEval, zipWith3_length, hl1, hl2, hctx] using hi
    show VecOk (p1.context.moduli.getD i 0) p1.context.degree _
    rw [show (polyMulEval p1 p2).coefficients
        = zipWith3 mulVec p1.context.moduli p1.coefficients p2.coefficients from rfl,
      zipWith3_getD _ 0 [] [] _ _ _ _ i hilen (by omega) (by rw [hl2, hctx]; exact hilen)]
    apply mulVec_ok _ _ (hq _ (getD_mem_of_lt _ _ hilen))
    · exact (hv1 i (by omega)).1
    · have := (hv2 i (by rw [hl2, hctx]; exact hilen)).1
      rw [hctx] at this
      exact this

theorem mulVec_comm (q : Nat) : ∀ (u v : List Nat), mulVec q u v = mulVec q v u := by
  intro u
  induction u with
  | nil => intro v; cases v <;> rfl
  | cons a as ih =>
    intro v
    cases v with
    | nil => rfl
    | cons b bs =>
      show (a * b % q) :: mulVec q as bs = (b * a % q) :: mulVec q bs as
      rw [Nat.mul_comm, ih bs]

theorem zipWith3_mulVec_comm :
    ∀ (ms : List Nat) (as bs : List (List Nat)),
    zipWith3 mulVec ms as bs = zipWith3 mulVec ms bs as := by
  intro ms
  induction ms with
  | nil => intro as bs; cases as <;> cases bs <;> rfl
  | cons q ms ih =>
    intro as bs
    cases as with
    | nil => cases bs <;> rfl
    | cons a as' =>
      cases bs with
      | nil => rfl
      | cons b bs' =>
        show mulVec q a b :: zipWith3 mulVec ms as' bs' = mulVec q b a :: zipWith3 mulVec ms bs' as'
        rw [mulVec_comm, ih]

theorem polyMulEval_comm (p1 p2 : Poly) (hctx : p2.context = p1.context)
    (hrep : p2.representation = p1.representation) :
    polyMulEval p1 p2 = polyMulEval p2 p1 := by
  cases p1 with
  | mk C1 r1 A =>
    cases p2 with
    | mk C2 r2 B =>
      simp only at hctx hrep
      subst hctx
      subst hrep
      unfold polyMulEval
      simp only [Poly.mk.injEq, true_and]
      exact zipWith3_mulVec_comm _ A B

theorem zipWith_mulEval_mem (C : PolyContext) (hq : ∀ q ∈ C.moduli, 0 < q) :
    ∀ (ps cs : List Poly),
    (∀ p ∈ ps, p.context = C ∧ p.representation = Representation.Evaluation ∧ PolyOk p) →
    (∀ c ∈ cs, c.context = C ∧ PolyOk c) →
    ∀ r ∈ List.zipWith polyMulEval ps cs,
      r.context = C ∧ r.representation = Representation.Evaluation ∧ PolyOk r := by
  intro ps
  induction ps with
  | nil => intro cs _ _ r hr; simp at hr
  | cons p ps' ih =>
    intro cs hps hcs r hr
    cases cs with
    | nil => simp at hr
    | cons c cs' =>
      simp only [List.zipWith_cons_cons, List.mem_cons] at hr
      rcases hr with rfl | hr
      · have hp := hps p (List.mem_cons_self p ps')
        have hc := hcs c (List.mem_cons_self c cs')
        refine ⟨hp.1, hp.2.1, ?_⟩
        have := polyMulEval_ok p c (by rw [hp.1]; exact hq) hp.2.2 hc.2
          (by rw [hc.1, hp.1])
        exact this
      · exact ih cs' (fun a ha => hps a (List.mem_cons_of_mem p ha))
          (fun a ha => hcs a (List.mem_cons_of_mem c ha)) r hr

/-- C5: for an input polynomial in Coefficient form over the ciphertext
context, `BVKeySwitchingKey::switch` returns exactly two polynomials, both in
Evaluation form over the ksk context, equal to `Σ_i p_i·c0_i` and
`Σ_i p_i·c1_i` where `p_i` is the NTT of the lift of residue row `i` of the
input into the ksk context. -/
theorem bv_switch_structure (kskOps : List NttOp) (k : BVKeySwitchingKey) (x : Poly)
    (hops : OpsMatch k.ksk_ctx kskOps)
    (hq : ∀ q ∈ k.ksk_ctx.moduli, 0 < q)
    (hx : x.representation = Representation.Coefficient ∧ x.context = k.ciphertext_ctx ∧
          ∀ row ∈ x.coefficients, row.length = k.ksk_ctx.degree)
    (hne : x.coefficients ≠ [])
    (hlen0 : x.coefficients.length ≤ k.c0s.length)
    (hlen1 : x.coefficients.length ≤ k.c1s.length)
    (hc0 : ∀ p ∈ k.c0s, p.context = k.ksk_ctx ∧ PolyOk p)
    (hc1 : ∀ p ∈ k.c1s, p.context = k.ksk_ctx ∧ p.representation = Representation.Evaluation ∧
           PolyOk p) :
    bvSwitch kskOps k x
      = [specSum k.ksk_ctx (List.zipWith polyMulEval (liftRows kskOps k.ksk_ctx x) k.c0s),
         specSum k.ksk_ctx (List.zipWith polyMulEval (liftRows kskOps k.ksk_ctx x) k.c1s)]
    ∧ (bvSwitch kskOps k x).length = 2
    ∧ ∀ out ∈ bvSwitch kskOps k x,
        out.representation = Representation.Evaluation ∧ out.context = k.ksk_ctx := by
  have hlift := liftRows_mem kskOps k.ksk_ctx x hops hq hx.2.2
  have hpslen : (liftRows kskOps k.ksk_ctx x).length = x.coefficients.length := by
    simp [liftRows]
  have hpsne : liftRows kskOps k.ksk_ctx x ≠ [] := by
    intro hcon
    apply hne
    have := hpslen
    rw [hcon] at this
    exact List.length_eq_zero.mp this.symm
  have hpspos : 0 < (liftRows kskOps k.ksk_ctx x).length :=
    List.length_pos.mpr hpsne
  have h0ne : List.zipWith polyMulEval (liftRows kskOps k.ksk_ctx x) k.c0s ≠ [] := by
    apply List.ne_nil_of_length_pos
    rw [List.length_zipWith]
    omega
  have h1ne : List.zipWith polyMulEval (liftRows kskOps k.ksk_ctx x) k.c1s ≠ [] := by
    apply List.ne_nil_of_length_pos
    rw [List.length_zipWith]
    omega
  have hcomm : List.zipWith (fun p c1 => polyMulEval c1 p) (liftRows kskOps k.ksk_ctx x) k.c1s
      = List.zipWith polyMulEval (liftRows kskOps k.ksk_ctx x) k.c1s := by
    apply zipWith_congr_mem
    intro p hp c hc
    exact polyMulEval_comm c p (by rw [(hlift p hp).1, (hc1 c hc).1])
      (by rw [(hlift p hp).2.1, (hc1 c hc).2.1])
  have hmem0 := zipWith_mulEval_mem k.ksk_ctx hq _ k.c0s hlift hc0
  have hmem1 := zipWith_mulEval_mem k.ksk_ctx hq _ k.c1s hlift
    (fun c hc => ⟨(hc1 c hc).1, (hc1 c hc).2.2⟩)
  have heq : bvSwitch kskOps k x
      = [specSum k.ksk_ctx (List.zipWith polyMulEval (liftRows kskOps k.ksk_ctx x) k.c0s),
         specSum k.ksk_ctx (List.zipWith polyMulEval (liftRows kskOps k.ksk_ctx x) k.c1s)] := by
    show [sumPolys1 _, sumPolys1 _] = _
    rw [hcomm, sumPolys1_eq_specSum k.ksk_ctx _ h0ne hmem0,
      sumPolys1_eq_specSum k.ksk_ctx _ h1ne hmem1]
  refine ⟨heq, by rw [heq]; rfl, ?_⟩
  intro out hout
  rw [heq] at hout
  simp only [List.mem_cons, List.not_mem_nil, or_false] at hout
  rcases hout with rfl | rfl
  · exact ⟨(specSum_fields _ _).2, (specSum_fields _ _).1⟩
  · exact ⟨(specSum_fields _ _).2, (specSum_fields _ _).1⟩

/-! ### Destructuring `hybridNew` -/

theorem hybridNew_eq_some (gp : Nat → Nat → Nat → Option Nat)
    (prg : Nat → Nat → PolyContext → Poly) (qpOps : List NttOp) (a : Poly)
    (sk : List Int) (cc : PolyContext) (es : List (List Int)) (seed : Nat)
    (hk : HybridKeySwitchingKey)
    (h : hybridNew gp prg qpOps a sk cc es seed = some hk) :
    ∃ ps, hybridPModuli gp cc = some ps ∧
      hk = { ciphertext_ctx := cc, ksk_ctx := a.context,
             p_ctx := { moduli := ps, degree := a.context.degree },
             qp_ctx := { moduli := a.context.moduli ++ ps, degree := a.context.degree },
             seed := seed, dnum := 3, alpha := hybridAlpha cc.moduli.length 3,
             g := hybridG ps.prod cc.moduli 3,
             c0s := hybridGenerateC0 qpOps
               { moduli := a.context.moduli ++ ps, degree := a.context.degree }
               (hybridGenerateC1 prg (hybridG ps.prod cc.moduli 3).length
                 { moduli := a.context.moduli ++ ps, degree := a.context.degree } seed)
               (hybridG ps.prod cc.moduli 3) a sk es,
             c1s := hybridGenerateC1 prg (hybridG ps.prod cc.moduli 3).length
               { moduli := a.context.moduli ++ ps, degree := a.context.degree } seed } := by
  cases hp : hybridPModuli gp cc with
  | none =>
    simp only [hybridNew, hp] at h
    exact Option.noConfusion h
  | some ps =>
    simp only [hybridNew, hp] at h
    exact ⟨ps, rfl, (Option.some.inj h).symm⟩

/-! ### Concrete oracles and inputs for the witnesses -/

def ccX : PolyContext := { moduli := [17, 13], degree := 1 }

def opsX : List NttOp := [idNtt 17, idNtt 13]

def aX : Poly := polyZero ccX Representation.Evaluation

def prgX : Nat → Nat → PolyContext → Poly :=
  fun s i C => liftNat C Representation.Evaluation [s + i]

def gpX7 : Nat → Nat → Nat → Option Nat :=
  fun _ _ ub => if 7 < ub then some 7 else none

def hkX8 : HybridKeySwitchingKey :=
  (hybridNew gpX7 prgX [] aX [0] ccX [[0], [0]] 9).get (by decide)

def ccY : PolyContext := { moduli := [1153, 1297, 577, 641], degree := 1 }

def aY : Poly := polyZero ccY Representation.Evaluation

def hkY : HybridKeySwitchingKey :=
  (hybridNew gpX7 prgX [] aY [0] ccY [[0], [0]] 5).get (by decide)

def gpY60 : Nat → Nat → Nat → Option Nat :=
  fun bits M ub => if bits = 60 then gpX7 bits M ub else none

def hkZ : HybridKeySwitchingKey :=
  (hybridNew gpX7 prgX [] aX [0] ccX [[0], [0]] 4).get (by decide)

/-- C8: the `c1` vectors are a deterministic function of the stored seed:
rebuilding them from the seed, count and context stored in a key reproduces
exactly the `c1s` used at key generation, for both the BV and the Hybrid key. -/
theorem c1_regeneration_deterministic
    (prg : Nat → Nat → PolyContext → Poly) (gp : Nat → Nat → Nat → Option Nat)
    (kskOps qpOps : List NttOp) (a a2 : Poly) (sk sk2 : List Int)
    (cc cc2 : PolyContext) (es es2 : List (List Int)) (seed seed2 : Nat)
    (k : BVKeySwitchingKey) (hk : HybridKeySwitchingKey)
    (hbv : bvNew prg kskOps a sk cc es seed = k)
    (hhy : hybridNew gp prg qpOps a2 sk2 cc2 es2 seed2 = some hk) :
    bvGenerateC1 prg k.c1s.length k.ksk_ctx k.seed = k.c1s ∧
    hybridGenerateC1 prg hk.c1s.length hk.qp_ctx hk.seed = hk.c1s := by
  constructor
  · subst hbv
    simp only [bvNew, bvGenerateC1]
    rw [generateC1Stream_length]
  · obtain ⟨ps, hp, rfl⟩ := hybridNew_eq_some gp prg qpOps a2 sk2 cc2 es2 seed2 hk hhy
    simp only [hybridGenerateC1]
    rw [generateC1Stream_length]

theorem c1_regeneration_deterministic_witness :
    bvGenerateC1 prgX (bvNew prgX opsX aX [0] ccX [[0], [0]] 9).c1s.length
        (bvNew prgX opsX aX [0] ccX [[0], [0]] 9).ksk_ctx
        (bvNew prgX opsX aX [0] ccX [[0], [0]] 9).seed
      = (bvNew prgX opsX aX [0] ccX [[0], [0]] 9).c1s ∧
    hybridGenerateC1 prgX hkX8.c1s.length hkX8.qp_ctx hkX8.seed = hkX8.c1s :=
  c1_regeneration_deterministic prgX gpX7 opsX [] aX aX [0] [0] ccX ccX
    [[0], [0]] [[0], [0]] 9 9 (bvNew prgX opsX aX [0] ccX [[0], [0]] 9) hkX8
    rfl (Option.some_get (by decide)).symm

/-- C2 (code bug): for a ciphertext context with four moduli the stored `alpha`
is `(4 + (3 >> 1)) / 3 = 1`, while the spec's `alpha = ceil(4/3) = 2`; the key
nevertheless holds two digit groups (`g` and the `c1` vector have length two),
so `alpha` disagrees with the number of c0/c1 pairs the key holds. -/
theorem hybrid_alpha_mismatch (gp : Nat → Nat → Nat → Option Nat)
    (prg : Nat → Nat → PolyContext → Poly) (qpOps : List NttOp) (a : Poly)
    (sk : List Int) (es : List (List Int)) (seed : Nat) (hk : HybridKeySwitchingKey)
    (h : hybridNew gp prg qpOps a sk { moduli := [1153, 1297, 577, 641], degree := 1 }
      es seed = some hk) :
    hk.alpha = 1 ∧ hk.g.length = 2 ∧ hk.c1s.length = 2 ∧ (4 + 3 - 1) / 3 = 2 := by
  obtain ⟨ps, hp, rfl⟩ := hybridNew_eq_some _ _ _ _ _ _ _ _ _ h
  refine ⟨?_, ?_, ?_, by decide⟩
  · show hybridAlpha 4 3 = 1
    decide
  · show (hybridG ps.prod [1153, 1297, 577, 641] 3).length = 2
    simp only [hybridG, List.length_map]
    decide
  · show (hybridGenerateC1 prg (hybridG ps.prod [1153, 1297, 577, 641] 3).length
        { moduli := a.context.moduli ++ ps, degree := a.context.degree } seed).length = 2
    simp only [hybridGenerateC1]
    rw [generateC1Stream_length]
    simp only [hybridG, List.length_map]
    decide

theorem hybrid_alpha_mismatch_witness :
    hkY.alpha = 1 ∧ hkY.g.length = 2 ∧ hkY.c1s.length = 2 ∧ (4 + 3 - 1) / 3 = 2 :=
  hybrid_alpha_mismatch gpX7 prgX [] aY [0] [[0], [0]] 5 hkY
    (Option.some_get (by decide)).symm

/-! ### The oracle is only consulted at 60 bits -/

theorem findAuxPrimeAux_congr (gp gp2 : Nat → Nat → Nat → Option Nat) (M : Nat)
    (avoid : List Nat) (hagree : ∀ M2 ub, gp2 60 M2 ub = gp 60 M2 ub) :
    ∀ fuel ub, findAuxPrimeAux gp2 60 M avoid fuel ub
      = findAuxPrimeAux gp 60 M avoid fuel ub := by
  intro fuel
  induction fuel with
  | zero => intro ub; rfl
  | succ n ih =>
    intro ub
    simp only [findAuxPrimeAux, hagree]
    cases gp 60 M ub with
    | none => rfl
    | some p =>
      by_cases hmem : p ∈ avoid
      · simp [hmem, ih]
      · simp [hmem]

theorem genPList_congr (gp gp2 : Nat → Nat → Nat → Option Nat) (M : Nat)
    (qmods : List Nat) (hagree : ∀ M2 ub, gp2 60 M2 ub = gp 60 M2 ub) :
    ∀ k ub acc, genPList gp2 60 M qmods k ub acc = genPList gp 60 M qmods k ub acc := by
  intro k
  induction k with
  | zero => intro ub acc; rfl
  | succ n ih =>
    intro ub acc
    simp only [genPList, findAuxPrime, findAuxPrimeAux_congr gp gp2 M _ hagree]
    cases findAuxPrimeAux gp 60 M (acc ++ qmods) ub ub with
    | none => rfl
    | some pr => exact ih pr.2 (acc ++ [pr.1])

theorem hybridPModuli_congr (gp gp2 : Nat → Nat → Nat → Option Nat) (C : PolyContext)
    (hagree : ∀ M2 ub, gp2 60 M2 ub = gp 60 M2 ub) :
    hybridPModuli gp2 C = hybridPModuli gp C :=
  genPList_congr gp gp2 (2 * C.degree) C.moduli hagree _ _ _

/-- C10: `HybridKeySwitchingKey::new` hard-codes `dnum = 3` and `aux_bits = 60`:
every produced key has `dnum = 3`, its `alpha` and `g` are computed with digit
width 3, and the construction consults the prime oracle only at bit width 60,
so any oracle agreeing at 60 bits yields the identical key — callers cannot
select either parameter. -/
theorem hybrid_dnum_aux_bits_fixed (gp gp2 : Nat → Nat → Nat → Option Nat)
    (prg : Nat → Nat → PolyContext → Poly) (qpOps : List NttOp) (a : Poly)
    (sk : List Int) (cc : PolyContext) (es : List (List Int)) (seed : Nat)
    (hk : HybridKeySwitchingKey)
    (h : hybridNew gp prg qpOps a sk cc es seed = some hk)
    (hagree : ∀ M ub, gp2 60 M ub = gp 60 M ub) :
    hk.dnum = 3 ∧ hk.alpha = hybridAlpha cc.moduli.length 3 ∧
    hk.g = hybridG hk.p_ctx.moduli.prod cc.moduli 3 ∧
    hybridNew gp2 prg qpOps a sk cc es seed = some hk := by
  obtain ⟨ps, hp, rfl⟩ := hybridNew_eq_some _ _ _ _ _ _ _ _ _ h
  refine ⟨rfl, rfl, rfl, ?_⟩
  have hp2 : hybridPModuli gp2 cc = some ps := by
    rw [hybridPModuli_congr gp gp2 cc hagree, hp]
  simp only [hybridNew, hp2]

theorem hybrid_dnum_aux_bits_fixed_witness :
    hkZ.dnum = 3 ∧ hkZ.alpha = hybridAlpha ccX.moduli.length 3 ∧
    hkZ.g = hybridG hkZ.p_ctx.moduli.prod ccX.moduli 3 ∧
    hybridNew gpY60 prgX [] aX [0] ccX [[0], [0]] 4 = some hkZ :=
  hybrid_dnum_aux_bits_fixed gpX7 gpY60 prgX [] aX [0] ccX [[0], [0]] 4 hkZ
    (Option.some_get (by decide)).symm (fun _ _ => rfl)

/-- C5 witness data: a concrete two-modulus key and input. -/
def kX5 : BVKeySwitchingKey :=
  { c0s := [{ context := ccX, representation := Representation.Evaluation,
              coefficients := [[3], [5]] },
            { context := ccX, representation := Representation.Evaluation,
              coefficients := [[2], [7]] }],
    c1s := [{ context := ccX, representation := Representation.Evaluation,
              coefficients := [[1], [4]] },
            { context := ccX, representation := Representation.Evaluation,
              coefficients := [[6], [2]] }],
    seed := 0, ciphertext_ctx := ccX, ksk_ctx := ccX }

def xX5 : Poly :=
  { context := ccX, representation := Representation.Coefficient,
    coefficients := [[3], [4]] }

theorem bv_switch_structure_witness :
    bvSwitch opsX kX5 xX5
      = [specSum kX5.ksk_ctx (List.zipWith polyMulEval (liftRows opsX kX5.ksk_ctx xX5) kX5.c0s),
         specSum kX5.ksk_ctx (List.zipWith polyMulEval (liftRows opsX kX5.ksk_ctx xX5) kX5.c1s)]
    ∧ (bvSwitch opsX kX5 xX5).length = 2
    ∧ ∀ out ∈ bvSwitch opsX kX5 xX5,
        out.representation = Representation.Evaluation ∧ out.context = kX5.ksk_ctx :=
  bv_switch_structure opsX kX5 xX5 (by decide) (by decide)
    ⟨rfl, rfl, by decide⟩ (by decide) (by decide) (by decide) (by decide) (by decide)

/-! ### Lucas primality certificates for two 60-bit NTT-friendly primes -/

theorem zmod_pow_eq_of_powMod {p a e r : Nat} (he : e < 2 ^ 64)
    (h : powMod p a e = r) : ((a : ZMod p)) ^ e = ((r : Nat) : ZMod p) := by
  rw [← Nat.cast_pow, ← ZMod.natCast_mod (a ^ e) p, ← powMod_correct p a e he, h]

theorem zmod_natCast_ne_one {p r : Nat} (hp : 1 < p) (hr : r < p) (hne : r ≠ 1) :
    ((r : Nat) : ZMod p) ≠ 1 := by
  intro hcontra
  have h1 : ((1 : Nat) : ZMod p) = 1 := Nat.cast_one
  have hv : (r : ZMod p).val = ((1 : Nat) : ZMod p).val := by rw [hcontra, h1]
  rw [ZMod.val_natCast_of_lt hr, ZMod.val_natCast_of_lt hp] at hv
  exact hne hv

/-- `882705526964617217 = 49 * 2^54 + 1` is prime (Lucas certificate, base 5). -/
theorem p0_prime : Nat.Prime 882705526964617217 := by
  have hsub : (882705526964617217 : Nat) - 1 = 2 ^ 54 * 7 ^ 2 := by norm_num
  apply lucas_primality (a := (5 : Nat))
  · rw [hsub]
    rw [zmod_pow_eq_of_powMod (p := 882705526964617217) (a := 5)
      (e := 2 ^ 54 * 7 ^ 2) (r := 1) (by norm_num) (by decide)]
    exact Nat.cast_one
  · intro q hq hdvd
    rw [hsub] at hdvd
    have hq2 : q = 2 ∨ q = 7 := by
      rcases (Nat.Prime.dvd_mul hq).mp hdvd with h | h
      · exact Or.inl ((Nat.prime_dvd_prime_iff_eq hq Nat.prime_two).mp
          (hq.dvd_of_dvd_pow h))
      · exact Or.inr ((Nat.prime_dvd_prime_iff_eq hq (by norm_num)).mp
          (hq.dvd_of_dvd_pow h))
    rw [hsub]
    rcases hq2 with rfl | rfl
    · rw [zmod_pow_eq_of_powMod (p := 882705526964617217) (a := 5)
        (e := 2 ^ 54 * 7 ^ 2 / 2) (r := 882705526964617216) (by norm_num) (by decide)]
      exact zmod_natCast_ne_one (by norm_num) (by norm_num) (by norm_num)
    · rw [zmod_pow_eq_of_powMod (p := 882705526964617217) (a := 5)
        (e := 2 ^ 54 * 7 ^ 2 / 7) (r := 410527627866611924) (by norm_num) (by decide)]
      exact zmod_natCast_ne_one (by norm_num) (by norm_num) (by norm_num)

/-- `891712726219358209 = 99 * 2^53 + 1` is prime (Lucas certificate, base 7). -/
theorem q0_prime : Nat.Prime 891712726219358209 := by
  have hsub : (891712726219358209 : Nat) - 1 = 2 ^ 53 * 3 ^ 2 * 11 := by norm_num
  apply lucas_primality (a := (7 : Nat))
  · rw [hsub]
    rw [zmod_pow_eq_of_powMod (p := 891712726219358209) (a := 7)
      (e := 2 ^ 53 * 3 ^ 2 * 11) (r := 1) (by norm_num) (by decide)]
    exact Nat.cast_one
  · intro q hq hdvd
    rw [hsub] at hdvd
    have hq2 : q = 2 ∨ q = 3 ∨ q = 11 := by
      rcases (Nat.Prime.dvd_mul hq).mp hdvd with h | h
      · rcases (Nat.Prime.dvd_mul hq).mp h with h2 | h2
        · exact Or.inl ((Nat.prime_dvd_prime_iff_eq hq Nat.prime_two).mp
            (hq.dvd_of_dvd_pow h2))
        · exact Or.inr (Or.inl ((Nat.prime_dvd_prime_iff_eq hq Nat.prime_three).mp
            (hq.dvd_of_dvd_pow h2)))
      · exact Or.inr (Or.inr ((Nat.prime_dvd_prime_iff_eq hq (by norm_num)).mp h))
    rw [hsub]
    rcases hq2 with rfl | rfl | rfl
    · rw [zmod_pow_eq_of_powMod (p := 891712726219358209) (a := 7)
        (e := 2 ^ 53 * 3 ^ 2 * 11 / 2) (r := 891712726219358208) (by norm_num) (by decide)]
      exact zmod_natCast_ne_one (by norm_num) (by norm_num) (by norm_num)
    · rw [zmod_pow_eq_of_powMod (p := 891712726219358209) (a := 7)
        (e := 2 ^ 53 * 3 ^ 2 * 11 / 3) (r := 7044002404537550) (by norm_num) (by decide)]
      exact zmod_natCast_ne_one (by norm_num) (by norm_num) (by norm_num)
    · rw [zmod_pow_eq_of_powMod (p := 891712726219358209) (a := 7)
        (e := 2 ^ 53 * 3 ^ 2 * 11 / 11) (r := 688095208788261071) (by norm_num) (by decide)]
      exact zmod_natCast_ne_one (by norm_num) (by norm_num) (by norm_num)

/-! ### The prime-search loops under the oracle contract -/

theorem findAuxPrimeAux_spec (gp : Nat → Nat → Nat → Option Nat) (bits M : Nat)
    (avoid : List Nat) :
    ∀ (fuel ub p ub2 : Nat),
    findAuxPrimeAux gp bits M avoid fuel ub = some (p, ub2) →
    gp bits M ub2 = some p ∧ p ∉ avoid := by
  intro fuel
  induction fuel with
  | zero => intro ub p ub2 h; exact Option.noConfusion h
  | succ n ih =>
    intro ub p ub2 h
    cases hgp : gp bits M ub with
    | none =>
      simp only [findAuxPrimeAux, hgp] at h
      exact Option.noConfusion h
    | some p1 =>
      simp only [findAuxPrimeAux, hgp] at h
      by_cases hmem : p1 ∈ avoid
      · rw [if_pos hmem] at h
        exact ih p1 p ub2 h
      · rw [if_neg hmem] at h
        have hpair := Option.some.inj h
        have hp1 : p1 = p := congrArg Prod.fst hpair
        have hub : ub = ub2 := congrArg Prod.snd hpair
        subst hp1
        subst hub
        exact ⟨hgp, hmem⟩

theorem findAuxPrimeAux_exhausted (gp : Nat → Nat → Nat → Option Nat) (bits M : Nat)
    (avoid : List Nat) (hnone : ∀ b M2 ub, gp b M2 ub = none) :
    ∀ (fuel ub : Nat), findAuxPrimeAux gp bits M avoid fuel ub = none := by
  intro fuel ub
  cases fuel with
  | zero => rfl
  | succ n => simp only [findAuxPrimeAux, hnone]

theorem genPList_spec (gp : Nat → Nat → Nat → Option Nat) (M : Nat) (qmods : List Nat)
    (hg : GenPrimeOk gp) :
    ∀ (k ub : Nat) (acc ps : List Nat),
    genPList gp 60 M qmods k ub acc = some ps →
    ∃ news, ps = acc ++ news ∧ news.length = k ∧
      (∀ p ∈ news, Nat.Prime p ∧ p % M = 1 ∧ 2 ^ 59 ≤ p ∧ p < 2 ^ 60 ∧
        p ∉ qmods ∧ p ∉ acc) ∧ news.Nodup := by
  intro k
  induction k with
  | zero =>
    intro ub acc ps h
    have hacc : acc = ps := Option.some.inj h
    refine ⟨[], by rw [List.append_nil, hacc], rfl, ?_, List.nodup_nil⟩
    intro p hp
    simp at hp
  | succ n ih =>
    intro ub acc ps h
    simp only [genPList] at h
    cases hf : findAuxPrime gp 60 M (acc ++ qmods) ub with
    | none => rw [hf] at h; exact Option.noConfusion h
    | some pr =>
      obtain ⟨p, ub2⟩ := pr
      rw [hf] at h
      obtain ⟨hgp, hnm⟩ :=
        findAuxPrimeAux_spec gp 60 M (acc ++ qmods) ub ub p ub2 hf
      obtain ⟨hpr, hmod, hlo, hhi, _⟩ := hg 60 M ub2 p hgp
      obtain ⟨news, hps, hlen, hprops, hnodup⟩ := ih ub2 (acc ++ [p]) ps h
      refine ⟨p :: news, ?_, by simp [hlen], ?_, ?_⟩
      · rw [hps, List.append_assoc, List.singleton_append]
      · intro x hx
        rcases List.mem_cons.mp hx with rfl | hx
        · exact ⟨hpr, hmod, hlo, hhi,
            fun hq => hnm (List.mem_append.mpr (Or.inr hq)),
            fun hq => hnm (List.mem_append.mpr (Or.inl hq))⟩
        · obtain ⟨h1, h2, h3, h4, h5, h6⟩ := hprops x hx
          exact ⟨h1, h2, h3, h4, h5,
            fun hq => h6 (List.mem_append.mpr (Or.inl hq))⟩
      · rw [List.nodup_cons]
        refine ⟨?_, hnodup⟩
        intro hmem
        exact (hprops p hmem).2.2.2.2.2
          (List.mem_append.mpr (Or.inr (List.mem_singleton_self p)))

/-- C7 (amended): under the `generate_prime` contract, the auxiliary chain
holds exactly `ceil(maxbits / aux_bits)` primes, each congruent to `1 mod 2N`
with exactly 60 bits, pairwise distinct and disjoint from the Q chain; and if
the oracle's search space is exhausted the construction aborts.  (The original
claim's clause that the product of the chain exceeds the largest digit product
`Q_j` is refuted by the counterexample below.) -/
theorem hybrid_p_chain_spec (gp : Nat → Nat → Nat → Option Nat) (C : PolyContext)
    (ps : List Nat) (hg : GenPrimeOk gp) (h : hybridPModuli gp C = some ps) :
    ps.length = hybridSizeP 3 60 C.moduli ∧
    (∀ p ∈ ps, Nat.Prime p ∧ p % (2 * C.degree) = 1 ∧ 2 ^ 59 ≤ p ∧ p < 2 ^ 60) ∧
    ps.Nodup ∧ (∀ p ∈ ps, p ∉ C.moduli) ∧
    (∀ gp2 : Nat → Nat → Nat → Option Nat, (∀ b M2 ub, gp2 b M2 ub = none) →
      0 < hybridSizeP 3 60 C.moduli → hybridPModuli gp2 C = none) := by
  obtain ⟨news, hps, hlen, hprops, hnodup⟩ :=
    genPList_spec gp (2 * C.degree) C.moduli hg (hybridSizeP 3 60 C.moduli)
      (2 ^ 60) [] ps h
  rw [List.nil_append] at hps
  subst hps
  refine ⟨hlen, ?_, hnodup, ?_, ?_⟩
  · intro p hp
    obtain ⟨h1, h2, h3, h4, _, _⟩ := hprops p hp
    exact ⟨h1, h2, h3, h4⟩
  · intro p hp
    exact (hprops p hp).2.2.2.2.1
  · intro gp2 hnone hpos
    unfold hybridPModuli
    obtain ⟨m, hm⟩ : ∃ m, hybridSizeP 3 60 C.moduli = m + 1 :=
      ⟨hybridSizeP 3 60 C.moduli - 1, by omega⟩
    rw [hm]
    simp only [genPList, findAuxPrime,
      findAuxPrimeAux_exhausted gp2 60 (2 * C.degree) ([] ++ C.moduli) hnone]

/-! ### The flawed clause: P need not exceed the largest digit product -/

def gpP0 : Nat → Nat → Nat → Option Nat :=
  fun bits M ub =>
    if 2 ^ (bits - 1) ≤ 882705526964617217 ∧ 882705526964617217 < 2 ^ bits ∧
        882705526964617217 % M = 1 ∧ 882705526964617217 < ub
    then some 882705526964617217 else none

def ctxQ0 : PolyContext := { moduli := [891712726219358209], degree := 1 }

theorem gpP0_sound : GenPrimeOk gpP0 := by
  intro bits M ub p h
  unfold gpP0 at h
  by_cases hc : 2 ^ (bits - 1) ≤ 882705526964617217 ∧ 882705526964617217 < 2 ^ bits ∧
      882705526964617217 % M = 1 ∧ 882705526964617217 < ub
  · rw [if_pos hc] at h
    have hp := Option.some.inj h
    subst hp
    exact ⟨p0_prime, hc.2.2.1, hc.1, hc.2.1, hc.2.2.2⟩
  · rw [if_neg hc] at h
    exact Option.noConfusion h

/-- C7 counterexample: with the sound oracle `gpP0` and the valid one-modulus
ciphertext context over the 60-bit prime `891712726219358209`, the generated
auxiliary chain is `[882705526964617217]` — one 60-bit prime whose product is
smaller than the (largest) digit product, contradicting the claim's clause
that `P` exceeds the largest `Q_j`. -/
theorem hybrid_p_not_exceeding_q :
    GenPrimeOk gpP0 ∧ CtxOk ctxQ0 ∧ Nat.Prime 891712726219358209 ∧
    (891712726219358209 : Nat) % (2 * ctxQ0.degree) = 1 ∧
    hybridPModuli gpP0 ctxQ0 = some [882705526964617217] ∧
    digitProds 3 ctxQ0.moduli = [891712726219358209] ∧
    ([882705526964617217] : List Nat).prod < 891712726219358209 :=
  ⟨gpP0_sound, ⟨by decide, List.Pairwise.cons (by simp) List.Pairwise.nil, by decide⟩,
    q0_prime, by decide, by decide, by decide, by decide⟩

theorem hybrid_p_chain_spec_witness :
    ([882705526964617217] : List Nat).length = hybridSizeP 3 60 ctxQ0.moduli ∧
    (∀ p ∈ ([882705526964617217] : List Nat),
      Nat.Prime p ∧ p % (2 * ctxQ0.degree) = 1 ∧ 2 ^ 59 ≤ p ∧ p < 2 ^ 60) ∧
    ([882705526964617217] : List Nat).Nodup ∧
    (∀ p ∈ ([882705526964617217] : List Nat), p ∉ ctxQ0.moduli) ∧
    (∀ gp2 : Nat → Nat → Nat → Option Nat, (∀ b M2 ub, gp2 b M2 ub = none) →
      0 < hybridSizeP 3 60 ctxQ0.moduli → hybridPModuli gp2 ctxQ0 = none) :=
  hybrid_p_chain_spec gpP0 ctxQ0 [882705526964617217] gpP0_sound (by decide)

/-! ### The Hybrid `generate_c0` key identity (C6) -/

instance : Inhabited Poly :=
  ⟨polyZero { moduli := [], degree := 0 } Representation.Coefficient⟩

theorem addVec_subVec_cancel (q : Nat) :
    ∀ (u v : List Nat), u.length = v.length →
    (∀ x ∈ u, x < q) → (∀ x ∈ v, x < q) →
    addVec q (subVec q u v) v = u := by
  intro u
  induction u with
  | nil =>
    intro v hl _ _
    cases v with
    | nil => rfl
    | cons b bs => simp at hl
  | cons a as ih =>
    intro v hl hu hv
    cases v with
    | nil => simp at hl
    | cons b bs =>
      show (((a + (q - b)) % q + b) % q) :: addVec q (subVec q as bs) bs = a :: as
      rw [ih bs (by simpa using hl) (fun x hx => hu x (List.mem_cons_of_mem a hx))
        (fun x hx => hv x (List.mem_cons_of_mem b hx))]
      have ha : a < q := hu a (List.mem_cons_self a as)
      have hb : b < q := hv b (List.mem_cons_self b bs)
      have hsum : a + (q - b) + b = a + q := by omega
      rw [Nat.mod_add_mod, hsum, Nat.add_mod_right, Nat.mod_eq_of_lt ha]

theorem scalarMulVec_zero (q : Nat) (v : List Nat) :
    scalarMulVec q 0 v = List.replicate v.length 0 := by
  induction v with
  | nil => rfl
  | cons b bs ih =>
    show (0 * b % q) :: scalarMulVec q 0 bs = 0 :: List.replicate bs.length 0
    rw [Nat.zero_mul, Nat.zero_mod, ih]

theorem getD_range_map {β : Type} (f : Nat → β) (n r : Nat) (d : β) (h : r < n) :
    ((List.range n).map f).getD r d = f r := by
  rw [getD_map_lt f (List.range n) r d 0 (by simpa using h)]
  congr 1
  rw [getD_eq_getElem _ _ _ (by simpa using h)]
  simp

/-- C6: for every digit group `j` and every row `r` of QP, the Hybrid key pair
satisfies `c0_j + s·c1_j = g_j·a + e_j` modulo the `r`-th QP modulus — over the
P rows with an arbitrary extension of `a`, because every auxiliary modulus
divides `P` and `P` divides `g_j` by construction (`g_j = P·Qhat_j·Qhat_j⁻¹`),
so the code validly computes the P rows as `e_j − s·c1_j` without extending
`a` into `P` (the P rows do not depend on `a` at all). -/
theorem hybrid_c0_row_identity
    (qpOps : List NttOp) (qp_ctx : PolyContext) (c1s : List Poly) (g : List Nat)
    (a a2 : Poly) (sk : List Int) (es : List (List Int)) (P : Nat)
    (arb : Nat → List Nat)
    (hops : OpsMatch qp_ctx qpOps)
    (hqpos : ∀ q ∈ qp_ctx.moduli, 0 < q)
    (hdeg : a.context.degree = qp_ctx.degree)
    (ha : PolyOk a)
    (haQ : a.context.moduli.length ≤ qp_ctx.moduli.length ∧
      ∀ r < a.context.moduli.length, a.context.moduli.getD r 0 = qp_ctx.moduli.getD r 0)
    (hsk : sk.length = qp_ctx.degree)
    (hc1 : ∀ c1 ∈ c1s, c1.context = qp_ctx ∧ PolyOk c1)
    (hes : ∀ e ∈ es, e.length = qp_ctx.degree)
    (hgP : ∀ gj ∈ g, P ∣ gj)
    (hProw : ∀ r < qp_ctx.moduli.length, a.context.moduli.length ≤ r →
      qp_ctx.moduli.getD r 0 ∣ P)
    (harb : ∀ r < qp_ctx.moduli.length,
      (arb r).length = qp_ctx.degree ∧ ∀ x ∈ arb r, x < qp_ctx.moduli.getD r 0)
    (ha2 : a2.context = a.context) :
    (∀ j, j < c1s.length → j < g.length → j < es.length →
      ∀ r, r < qp_ctx.moduli.length →
      addVec (qp_ctx.moduli.getD r 0)
          (((hybridGenerateC0 qpOps qp_ctx c1s g a sk es).getD j
              (polyZero qp_ctx Representation.Evaluation)).coefficients.getD r [])
          (mulVec (qp_ctx.moduli.getD r 0)
            ((qpOps.getD r default).fwd (reduceVecI64 (qp_ctx.moduli.getD r 0) sk))
            ((c1s.getD j (polyZero qp_ctx Representation.Evaluation)).coefficients.getD r []))
        = addVec (qp_ctx.moduli.getD r 0)
            (scalarMulVec (qp_ctx.moduli.getD r 0) (g.getD j 0 % qp_ctx.moduli.getD r 0)
              (if r < a.context.moduli.length then a.coefficients.getD r [] else arb r))
            ((qpOps.getD r default).fwd
              (reduceVecI64 (qp_ctx.moduli.getD r 0) (es.getD j []))))
    ∧ (∀ (P2 : Nat) (mods : List Nat) (dn : Nat), ∀ gj ∈ hybridG P2 mods dn, P2 ∣ gj)
    ∧ (∀ j r, j < c1s.length → j < g.length → j < es.length →
        a.context.moduli.length ≤ r →
        ((hybridGenerateC0 qpOps qp_ctx c1s g a sk es).getD j
            (polyZero qp_ctx Representation.Evaluation)).coefficients.getD r []
          = ((hybridGenerateC0 qpOps qp_ctx c1s g a2 sk es).getD j
              (polyZero qp_ctx Representation.Evaluation)).coefficients.getD r []) := by
  have hrowD : ∀ (aP : Poly) (j : Nat), j < c1s.length → j < g.length → j < es.length →
      (hybridGenerateC0 qpOps qp_ctx c1s g aP sk es).getD j
          (polyZero qp_ctx Representation.Evaluation)
        = { context := qp_ctx, representation := Representation.Evaluation,
            coefficients := (List.range qp_ctx.moduli.length).map
              (hybridC0Row qpOps qp_ctx aP.context.moduli.length aP.coefficients sk
                (c1s.getD j (polyZero qp_ctx Representation.Evaluation)) (g.getD j 0)
                (es.getD j [])) } := by
    intro aP j hj1 hj2 hj3
    exact zipWith3_getD _ (polyZero qp_ctx Representation.Evaluation) 0 [] _ c1s g es
      j hj1 hj2 hj3
  refine ⟨?_, ?_, ?_⟩
  · intro j hj1 hj2 hj3 r hr
    have hq0 : 0 < qp_ctx.moduli.getD r 0 := hqpos _ (getD_mem_of_lt _ _ hr)
    have hop := hops.2 r (by rw [hops.1]; exact hr)
    have hskv : VecOk (qp_ctx.moduli.getD r 0) qp_ctx.degree
        ((qpOps.getD r default).fwd (reduceVecI64 (qp_ctx.moduli.getD r 0) sk)) := by
      rw [← hop.1, ← hop.2]
      apply (qpOps.getD r default).fwd_ok
      rw [hop.1, hop.2]
      exact reduceVecI64_ok _ _ hq0 _ hsk
    have hev : VecOk (qp_ctx.moduli.getD r 0) qp_ctx.degree
        ((qpOps.getD r default).fwd
          (reduceVecI64 (qp_ctx.moduli.getD r 0) (es.getD j []))) := by
      rw [← hop.1, ← hop.2]
      apply (qpOps.getD r default).fwd_ok
      rw [hop.1, hop.2]
      exact reduceVecI64_ok _ _ hq0 _ (hes _ (getD_mem_of_lt' es j [] hj3))
    have hc1m := hc1 _ (getD_mem_of_lt' c1s j (polyZero qp_ctx Representation.Evaluation) hj1)
    have hc1v : VecOk (qp_ctx.moduli.getD r 0) qp_ctx.degree
        ((c1s.getD j (polyZero qp_ctx Representation.Evaluation)).coefficients.getD r []) := by
      have hlen : (c1s.getD j (polyZero qp_ctx Representation.Evaluation)).coefficients.length
          = qp_ctx.moduli.length := by
        rw [hc1m.2.1, hc1m.1]
      have := hc1m.2.2 r (by rw [hlen]; exact hr)
      rw [hc1m.1] at this
      exact this
    rw [hrowD a j hj1 hj2 hj3]
    show addVec (qp_ctx.moduli.getD r 0)
        (((List.range qp_ctx.moduli.length).map _).getD r []) _ = _
    rw [getD_range_map _ _ _ _ hr]
    by_cases hcase : r < a.context.moduli.length
    · have harow : VecOk (qp_ctx.moduli.getD r 0) qp_ctx.degree
          (a.coefficients.getD r []) := by
        have hrlen : r < a.coefficients.length := by rw [ha.1]; exact hcase
        have := ha.2 r hrlen
        rw [haQ.2 r hcase, hdeg] at this
        exact this
      simp only [hybridC0Row, if_pos hcase]
      rw [addVec_subVec_cancel]
      · show (addVec _ _ _).length = (mulVec _ _ _).length
        simp only [addVec, mulVec, scalarMulVec, List.length_zipWith, List.length_map]
        rw [harow.1, hev.1, hskv.1, hc1v.1]
      · exact zipWith_mod_lt _ hq0 _ _ _
      · exact zipWith_mod_lt _ hq0 _ _ _
    · have hdvd : qp_ctx.moduli.getD r 0 ∣ g.getD j 0 :=
        dvd_trans (hProw r hr (Nat.le_of_not_lt hcase))
          (hgP _ (getD_mem_of_lt g j hj2))
      have hmod0 : g.getD j 0 % qp_ctx.moduli.getD r 0 = 0 := by
        obtain ⟨c, hc⟩ := hdvd
        rw [hc, Nat.mul_mod_right]
      simp only [hybridC0Row, if_neg hcase]
      rw [addVec_subVec_cancel]
      · rw [hmod0, scalarMulVec_zero,
          show (arb r).length = qp_ctx.degree from (harb r hr).1,
          show qp_ctx.degree
            = ((qpOps.getD r default).fwd
                (reduceVecI64 (qp_ctx.moduli.getD r 0) (es.getD j []))).length
            from hev.1.symm,
          addVec_replicate_zero _ _ hev.2]
      · show ((qpOps.getD r default).fwd _).length = (mulVec _ _ _).length
        simp only [mulVec, List.length_zipWith]
        rw [hev.1, hskv.1, hc1v.1]
        omega
      · exact hev.2
      · exact zipWith_mod_lt _ hq0 _ _ _
  · intro P2 mods dn gj hgj
    obtain ⟨chunk, _, rfl⟩ := List.mem_map.mp hgj
    exact ⟨(mods.prod / chunk.prod)
      * invMod chunk.prod (mods.prod / chunk.prod % chunk.prod), by ring⟩
  · intro j r hj1 hj2 hj3 hra
    rw [hrowD a j hj1 hj2 hj3, hrowD a2 j hj1 hj2 hj3]
    by_cases hr : r < qp_ctx.moduli.length
    · show ((List.range qp_ctx.moduli.length).map _).getD r []
        = ((List.range qp_ctx.moduli.length).map _).getD r []
      rw [getD_range_map _ _ _ _ hr, getD_range_map _ _ _ _ hr]
      have hra2 : ¬ r < a2.context.moduli.length := by rw [ha2]; omega
      simp only [hybridC0Row, if_neg (by omega : ¬ r < a.context.moduli.length),
        if_neg hra2]
    · have hlen : ∀ (f : Nat → List Nat),
          ((List.range qp_ctx.moduli.length).map f).getD r [] = [] := by
        intro f
        apply List.getD_eq_default
        simpa using Nat.le_of_not_lt hr
      rw [hlen, hlen]

/-- C6 witness data: QP = [17, 13] with Q = [17], one special modulus 13. -/
def aQ6 : Poly :=
  { context := { moduli := [17], degree := 1 },
    representation := Representation.Evaluation, coefficients := [[4]] }

def aQ6b : Poly :=
  { context := { moduli := [17], degree := 1 },
    representation := Representation.Evaluation, coefficients := [[9]] }

def c16 : Poly :=
  { context := ccX, representation := Representation.Evaluation,
    coefficients := [[2], [3]] }

theorem hybrid_c0_row_identity_witness :
    (∀ j, j < [c16].length → j < [13].length → j < [[(1 : Int)]].length →
      ∀ r, r < ccX.moduli.length →
      addVec (ccX.moduli.getD r 0)
          (((hybridGenerateC0 opsX ccX [c16] [13] aQ6 [1] [[1]]).getD j
              (polyZero ccX Representation.Evaluation)).coefficients.getD r [])
          (mulVec (ccX.moduli.getD r 0)
            ((opsX.getD r default).fwd (reduceVecI64 (ccX.moduli.getD r 0) [1]))
            (([c16].getD j (polyZero ccX Representation.Evaluation)).coefficients.getD r []))
        = addVec (ccX.moduli.getD r 0)
            (scalarMulVec (ccX.moduli.getD r 0) ([13].getD j 0 % ccX.moduli.getD r 0)
              (if r < aQ6.context.moduli.length then aQ6.coefficients.getD r []
               else (fun _ => [0]) r))
            ((opsX.getD r default).fwd
              (reduceVecI64 (ccX.moduli.getD r 0) ([[(1 : Int)]].getD j []))))
    ∧ (∀ (P2 : Nat) (mods : List Nat) (dn : Nat), ∀ gj ∈ hybridG P2 mods dn, P2 ∣ gj)
    ∧ (∀ j r, j < [c16].length → j < [13].length → j < [[(1 : Int)]].length →
        aQ6.context.moduli.length ≤ r →
        ((hybridGenerateC0 opsX ccX [c16] [13] aQ6 [1] [[1]]).getD j
            (polyZero ccX Representation.Evaluation)).coefficients.getD r []
          = ((hybridGenerateC0 opsX ccX [c16] [13] aQ6b [1] [[1]]).getD j
              (polyZero ccX Representation.Evaluation)).coefficients.getD r []) :=
  hybrid_c0_row_identity opsX ccX [c16] [13] aQ6 aQ6b [1] [[1]] 13 (fun _ => [0])
    (by decide) (by decide) rfl (by decide) ⟨by decide, by decide⟩ rfl
    (by decide) (by decide) (by decide) (by decide) (by decide) rfl

/-! ### Row and entry lemmas for the switch-noise analysis (C4) -/

theorem polyAdd_row (p1 p2 : Poly) (j : Nat) (hj : j < p1.context.moduli.length)
    (h1 : j < p1.coefficients.length) (h2 : j < p2.coefficients.length) :
    (polyAdd p1 p2).coefficients.getD j []
      = addVec (p1.context.moduli.getD j 0) (p1.coefficients.getD j [])
          (p2.coefficients.getD j []) :=
  zipWith3_getD addVec 0 [] [] [] p1.context.moduli p1.coefficients p2.coefficients
    j hj h1 h2

theorem polySub_row (p1 p2 : Poly) (j : Nat) (hj : j < p1.context.moduli.length)
    (h1 : j < p1.coefficients.length) (h2 : j < p2.coefficients.length) :
    (polySub p1 p2).coefficients.getD j []
      = subVec (p1.context.moduli.getD j 0) (p1.coefficients.getD j [])
          (p2.coefficients.getD j []) :=
  zipWith3_getD subVec 0 [] [] [] p1.context.moduli p1.coefficients p2.coefficients
    j hj h1 h2

theorem polyMulEval_row (p1 p2 : Poly) (j : Nat) (hj : j < p1.context.moduli.length)
    (h1 : j < p1.coefficients.length) (h2 : j < p2.coefficients.length) :
    (polyMulEval p1 p2).coefficients.getD j []
      = mulVec (p1.context.moduli.getD j 0) (p1.coefficients.getD j [])
          (p2.coefficients.getD j []) :=
  zipWith3_getD mulVec 0 [] [] [] p1.context.moduli p1.coefficients p2.coefficients
    j hj h1 h2

theorem changeRep_toCoef (ops : List NttOp) (p : Poly)
    (h : p.representation = Representation.Evaluation) :
    changeRep ops p Representation.Coefficient =
      { p with representation := Representation.Coefficient,
               coefficients := List.zipWith (fun op row => op.bwd row) ops p.coefficients } := by
  have hne : ¬ p.representation = Representation.Coefficient := by
    rw [h]; intro hc; cases hc
  have hne2 : ¬ (Representation.Coefficient = Representation.Evaluation) := by
    intro hc; cases hc
  unfold changeRep
  rw [if_neg hne, if_neg hne2]

theorem changeRep_eval_row (ops : List NttOp) (p : Poly) (j : Nat)
    (hrep : p.representation = Representation.Coefficient)
    (hj1 : j < ops.length) (hj2 : j < p.coefficients.length) :
    (changeRep ops p Representation.Evaluation).coefficients.getD j []
      = (ops.getD j default).fwd (p.coefficients.getD j []) := by
  rw [changeRep_toEval ops p hrep]
  exact getD_zipWith _ default [] [] ops p.coefficients j hj1 hj2

theorem changeRep_coef_row (ops : List NttOp) (p : Poly) (j : Nat)
    (hrep : p.representation = Representation.Evaluation)
    (hj1 : j < ops.length) (hj2 : j < p.coefficients.length) :
    (changeRep ops p Representation.Coefficient).coefficients.getD j []
      = (ops.getD j default).bwd (p.coefficients.getD j []) := by
  rw [changeRep_toCoef ops p hrep]
  exact getD_zipWith _ default [] [] ops p.coefficients j hj1 hj2

theorem liftNat_row (C : PolyContext) (r : Representation) (vals : List Nat) (j : Nat)
    (hj : j < C.moduli.length) :
    (liftNat C r vals).coefficients.getD j []
      = reduceVecU64 (C.moduli.getD j 0) vals :=
  getD_map_lt _ _ j [] 0 hj

theorem liftInt_row (C : PolyContext) (r : Representation) (vals : List Int) (j : Nat)
    (hj : j < C.moduli.length) :
    (liftInt C r vals).coefficients.getD j []
      = reduceVecI64 (C.moduli.getD j 0) vals :=
  getD_map_lt _ _ j [] 0 hj

theorem polyZero_row (C : PolyContext) (r : Representation) (j : Nat)
    (hj : j < C.moduli.length) :
    (polyZero C r).coefficients.getD j [] = List.replicate C.degree 0 :=
  getD_map_lt _ _ j [] 0 hj

theorem polyAdd_ok (p1 p2 : Poly) (hq : ∀ q ∈ p1.context.moduli, 0 < q)
    (h1 : PolyOk p1) (h2 : PolyOk p2) (hctx : p2.context = p1.context) :
    PolyOk (polyAdd p1 p2) := by
  obtain ⟨hl1, hv1⟩ := h1
  obtain ⟨hl2, hv2⟩ := h2
  constructor
  · show (zipWith3 addVec p1.context.moduli p1.coefficients p2.coefficients).length
      = p1.context.moduli.length
    rw [zipWith3_length, hl1, hl2, hctx]
    omega
  · intro i hi
    have hilen : i < p1.context.moduli.length := by
      simpa [polyAdd, zipWith3_length, hl1, hl2, hctx] using hi
    show VecOk (p1.context.moduli.getD i 0) p1.context.degree _
    rw [show (polyAdd p1 p2).coefficients
        = zipWith3 addVec p1.context.moduli p1.coefficients p2.coefficients from rfl,
      zipWith3_getD _ 0 [] [] _ _ _ _ i hilen (by omega)
        (by rw [hl2, hctx]; exact hilen)]
    apply addVec_ok _ _ (hq _ (getD_mem_of_lt _ _ hilen))
    · exact (hv1 i (by omega)).1
    · have := (hv2 i (by rw [hl2, hctx]; exact hilen)).1
      rw [hctx] at this
      exact this

theorem polySub_ok (p1 p2 : Poly) (hq : ∀ q ∈ p1.context.moduli, 0 < q)
    (h1 : PolyOk p1) (h2 : PolyOk p2) (hctx : p2.context = p1.context) :
    PolyOk (polySub p1 p2) := by
  obtain ⟨hl1, hv1⟩ := h1
  obtain ⟨hl2, hv2⟩ := h2
  constructor
  · show (zipWith3 subVec p1.context.moduli p1.coefficients p2.coefficients).length
      = p1.context.moduli.length
    rw [zipWith3_length, hl1, hl2, hctx]
    omega
  · intro i hi
    have hilen : i < p1.context.moduli.length := by
      simpa [polySub, zipWith3_length, hl1, hl2, hctx] using hi
    show VecOk (p1.context.moduli.getD i 0) p1.context.degree _
    rw [show (polySub p1 p2).coefficients
        = zipWith3 subVec p1.context.moduli p1.coefficients p2.coefficients from rfl,
      zipWith3_getD _ 0 [] [] _ _ _ _ i hilen (by omega)
        (by rw [hl2, hctx]; exact hilen)]
    apply subVec_ok _ _ (hq _ (getD_mem_of_lt _ _ hilen))
    · exact (hv1 i (by omega)).1
    · have := (hv2 i (by rw [hl2, hctx]; exact hilen)).1
      rw [hctx] at this
      exact this

theorem foldl_polyAdd_ok (C : PolyContext) (hq : ∀ q ∈ C.moduli, 0 < q) :
    ∀ (t : List Poly) (acc : Poly), acc.context = C → PolyOk acc →
    (∀ p ∈ t, p.context = C ∧ PolyOk p) →
    PolyOk (t.foldl polyAdd acc) := by
  intro t
  induction t with
  | nil => intro acc _ hacc _; exact hacc
  | cons p t ih =>
    intro acc hctx hacc hall
    have hp := hall p (List.mem_cons_self p t)
    exact ih (polyAdd acc p) hctx
      (polyAdd_ok acc p (by rw [hctx]; exact hq) hacc hp.2 (by rw [hp.1, hctx]))
      (fun w hw => hall w (List.mem_cons_of_mem p hw))

theorem foldl_polyAdd_row (C : PolyContext) (j : Nat) (hj : j < C.moduli.length) :
    ∀ (t : List Poly) (acc : Poly), acc.context = C →
    acc.coefficients.length = C.moduli.length →
    (∀ p ∈ t, p.coefficients.length = C.moduli.length) →
    (t.foldl polyAdd acc).coefficients.getD j []
      = t.foldl (fun v p => addVec (C.moduli.getD j 0) v (p.coefficients.getD j []))
          (acc.coefficients.getD j []) := by
  intro t
  induction t with
  | nil => intro acc _ _ _; rfl
  | cons p t ih =>
    intro acc hctx hlen hall
    have hp := hall p (List.mem_cons_self p t)
    have hstep : (polyAdd acc p).coefficients.getD j []
        = addVec (C.moduli.getD j 0) (acc.coefficients.getD j [])
            (p.coefficients.getD j []) := by
      have := polyAdd_row acc p j (by rw [hctx]; exact hj) (by omega) (by omega)
      rw [hctx] at this
      exact this
    have hlen2 : (polyAdd acc p).coefficients.length = C.moduli.length := by
      show (zipWith3 addVec acc.context.moduli acc.coefficients p.coefficients).length = _
      rw [zipWith3_length, hctx, hlen, hp]
      omega
    rw [List.foldl_cons, List.foldl_cons,
      ih (polyAdd acc p) hctx hlen2 (fun w hw => hall w (List.mem_cons_of_mem p hw)),
      hstep]

/-- Rowwise form of the head-seeded accumulation of `switch`. -/
theorem sumPolys1_row (C : PolyContext) (hq : ∀ q ∈ C.moduli, 0 < q)
    (l : List Poly) (hne : l ≠ [])
    (hall : ∀ p ∈ l, p.context = C ∧ p.representation = Representation.Evaluation ∧ PolyOk p)
    (j : Nat) (hj : j < C.moduli.length) :
    (sumPolys1 l).coefficients.getD j []
      = (l.map (fun p => p.coefficients.getD j [])).foldl
          (addVec (C.moduli.getD j 0)) (List.replicate C.degree 0)
    ∧ (sumPolys1 l).context = C
    ∧ (sumPolys1 l).representation = Representation.Evaluation
    ∧ PolyOk (sumPolys1 l) := by
  have hspec := sumPolys1_eq_specSum C l hne hall
  have hfields := specSum_fields C l
  have hzok : PolyOk (polyZero C Representation.Evaluation) := by
    constructor
    · simp [polyZero]
    · intro i hi
      have hilen : i < C.moduli.length := by simpa [polyZero] using hi
      rw [show (polyZero C Representation.Evaluation).coefficients
          = C.moduli.map (fun _ => List.replicate C.degree 0) from rfl,
        getD_map_lt _ _ i [] 0 hilen]
      exact ⟨by simp [polyZero], fun y hy => by
        have := List.eq_of_mem_replicate hy
        subst this
        exact hq _ (getD_mem_of_lt _ _ hilen)⟩
  refine ⟨?_, by rw [hspec]; exact hfields.1, by rw [hspec]; exact hfields.2, ?_⟩
  · rw [hspec]
    show (l.foldl polyAdd (polyZero C Representation.Evaluation)).coefficients.getD j [] = _
    rw [foldl_polyAdd_row C j hj l (polyZero C Representation.Evaluation) rfl
      (by simp [polyZero]) (fun p hp => by rw [(hall p hp).2.2.1, (hall p hp).1])]
    rw [polyZero_row C Representation.Evaluation j hj]
    rw [List.foldl_map]
  · rw [hspec]
    exact foldl_polyAdd_ok C hq l (polyZero C Representation.Evaluation) rfl hzok
      (fun p hp => ⟨(hall p hp).1, (hall p hp).2.2⟩)

theorem list_ext_getD {α : Type} (u v : List α) (d : α) (hlen : u.length = v.length)
    (h : ∀ k < u.length, u.getD k d = v.getD k d) : u = v := by
  apply List.ext_getElem hlen
  intro k h1 h2
  have hk := h k h1
  rw [getD_eq_getElem u k d h1, getD_eq_getElem v k d h2] at hk
  exact hk

theorem natCast_mod_modEq (m q : Nat) :
    ((m % q : Nat) : Int) ≡ ((m : Nat) : Int) [ZMOD (q : Nat)] := by
  unfold Int.ModEq
  push_cast
  simp [Int.emod_emod_of_dvd]

theorem int_add_cast_modEq (x : Int) (q : Nat) : x + (q : Int) ≡ x [ZMOD (q : Nat)] := by
  have h : x + (q : Int) = x + (q : Int) * 1 := by ring
  unfold Int.ModEq
  rw [h, Int.add_mul_emod_self_left]

theorem addVec_entry (q : Nat) (u v : List Nat) (k : Nat) (h1 : k < u.length)
    (h2 : k < v.length) :
    (addVec q u v).getD k 0 = (u.getD k 0 + v.getD k 0) % q :=
  getD_zipWith _ 0 0 0 u v k h1 h2

theorem mulVec_entry (q : Nat) (u v : List Nat) (k : Nat) (h1 : k < u.length)
    (h2 : k < v.length) :
    (mulVec q u v).getD k 0 = u.getD k 0 * v.getD k 0 % q :=
  getD_zipWith _ 0 0 0 u v k h1 h2

theorem addVec_entry_modEq (q : Nat) (u v : List Nat) (k : Nat) (h1 : k < u.length)
    (h2 : k < v.length) :
    ((addVec q u v).getD k 0 : Int)
      ≡ (u.getD k 0 : Int) + (v.getD k 0 : Int) [ZMOD (q : Nat)] := by
  rw [addVec_entry q u v k h1 h2]
  refine (natCast_mod_modEq _ _).trans ?_
  have : ((u.getD k 0 + v.getD k 0 : Nat) : Int)
      = (u.getD k 0 : Int) + (v.getD k 0 : Int) := by push_cast; ring
  rw [this]

theorem mulVec_entry_modEq (q : Nat) (u v : List Nat) (k : Nat) (h1 : k < u.length)
    (h2 : k < v.length) :
    ((mulVec q u v).getD k 0 : Int)
      ≡ (u.getD k 0 : Int) * (v.getD k 0 : Int) [ZMOD (q : Nat)] := by
  rw [mulVec_entry q u v k h1 h2]
  refine (natCast_mod_modEq _ _).trans ?_
  have : ((u.getD k 0 * v.getD k 0 : Nat) : Int)
      = (u.getD k 0 : Int) * (v.getD k 0 : Int) := by push_cast; ring
  rw [this]

theorem subVec_entry_modEq (q : Nat) (u v : List Nat) (k : Nat) (h1 : k < u.length)
    (h2 : k < v.length) (hv : v.getD k 0 ≤ q) :
    ((subVec q u v).getD k 0 : Int)
      ≡ (u.getD k 0 : Int) - (v.getD k 0 : Int) [ZMOD (q : Nat)] := by
  have he : (subVec q u v).getD k 0 = (u.getD k 0 + (q - v.getD k 0)) % q :=
    getD_zipWith _ 0 0 0 u v k h1 h2
  rw [he]
  refine (natCast_mod_modEq _ _).trans ?_
  have hcast : ((u.getD k 0 + (q - v.getD k 0) : Nat) : Int)
      = (u.getD k 0 : Int) - (v.getD k 0 : Int) + (q : Int) := by
    push_cast [hv]
    ring
  rw [hcast]
  exact int_add_cast_modEq _ _

theorem getD_replicate {α : Type} (c d : α) :
    ∀ (n k : Nat), k < n → (List.replicate n c).getD k d = c := by
  intro n
  induction n with
  | zero => intro k hk; omega
  | succ m ih =>
    intro k hk
    cases k with
    | zero => rfl
    | succ k2 => exact ih k2 (by omega)

theorem reduceVecU64_entry (q : Nat) (v : List Nat) (k : Nat) (hk : k < v.length) :
    (reduceVecU64 q v).getD k 0 = v.getD k 0 % q :=
  getD_map_lt _ _ k 0 0 hk

theorem reduceVecI64_entry_modEq (q : Nat) (hq : 0 < q) (v : List Int) (k : Nat)
    (hk : k < v.length) :
    (((reduceVecI64 q v).getD k 0 : Nat) : Int) ≡ v.getD k 0 [ZMOD (q : Nat)] := by
  have he : (reduceVecI64 q v).getD k 0 = (v.getD k 0 % (q : Int)).toNat :=
    getD_map_lt _ _ k 0 0 hk
  rw [he, Int.toNat_of_nonneg (Int.emod_nonneg _ (by exact_mod_cast Nat.pos_iff_ne_zero.mp hq))]
  exact Int.mod_modEq _ _

theorem intsOf_getD (u : List Nat) (k : Nat) :
    (intsOf u).getD k 0 = ((u.getD k 0 : Nat) : Int) := by
  by_cases hk : k < u.length
  · exact getD_map_lt (fun x : Nat => (x : Int)) u k 0 0 hk
  · have hlen : (intsOf u).length = u.length := by
      simp [intsOf]
    rw [List.getD_eq_default _ _ (by omega), List.getD_eq_default _ _ (by omega)]
    simp

theorem negacyclicMul_entry_modEq (q N : Nat) (hq : 0 < q) (u v : List Nat) (k : Nat)
    (hk : k < N) :
    (((negacyclicMul q N u v).getD k 0 : Nat) : Int)
      ≡ ncmInt (intsOf u) (intsOf v) N k [ZMOD (q : Nat)] := by
  have he : (negacyclicMul q N u v).getD k 0
      = ((ncmInt (intsOf u) (intsOf v) N k) % (q : Int)).toNat :=
    getD_range_map _ _ _ _ hk
  rw [he, Int.toNat_of_nonneg (Int.emod_nonneg _ (by exact_mod_cast Nat.pos_iff_ne_zero.mp hq))]
  exact Int.mod_modEq _ _

theorem zipWith_sum_range (g : α → β → Int) (da : α) (db : β) :
    ∀ (as : List α) (bs : List β), as.length = bs.length →
    (List.zipWith g as bs).sum
      = ∑ i in Finset.range as.length, g (as.getD i da) (bs.getD i db) := by
  intro as
  induction as with
  | nil => intro bs _; simp
  | cons a as ih =>
    intro bs hl
    cases bs with
    | nil => simp at hl
    | cons b bs =>
      rw [List.zipWith_cons_cons, List.sum_cons, ih bs (by simpa using hl)]
      rw [show (a :: as).length = as.length + 1 from rfl, Finset.sum_range_succ']
      simp only [List.getD_cons_succ, List.getD_cons_zero]
      ring

theorem foldl_addVec_facts (q : Nat) (hq : 0 < q) (N kpos : Nat) (hk : kpos < N) :
    ∀ (vs : List (List Nat)) (acc : List Nat), acc.length = N → (∀ y ∈ acc, y < q) →
    (∀ v ∈ vs, v.length = N) →
    (vs.foldl (addVec q) acc).length = N ∧
    (∀ y ∈ vs.foldl (addVec q) acc, y < q) ∧
    ((vs.foldl (addVec q) acc).getD kpos 0 : Int)
      ≡ (acc.getD kpos 0 : Int)
        + (vs.map (fun v => (v.getD kpos 0 : Int))).sum [ZMOD (q : Nat)] := by
  intro vs
  induction vs with
  | nil =>
    intro acc h1 h2 _
    exact ⟨h1, h2, by simp⟩
  | cons v vs ih =>
    intro acc h1 h2 hall
    have hv := hall v (List.mem_cons_self v vs)
    have hacc1 : (addVec q acc v).length = N := by
      simp [addVec, List.length_zipWith, h1, hv]
    have hacc2 : ∀ y ∈ addVec q acc v, y < q := zipWith_mod_lt q hq _ acc v
    obtain ⟨l1, l2, l3⟩ := ih (addVec q acc v) hacc1 hacc2
      (fun w hw => hall w (List.mem_cons_of_mem v hw))
    refine ⟨l1, l2, ?_⟩
    show ((vs.foldl (addVec q) (addVec q acc v)).getD kpos 0 : Int) ≡ _ [ZMOD (q : Nat)]
    refine l3.trans ?_
    have he : ((addVec q acc v).getD kpos 0 : Int)
        ≡ (acc.getD kpos 0 : Int) + (v.getD kpos 0 : Int) [ZMOD (q : Nat)] :=
      addVec_entry_modEq q acc v kpos (by omega) (by omega)
    have hsum : (acc.getD kpos 0 : Int) + (v.getD kpos 0 : Int)
        + ((vs.map (fun w => (w.getD kpos 0 : Int))).sum)
        = (acc.getD kpos 0 : Int)
          + (((v :: vs).map (fun w => (w.getD kpos 0 : Int))).sum) := by
      rw [List.map_cons, List.sum_cons]
      ring
    calc ((addVec q acc v).getD kpos 0 : Int)
          + ((vs.map (fun w => (w.getD kpos 0 : Int))).sum)
        ≡ (acc.getD kpos 0 : Int) + (v.getD kpos 0 : Int)
          + ((vs.map (fun w => (w.getD kpos 0 : Int))).sum) [ZMOD (q : Nat)] :=
          Int.ModEq.add_right _ he
      _ = (acc.getD kpos 0 : Int)
          + (((v :: vs).map (fun w => (w.getD kpos 0 : Int))).sum) := hsum

theorem foldl_addVec_fwd (op : NttOp) (hq : 0 < op.q) :
    ∀ (ws : List (List Nat)) (acc : List Nat), VecOk op.q op.N acc →
    (∀ w ∈ ws, VecOk op.q op.N w) →
    (ws.map op.fwd).foldl (addVec op.q) (op.fwd acc)
      = op.fwd (ws.foldl (addVec op.q) acc) := by
  intro ws
  induction ws with
  | nil => intro acc _ _; rfl
  | cons w ws ih =>
    intro acc hacc hall
    have hw := hall w (List.mem_cons_self w ws)
    show (ws.map op.fwd).foldl (addVec op.q) (addVec op.q (op.fwd acc) (op.fwd w)) = _
    rw [← op.fwd_add acc w hacc hw]
    exact ih (addVec op.q acc w) (addVec_ok _ _ hq _ _ hacc.1 hw.1)
      (fun u hu => hall u (List.mem_cons_of_mem w hu))

theorem fwd_replicate_zero (op : NttOp) (hN : 0 < op.N) :
    op.fwd (List.replicate op.N 0) = List.replicate op.N 0 := by
  have h : List.replicate op.N 0 = constVec op.q op.N 0 := by
    unfold constVec
    rw [Nat.zero_mod]
    cases hNe : op.N with
    | zero => omega
    | succ m => rfl
  rw [h, op.fwd_const 0 hN, Nat.zero_mod, ← h]

theorem replicate_zero_int_getD : ∀ (n k : Nat), (List.replicate n (0 : Int)).getD k 0 = 0 := by
  intro n
  induction n with
  | zero => intro k; cases k <;> rfl
  | succ m ih =>
    intro k
    cases k with
    | zero => rfl
    | succ k2 => exact ih k2

theorem ncm_const (q N c : Nat) (u : List Nat) (hu : u.length = N) :
    negacyclicMul q N (constVec q N c) u = scalarMulVec q c u := by
  apply list_ext_getD _ _ 0
  · simp [negacyclicMul, scalarMulVec, hu]
  · intro k hk
    have hkN : k < N := by simpa [negacyclicMul] using hk
    rw [show negacyclicMul q N (constVec q N c) u
        = (List.range N).map (fun k2 =>
            ((ncmInt (intsOf (constVec q N c)) (intsOf u) N k2) % (q : Int)).toNat)
        from rfl,
      getD_range_map _ _ _ _ hkN,
      show scalarMulVec q c u = u.map (fun a => c * a % q) from rfl,
      getD_map_lt (fun a => c * a % q) u k 0 0 (by omega)]
    have hterm : ∀ i ∈ Finset.range N,
        (intsOf (constVec q N c)).getD i 0 * ncTerm (intsOf u) N k i
          = if i = 0 then ((c % q : Nat) : Int) * (intsOf u).getD k 0 else 0 := by
      intro i _
      by_cases hi0 : i = 0
      · subst hi0
        rw [if_pos rfl]
        show ((c % q : Nat) : Int) * ncTerm (intsOf u) N k 0 = _
        unfold ncTerm
        rw [if_pos (Nat.zero_le k), Nat.sub_zero]
      · rw [if_neg hi0]
        have hz : (intsOf (constVec q N c)).getD i 0 = 0 := by
          obtain ⟨m, rfl⟩ := Nat.exists_eq_succ_of_ne_zero hi0
          show (((c % q : Nat) : Int) :: intsOf (List.replicate (N - 1) 0)).getD (m + 1) 0 = 0
          rw [List.getD_cons_succ]
          rw [show intsOf (List.replicate (N - 1) 0) = List.replicate (N - 1) ((0 : Nat) : Int)
            from by simp [intsOf]]
          exact replicate_zero_int_getD _ _
        rw [hz, zero_mul]
    unfold ncmInt
    rw [Finset.sum_congr rfl hterm, Finset.sum_ite_eq' (Finset.range N) 0
      (fun _ => ((c % q : Nat) : Int) * (intsOf u).getD k 0)]
    rw [if_pos (Finset.mem_range.mpr (by omega))]
    rw [intsOf_getD]
    have hcast : ((c % q : Nat) : Int) * ((u.getD k 0 : Nat) : Int)
        = ((c % q * u.getD k 0 : Nat) : Int) := by push_cast; ring
    rw [hcast, natMod_toNat, Nat.mod_mul_mod]

theorem fwd_scalarMul (op : NttOp) (c : Nat) (u : List Nat) (hq : 0 < op.q)
    (hN : 0 < op.N) (hu : VecOk op.q op.N u) :
    op.fwd (scalarMulVec op.q c u)
      = mulVec op.q (List.replicate op.N (c % op.q)) (op.fwd u) := by
  have hconst : VecOk op.q op.N (constVec op.q op.N c) := by
    constructor
    · show (constVec op.q op.N c).length = op.N
      simp only [constVec, List.length_cons, List.length_replicate]
      omega
    · intro y hy
      rcases List.mem_cons.mp hy with rfl | hy2
      · exact Nat.mod_lt _ hq
      · have := List.eq_of_mem_replicate hy2
        subst this
        exact hq
  rw [← ncm_const op.q op.N c u hu.1, op.fwd_mul _ _ hconst hu, op.fwd_const c hN]

theorem vec_eq_of_modEq (q : Nat) (u v : List Nat) (hlen : u.length = v.length)
    (hu : ∀ y ∈ u, y < q) (hv : ∀ y ∈ v, y < q)
    (h : ∀ k < u.length, ((u.getD k 0 : Nat) : Int) ≡ ((v.getD k 0 : Nat) : Int)
      [ZMOD (q : Nat)]) :
    u = v := by
  apply list_ext_getD u v 0 hlen
  intro k hk
  have h1 : u.getD k 0 < q := hu _ (getD_mem_of_lt _ _ hk)
  have h2 : v.getD k 0 < q := hv _ (getD_mem_of_lt _ _ (by omega))
  have h3 := h k hk
  unfold Int.ModEq at h3
  rw [Int.emod_eq_of_lt (by positivity) (by exact_mod_cast h1),
    Int.emod_eq_of_lt (by positivity) (by exact_mod_cast h2)] at h3
  exact_mod_cast h3

theorem mem_zipWith {γ : Type} {f : α → β → γ} :
    ∀ {as : List α} {bs : List β} {c : γ}, c ∈ List.zipWith f as bs →
    ∃ a ∈ as, ∃ b ∈ bs, c = f a b := by
  intro as
  induction as with
  | nil => intro bs c hc; simp at hc
  | cons a as ih =>
    intro bs c hc
    cases bs with
    | nil => simp at hc
    | cons b bs =>
      rcases List.mem_cons.mp hc with rfl | hc2
      · exact ⟨a, List.mem_cons_self a as, b, List.mem_cons_self b bs, rfl⟩
      · obtain ⟨a2, ha2, b2, hb2, rfl⟩ := ih hc2
        exact ⟨a2, List.mem_cons_of_mem a ha2, b2, List.mem_cons_of_mem b hb2, rfl⟩

theorem ctxG_length (C : PolyContext) : (ctxG C).length = C.moduli.length := by
  simp [ctxG]

theorem ctxG_entry (C : PolyContext) (i : Nat) (hi : i < C.moduli.length) :
    (ctxG C).getD i 0
      = qHat C.moduli i * invMod (C.moduli.getD i 0) (qHat C.moduli i % C.moduli.getD i 0) :=
  getD_range_map _ _ _ _ hi

theorem polyOk_row_length (p : Poly) (h : PolyOk p) :
    ∀ row ∈ p.coefficients, row.length = p.context.degree := by
  intro row hrow
  obtain ⟨i, hi, heq⟩ := List.mem_iff_getElem.mp hrow
  have := (h.2 i hi).1
  rw [getD_eq_getElem _ _ _ hi, heq] at this
  exact this

/-- The CRT property of the per-residue generators: `Σ_i g_i·f(i) ≡ f(j)`
modulo the `j`-th modulus. -/
theorem ctxG_sum_modEq (cc : PolyContext) (hcc : CtxOk cc) (j : Nat)
    (hj : j < cc.moduli.length) (f : Nat → Int) :
    (∑ i in Finset.range cc.moduli.length, ((ctxG cc).getD i 0 : Int) * f i)
      ≡ f j [ZMOD (cc.moduli.getD j 0 : Nat)] := by
  have hgt := hcc.1
  have hcop := hcc.2.1
  have hqj : 1 < cc.moduli.getD j 0 := hgt _ (getD_mem_of_lt _ _ hj)
  have hsplit := Finset.add_sum_erase (Finset.range cc.moduli.length)
    (fun i => ((ctxG cc).getD i 0 : Int) * f i) (Finset.mem_range.mpr hj)
  rw [← hsplit]
  have hrest : (∑ i in (Finset.range cc.moduli.length).erase j,
      ((ctxG cc).getD i 0 : Int) * f i) ≡ 0 [ZMOD (cc.moduli.getD j 0 : Nat)] := by
    have hz : (0 : Int) = ∑ _i in (Finset.range cc.moduli.length).erase j, (0 : Int) := by
      simp
    rw [hz]
    apply modEq_sum
    intro i hi
    have hine : i ≠ j := Finset.ne_of_mem_erase hi
    have hilt : i < cc.moduli.length := Finset.mem_range.mp (Finset.mem_of_mem_erase hi)
    have hdvd : ((cc.moduli.getD j 0 : Nat) : Int) ∣ ((ctxG cc).getD i 0 : Int) * f i := by
      rw [ctxG_entry cc i hilt]
      have h1 : cc.moduli.getD j 0 ∣ qHat cc.moduli i *
          invMod (cc.moduli.getD i 0) (qHat cc.moduli i % cc.moduli.getD i 0) :=
        Dvd.dvd.mul_right (dvd_qHat_of_ne cc.moduli i j hine hj) _
      exact Dvd.dvd.mul_right (Int.natCast_dvd_natCast.mpr h1) _
    exact Int.modEq_zero_iff_dvd.mpr hdvd
  have hterm : ((ctxG cc).getD j 0 : Int) * f j
      ≡ 1 * f j [ZMOD (cc.moduli.getD j 0 : Nat)] := by
    apply Int.ModEq.mul_right
    rw [ctxG_entry cc j hj]
    have hinvco : Nat.Coprime (qHat cc.moduli j % cc.moduli.getD j 0) (cc.moduli.getD j 0) := by
      have h1 : Nat.gcd (qHat cc.moduli j % cc.moduli.getD j 0) (cc.moduli.getD j 0)
          = Nat.gcd (cc.moduli.getD j 0) (qHat cc.moduli j) := (Nat.gcd_rec _ _).symm
      have h2 : Nat.gcd (cc.moduli.getD j 0) (qHat cc.moduli j)
          = Nat.gcd (qHat cc.moduli j) (cc.moduli.getD j 0) := Nat.gcd_comm _ _
      unfold Nat.Coprime
      rw [h1, h2]
      exact coprime_qHat cc.moduli hcop j hj
    have hinv1 : (qHat cc.moduli j % cc.moduli.getD j 0) *
        invMod (cc.moduli.getD j 0) (qHat cc.moduli j % cc.moduli.getD j 0)
          % cc.moduli.getD j 0 = 1 :=
      invMod_spec _ _ hqj hinvco
    have hmul1 : qHat cc.moduli j * invMod (cc.moduli.getD j 0)
        (qHat cc.moduli j % cc.moduli.getD j 0) ≡ 1 [MOD cc.moduli.getD j 0] := by
      calc qHat cc.moduli j * invMod (cc.moduli.getD j 0)
            (qHat cc.moduli j % cc.moduli.getD j 0)
          ≡ (qHat cc.moduli j % cc.moduli.getD j 0) *
            invMod (cc.moduli.getD j 0) (qHat cc.moduli j % cc.moduli.getD j 0)
            [MOD cc.moduli.getD j 0] :=
            Nat.ModEq.mul_right _ (Nat.mod_modEq _ _).symm
        _ ≡ 1 [MOD cc.moduli.getD j 0] := by
            unfold Nat.ModEq
            rw [hinv1, Nat.one_mod_eq_one.mpr (by omega)]
    have := Int.natCast_modEq_iff.mpr hmul1
    simpa using this
  calc ((ctxG cc).getD j 0 : Int) * f j
        + (∑ i in (Finset.range cc.moduli.length).erase j, ((ctxG cc).getD i 0 : Int) * f i)
      ≡ 1 * f j + 0 [ZMOD (cc.moduli.getD j 0 : Nat)] := Int.ModEq.add hterm hrest
    _ = f j := by ring

/-- The heart of the switch-noise analysis: applying the per-residue CRT
generators to the NTT-ed row lifts of the input reproduces the NTT of the
input's `j`-th residue row exactly. -/
theorem crt_fwd_row (cc : PolyContext) (op : NttOp) (x : Poly) (j : Nat)
    (hcc : CtxOk cc) (hj : j < cc.moduli.length)
    (hopq : op.q = cc.moduli.getD j 0) (hopN : op.N = cc.degree)
    (hx : x.context = cc) (hxok : PolyOk x) :
    (List.zipWith (fun gi u => mulVec op.q (List.replicate op.N (gi % op.q))
        (op.fwd (reduceVecU64 op.q u))) (ctxG cc) x.coefficients).foldl
      (addVec op.q) (List.replicate op.N 0)
      = op.fwd (x.coefficients.getD j []) := by
  have hq1 : 1 < cc.moduli.getD j 0 := hcc.1 _ (getD_mem_of_lt _ _ hj)
  have hq0 : 0 < op.q := by rw [hopq]; omega
  have hN0 : 0 < op.N := by rw [hopN]; exact hcc.2.2
  have hrowlen : ∀ row ∈ x.coefficients, row.length = op.N := by
    intro row hrow
    rw [hopN, ← show x.context.degree = cc.degree from by rw [hx]]
    exact polyOk_row_length x hxok row hrow
  have hws : ∀ w ∈ List.zipWith (fun gi u => scalarMulVec op.q gi (reduceVecU64 op.q u))
      (ctxG cc) x.coefficients, VecOk op.q op.N w := by
    intro w hw
    obtain ⟨gi, _, u, hu, rfl⟩ := mem_zipWith hw
    refine scalarMulVec_ok _ _ _ hq0 _ ?_
    show (reduceVecU64 op.q u).length = op.N
    simp [reduceVecU64, hrowlen u hu]
  have hseedok : VecOk op.q op.N (List.replicate op.N 0) :=
    ⟨by simp, fun y hy => by
      have := List.eq_of_mem_replicate hy
      subst this
      exact hq0⟩
  have hA : List.zipWith (fun gi u => mulVec op.q (List.replicate op.N (gi % op.q))
      (op.fwd (reduceVecU64 op.q u))) (ctxG cc) x.coefficients
      = (List.zipWith (fun gi u => scalarMulVec op.q gi (reduceVecU64 op.q u))
          (ctxG cc) x.coefficients).map op.fwd := by
    rw [List.map_zipWith]
    apply zipWith_congr_mem
    intro gi _ u hu
    exact (fwd_scalarMul op gi (reduceVecU64 op.q u) hq0 hN0
      (reduceVecU64_ok _ _ hq0 _ (hrowlen u hu))).symm
  rw [hA,
    show List.replicate op.N 0 = op.fwd (List.replicate op.N 0) from
      (fwd_replicate_zero op hN0).symm,
    foldl_addVec_fwd op hq0 _ _ hseedok hws]
  congr 1
  have hjc : j < x.coefficients.length := by rw [hxok.1, hx]; exact hj
  have hxrow : x.coefficients.getD j [] ∈ x.coefficients :=
    getD_mem_of_lt' _ _ _ hjc
  have hxrowok : VecOk op.q op.N (x.coefficients.getD j []) := by
    have h2 := hxok.2 j hjc
    rw [hx] at h2
    rw [hopq, hopN]
    exact h2
  obtain ⟨hlen0, hlt0, _⟩ := foldl_addVec_facts op.q hq0 op.N 0 hN0
    (List.zipWith (fun gi u => scalarMulVec op.q gi (reduceVecU64 op.q u))
      (ctxG cc) x.coefficients)
    (List.replicate op.N 0) (by simp) hseedok.2 (fun w hw => (hws w hw).1)
  apply vec_eq_of_modEq op.q _ _ (by rw [hlen0, hrowlen _ hxrow]) hlt0 hxrowok.2
  intro k hk
  have hkN : k < op.N := by rw [← hlen0]; exact hk
  obtain ⟨_, _, hent⟩ := foldl_addVec_facts op.q hq0 op.N k hkN
    (List.zipWith (fun gi u => scalarMulVec op.q gi (reduceVecU64 op.q u))
      (ctxG cc) x.coefficients)
    (List.replicate op.N 0) (by simp) hseedok.2 (fun w hw => (hws w hw).1)
  refine hent.trans ?_
  rw [getD_replicate 0 0 op.N k hkN]
  rw [List.map_zipWith]
  rw [zipWith_sum_range _ 0 [] _ _ (by rw [ctxG_length, hxok.1, hx])]
  rw [ctxG_length]
  have hsum1 : (∑ i in Finset.range cc.moduli.length,
      ((scalarMulVec op.q ((ctxG cc).getD i 0)
        (reduceVecU64 op.q (x.coefficients.getD i []))).getD k 0 : Int))
      ≡ (∑ i in Finset.range cc.moduli.length,
        ((ctxG cc).getD i 0 : Int) * ((x.coefficients.getD i []).getD k 0 : Int))
      [ZMOD (op.q : Nat)] := by
    apply modEq_sum
    intro i hi
    have hiL : i < cc.moduli.length := Finset.mem_range.mp hi
    have hirow : x.coefficients.getD i [] ∈ x.coefficients :=
      getD_mem_of_lt' _ _ _ (by rw [hxok.1, hx]; exact hiL)
    have hklen : k < (reduceVecU64 op.q (x.coefficients.getD i [])).length := by
      simp only [reduceVecU64, List.length_map]
      rw [hrowlen _ hirow]
      exact hkN
    rw [show scalarMulVec op.q ((ctxG cc).getD i 0)
          (reduceVecU64 op.q (x.coefficients.getD i []))
        = (reduceVecU64 op.q (x.coefficients.getD i [])).map
            (fun a => (ctxG cc).getD i 0 * a % op.q) from rfl,
      getD_map_lt (fun a => (ctxG cc).getD i 0 * a % op.q) _ k 0 0 hklen,
      reduceVecU64_entry op.q _ k (by rw [hrowlen _ hirow]; exact hkN)]
    refine (natCast_mod_modEq _ _).trans ?_
    have hcast : (((ctxG cc).getD i 0 * ((x.coefficients.getD i []).getD k 0 % op.q) : Nat) : Int)
        = ((ctxG cc).getD i 0 : Int)
          * (((x.coefficients.getD i []).getD k 0 % op.q : Nat) : Int) := by
      push_cast
      ring
    rw [hcast]
    exact Int.ModEq.mul_left _ (natCast_mod_modEq _ _)
  rw [show ((0 : Nat) : Int) = 0 from rfl, zero_add]
  refine hsum1.trans ?_
  have hcrt := ctxG_sum_modEq cc hcc j hj
    (fun i => ((x.coefficients.getD i []).getD k 0 : Int))
  rw [← hopq] at hcrt
  exact hcrt

theorem changeRep_fields (ops : List NttOp) (p : Poly) (target : Representation) :
    (changeRep ops p target).context = p.context ∧
    (changeRep ops p target).representation = target := by
  by_cases h1 : p.representation = target
  · rw [show changeRep ops p target = p from by unfold changeRep; rw [if_pos h1]]
    exact ⟨rfl, h1⟩
  · by_cases h2 : target = Representation.Evaluation
    · subst h2
      rw [changeRep_toEval ops p (by
        cases hrep : p.representation with
        | Coefficient => rfl
        | Evaluation => exact absurd hrep h1)]
      exact ⟨rfl, rfl⟩
    · have h3 : target = Representation.Coefficient := by
        cases target with
        | Coefficient => rfl
        | Evaluation => exact absurd rfl h2
      subst h3
      rw [changeRep_toCoef ops p (by
        cases hrep : p.representation with
        | Coefficient => exact absurd hrep h1
        | Evaluation => rfl)]
      exact ⟨rfl, rfl⟩

theorem changeRep_ok (ops : List NttOp) (C : PolyContext) (p : Poly)
    (target : Representation) (hops : OpsMatch C ops) (hq : ∀ q ∈ C.moduli, 0 < q)
    (hctx : p.context = C) (hok : PolyOk p) : PolyOk (changeRep ops p target) := by
  have hzip : ∀ (g : NttOp → List Nat → List Nat),
      (∀ (op : NttOp) (v : List Nat), VecOk op.q op.N v → VecOk op.q op.N (g op v)) →
      (List.zipWith g ops p.coefficients).length = p.coefficients.length ∧
      ∀ i < (List.zipWith g ops p.coefficients).length,
        VecOk (C.moduli.getD i 0) C.degree ((List.zipWith g ops p.coefficients).getD i []) := by
    intro g hg
    have hlen : (List.zipWith g ops p.coefficients).length = p.coefficients.length := by
      rw [List.length_zipWith, hops.1, hok.1, hctx]
      omega
    refine ⟨hlen, ?_⟩
    intro i hi
    have hic : i < p.coefficients.length := by omega
    have hiops : i < ops.length := by rw [hops.1, ← hctx, ← hok.1]; exact hic
    rw [getD_zipWith g default [] [] ops p.coefficients i hiops hic]
    obtain ⟨hqq, hN⟩ := hops.2 i hiops
    rw [← hqq, ← hN]
    apply hg
    rw [hqq, hN]
    have := hok.2 i hic
    rw [hctx] at this
    exact this
  by_cases h1 : p.representation = target
  · rw [show changeRep ops p target = p from by unfold changeRep; rw [if_pos h1]]
    exact hok
  · by_cases h2 : target = Representation.Evaluation
    · subst h2
      rw [changeRep_toEval ops p (by
        cases hrep : p.representation with
        | Coefficient => rfl
        | Evaluation => exact absurd hrep h1)]
      obtain ⟨hl, hv⟩ := hzip (fun op row => op.fwd row) (fun op v hvv => op.fwd_ok v hvv)
      refine ⟨?_, ?_⟩
      · show (List.zipWith _ ops p.coefficients).length = p.context.moduli.length
        rw [hl, hok.1]
      · intro i hi
        have := hv i (by simpa using hi)
        rw [hctx]
        exact this
    · have h3 : target = Representation.Coefficient := by
        cases target with
        | Coefficient => rfl
        | Evaluation => exact absurd rfl h2
      subst h3
      rw [changeRep_toCoef ops p (by
        cases hrep : p.representation with
        | Coefficient => exact absurd hrep h1
        | Evaluation => rfl)]
      obtain ⟨hl, hv⟩ := hzip (fun op row => op.bwd row) (fun op v hvv => op.bwd_ok v hvv)
      refine ⟨?_, ?_⟩
      · show (List.zipWith _ ops p.coefficients).length = p.context.moduli.length
        rw [hl, hok.1]
      · intro i hi
        have := hv i (by simpa using hi)
        rw [hctx]
        exact this

theorem liftNat_ok (C : PolyContext) (r : Representation) (vals : List Nat)
    (hq : ∀ q ∈ C.moduli, 0 < q) (hlen : vals.length = C.degree) :
    PolyOk (liftNat C r vals) := by
  refine ⟨by simp [liftNat], ?_⟩
  intro i hi
  have hilen : i < C.moduli.length := by simpa [liftNat] using hi
  show VecOk (C.moduli.getD i 0) C.degree _
  rw [show (liftNat C r vals).coefficients = C.moduli.map (fun q => reduceVecU64 q vals)
    from rfl, getD_map_lt _ _ i [] 0 hilen]
  exact reduceVecU64_ok _ _ (hq _ (getD_mem_of_lt _ _ hilen)) _ hlen

theorem liftInt_ok (C : PolyContext) (r : Representation) (vals : List Int)
    (hq : ∀ q ∈ C.moduli, 0 < q) (hlen : vals.length = C.degree) :
    PolyOk (liftInt C r vals) := by
  refine ⟨by simp [liftInt], ?_⟩
  intro i hi
  have hilen : i < C.moduli.length := by simpa [liftInt] using hi
  show VecOk (C.moduli.getD i 0) C.degree _
  rw [show (liftInt C r vals).coefficients = C.moduli.map (fun q => reduceVecI64 q vals)
    from rfl, getD_map_lt _ _ i [] 0 hilen]
  exact reduceVecI64_ok _ _ (hq _ (getD_mem_of_lt _ _ hilen)) _ hlen

theorem mem_zipWith3 {δ : Type} {f : α → β → γ → δ} :
    ∀ {as : List α} {bs : List β} {cs : List γ} {d : δ}, d ∈ zipWith3 f as bs cs →
    ∃ a ∈ as, ∃ b ∈ bs, ∃ c ∈ cs, d = f a b c := by
  intro as
  induction as with
  | nil => intro bs cs d hd; cases bs <;> cases cs <;> simp [zipWith3] at hd
  | cons a as ih =>
    intro bs cs d hd
    cases bs with
    | nil => simp [zipWith3] at hd
    | cons b bs =>
      cases cs with
      | nil => simp [zipWith3] at hd
      | cons c cs =>
        rcases List.mem_cons.mp hd with rfl | hd2
        · exact ⟨a, List.mem_cons_self a as, b, List.mem_cons_self b bs,
            c, List.mem_cons_self c cs, rfl⟩
        · obtain ⟨a2, ha2, b2, hb2, c2, hc2, rfl⟩ := ih hd2
          exact ⟨a2, List.mem_cons_of_mem a ha2, b2, List.mem_cons_of_mem b hb2,
            c2, List.mem_cons_of_mem c hc2, rfl⟩

/-- Row `j` of the `i`-th NTT-ed row lift of the switch input. -/
theorem bv_ps_row (kskOps : List NttOp) (cc : PolyContext) (x : Poly) (j i : Nat)
    (hops : OpsMatch cc kskOps) (hj : j < cc.moduli.length)
    (hi : i < x.coefficients.length) :
    ((liftRows kskOps cc x).getD i (polyZero cc Representation.Evaluation)).coefficients.getD j []
      = (kskOps.getD j default).fwd
          (reduceVecU64 (cc.moduli.getD j 0) (x.coefficients.getD i [])) := by
  have hjops : j < kskOps.length := by rw [hops.1]; exact hj
  rw [show liftRows kskOps cc x = x.coefficients.map (fun row =>
      changeRep kskOps (liftNat cc Representation.Coefficient row)
        Representation.Evaluation) from rfl,
    getD_map_lt _ _ i _ [] hi,
    changeRep_eval_row kskOps _ j rfl hjops (by simpa [liftNat] using hj),
    liftNat_row cc _ _ j hj]

/-- Row `j` of the `i`-th BV key element `c0_i = g_i·a + e_i - c1_i·s`. -/
theorem bv_c0_row (kskOps : List NttOp) (prg : Nat → Nat → PolyContext → Poly)
    (a : Poly) (sk : List Int) (cc : PolyContext) (es : List (List Int)) (seed : Nat)
    (j i : Nat) (hcc : CtxOk cc) (hops : OpsMatch cc kskOps) (hj : j < cc.moduli.length)
    (hctx : a.context = cc) (ha : PolyOk a) (hsk : sk.length = cc.degree)
    (hprg : ∀ s i2, (prg s i2 cc).context = cc ∧
      (prg s i2 cc).representation = Representation.Evaluation ∧ PolyOk (prg s i2 cc))
    (hes : es.length = cc.moduli.length ∧ ∀ e ∈ es, e.length = cc.degree)
    (hi : i < cc.moduli.length) :
    ((bvGenerateC0 kskOps (ctxG cc) cc a
        (bvGenerateC1 prg cc.moduli.length cc seed) sk es).getD i
          (polyZero cc Representation.Evaluation)).coefficients.getD j []
      = subVec (cc.moduli.getD j 0)
          (addVec (cc.moduli.getD j 0)
            ((kskOps.getD j default).fwd
              (reduceVecI64 (cc.moduli.getD j 0) (es.getD i [])))
            (mulVec (cc.moduli.getD j 0)
              (reduceVecU64 (cc.moduli.getD j 0)
                (List.replicate cc.degree ((ctxG cc).getD i 0)))
              (a.coefficients.getD j [])))
          (mulVec (cc.moduli.getD j 0) ((prg seed i cc).coefficients.getD j [])
            ((kskOps.getD j default).fwd
              (reduceVecI64 (cc.moduli.getD j 0) sk))) := by
  have hqpos : ∀ w ∈ cc.moduli, 0 < w := fun w hw => by have := hcc.1 w hw; omega
  have hjops : j < kskOps.length := by rw [hops.1]; exact hj
  have hc1len : (bvGenerateC1 prg cc.moduli.length cc seed).length = cc.moduli.length :=
    generateC1Stream_length prg _ cc seed
  have hc1val : (bvGenerateC1 prg cc.moduli.length cc seed).getD i
      (polyZero cc Representation.Evaluation) = prg seed i cc :=
    getD_range_map _ _ _ _ hi
  have hstep : (bvGenerateC0 kskOps (ctxG cc) cc a
      (bvGenerateC1 prg cc.moduli.length cc seed) sk es).getD i
        (polyZero cc Representation.Evaluation)
      = (fun gi c1 e =>
          polySub (polyAdd
            (changeRep kskOps (liftInt cc Representation.Coefficient e)
              Representation.Evaluation)
            (polyMulEval (liftNat cc Representation.Evaluation
              (List.replicate cc.degree gi)) a))
            (polyMulEval c1 (changeRep kskOps
              (liftInt cc Representation.Coefficient sk) Representation.Evaluation)))
        ((ctxG cc).getD i 0)
        ((bvGenerateC1 prg cc.moduli.length cc seed).getD i
          (polyZero cc Representation.Evaluation))
        (es.getD i []) :=
    zipWith3_getD _ 0 (polyZero cc Representation.Evaluation) []
      (polyZero cc Representation.Evaluation) _ _ _ i
      (by rw [ctxG_length]; exact hi) (by rw [hc1len]; exact hi)
      (by rw [hes.1]; exact hi)
  rw [hstep, hc1val]
  have hprgi := hprg seed i
  have hesi : (es.getD i []).length = cc.degree :=
    hes.2 _ (getD_mem_of_lt' es i [] (by rw [hes.1]; exact hi))
  have hePok : PolyOk (changeRep kskOps (liftInt cc Representation.Coefficient
      (es.getD i [])) Representation.Evaluation) :=
    changeRep_ok kskOps cc _ _ hops hqpos rfl (liftInt_ok cc _ _ hqpos hesi)
  have hgPok : PolyOk (liftNat cc Representation.Evaluation
      (List.replicate cc.degree ((ctxG cc).getD i 0))) :=
    liftNat_ok cc _ _ hqpos (by simp)
  have hgmok : PolyOk (polyMulEval (liftNat cc Representation.Evaluation
      (List.replicate cc.degree ((ctxG cc).getD i 0))) a) :=
    polyMulEval_ok _ a hqpos hgPok ha (by rw [hctx]; rfl)
  have hskPok : PolyOk (changeRep kskOps (liftInt cc Representation.Coefficient sk)
      Representation.Evaluation) :=
    changeRep_ok kskOps cc _ _ hops hqpos rfl (liftInt_ok cc _ sk hqpos hsk)
  have hmulok : PolyOk (polyMulEval (prg seed i cc)
      (changeRep kskOps (liftInt cc Representation.Coefficient sk)
        Representation.Evaluation)) :=
    polyMulEval_ok _ _ (by rw [hprgi.1]; exact hqpos) hprgi.2.2 hskPok
      (by rw [hprgi.1]; rfl)
  have haddok : PolyOk (polyAdd (changeRep kskOps (liftInt cc Representation.Coefficient
      (es.getD i [])) Representation.Evaluation)
      (polyMulEval (liftNat cc Representation.Evaluation
        (List.replicate cc.degree ((ctxG cc).getD i 0))) a)) :=
    polyAdd_ok _ _ hqpos hePok hgmok rfl
  show (polySub _ _).coefficients.getD j [] = _
  rw [polySub_row _ _ j (by exact hj) (by rw [haddok.1]; exact hj)
    (by rw [hmulok.1]
        show j < (prg seed i cc).context.moduli.length
        rw [hprgi.1]; exact hj)]
  rw [polyAdd_row _ _ j (by exact hj) (by rw [hePok.1]; exact hj)
    (by rw [hgmok.1]; exact hj)]
  rw [changeRep_eval_row kskOps _ j rfl hjops (by simpa [liftInt] using hj),
    liftInt_row cc _ _ j hj]
  rw [polyMulEval_row _ a j (by exact hj) (by simpa [liftNat] using hj)
    (by rw [ha.1, hctx]; exact hj)]
  rw [liftNat_row cc _ _ j hj]
  rw [polyMulEval_row _ _ j (by rw [hprgi.1]; exact hj)
    (by rw [hprgi.2.2.1, hprgi.1]; exact hj)
    (by rw [hskPok.1]; exact hj)]
  rw [changeRep_eval_row kskOps _ j rfl hjops (by simpa [liftInt] using hj),
    liftInt_row cc _ sk j hj]
  rw [show (prg seed i cc).context.moduli.getD j 0 = cc.moduli.getD j 0 from by
    rw [hprgi.1]]
  exact rfl

theorem map_sum_range {α : Type} (f : α → Int) (d : α) :
    ∀ (l : List α), (l.map f).sum = ∑ i in Finset.range l.length, f (l.getD i d) := by
  intro l
  induction l with
  | nil => simp
  | cons a l ih =>
    rw [List.map_cons, List.sum_cons, ih, show (a :: l).length = l.length + 1 from rfl,
      Finset.sum_range_succ']
    simp only [List.getD_cons_succ, List.getD_cons_zero]
    ring

/-- Entry `k` of a head-seeded rowwise accumulation, as a sum over indices. -/
theorem sum_row_entries (q N : Nat) (hq : 0 < q) (j k : Nat) (hk : k < N) (d : Poly)
    (l : List Poly) (hall : ∀ p ∈ l, (p.coefficients.getD j []).length = N) :
    (((l.map (fun p => p.coefficients.getD j [])).foldl (addVec q)
        (List.replicate N 0)).getD k 0 : Int)
      ≡ ∑ i in Finset.range l.length,
          (((l.getD i d).coefficients.getD j []).getD k 0 : Int) [ZMOD (q : Nat)] := by
  have hfacts := (foldl_addVec_facts q hq N k hk
    (l.map (fun p => p.coefficients.getD j [])) (List.replicate N 0) (by simp)
    (fun y hy => by
      have h0 := List.eq_of_mem_replicate hy
      omega)
    (by
      intro v hv
      obtain ⟨p, hp, rfl⟩ := List.mem_map.mp hv
      exact hall p hp)).2.2
  rw [getD_replicate_zero, Nat.cast_zero, zero_add] at hfacts
  refine hfacts.trans ?_
  rw [List.map_map, map_sum_range _ d]
  simp only [Function.comp_apply]
  exact Int.ModEq.refl _

theorem addVec_length (q : Nat) (u v : List Nat) :
    (addVec q u v).length = min u.length v.length := by
  simp [addVec]

theorem subVec_length (q : Nat) (u v : List Nat) :
    (subVec q u v).length = min u.length v.length := by
  simp [subVec]

theorem mulVec_length (q : Nat) (u v : List Nat) :
    (mulVec q u v).length = min u.length v.length := by
  simp [mulVec]

/-- The cancellation at the heart of BV switch correctness: summing
`p_i·(e_i + g_i·a - c_i·s)` and adding back `(Σ p_i·c_i)·s` and subtracting
`a·x` leaves only the error sum, given the CRT identity `Σ g_i·p_i ≡ x`. -/
theorem switch_cancel_algebra (m L : Nat) (P E G C : Nat → Int) (A S X : Int)
    (hGP : (∑ i in Finset.range L, G i * P i) ≡ X [ZMOD (m : Nat)]) :
    ((∑ i in Finset.range L, P i * (E i + G i * A - C i * S))
      + (∑ i in Finset.range L, P i * C i) * S) - A * X
      ≡ (∑ i in Finset.range L, P i * E i) [ZMOD (m : Nat)] := by
  have halg : (∑ i in Finset.range L, P i * (E i + G i * A - C i * S))
      = (∑ i in Finset.range L, P i * E i)
        + (∑ i in Finset.range L, G i * P i) * A
        - (∑ i in Finset.range L, P i * C i) * S := by
    rw [Finset.sum_mul, Finset.sum_mul, ← Finset.sum_add_distrib, ← Finset.sum_sub_distrib]
    apply Finset.sum_congr rfl
    intro i _
    ring
  rw [halg]
  calc ((∑ i in Finset.range L, P i * E i)
        + (∑ i in Finset.range L, G i * P i) * A
        - (∑ i in Finset.range L, P i * C i) * S
        + (∑ i in Finset.range L, P i * C i) * S) - A * X
      = (∑ i in Finset.range L, P i * E i)
        + (∑ i in Finset.range L, G i * P i) * A - A * X := by ring
    _ ≡ (∑ i in Finset.range L, P i * E i) + X * A - A * X [ZMOD (m : Nat)] :=
        Int.ModEq.sub (Int.ModEq.add_left _ (hGP.mul_right A)) (Int.ModEq.refl _)
    _ = (∑ i in Finset.range L, P i * E i) := by ring

/-- Entry `k` of row `j` of `c0_out + c1_out·s − a·x` (Evaluation domain) is
congruent to `Σ_i p_i(k)·e_i(k)`: the key, secret and input terms cancel. -/
theorem bv_res_row_entry (kskOps : List NttOp) (prg : Nat → Nat → PolyContext → Poly)
    (a : Poly) (sk : List Int) (cc : PolyContext) (es : List (List Int)) (seed : Nat)
    (x : Poly)
    (hctx : a.context = cc) (hcc : CtxOk cc) (hops : OpsMatch cc kskOps)
    (ha : PolyOk a) (hsk : sk.length = cc.degree)
    (hprg : ∀ s i, (prg s i cc).context = cc ∧
      (prg s i cc).representation = Representation.Evaluation ∧ PolyOk (prg s i cc))
    (hes : es.length = cc.moduli.length ∧ ∀ e ∈ es, e.length = cc.degree)
    (hx : x.context = cc ∧ x.representation = Representation.Coefficient ∧ PolyOk x)
    (j : Nat) (hj : j < cc.moduli.length) :
    (∀ k, k < cc.degree →
      (((polySub
          (polyAdd ((bvSwitch kskOps (bvNew prg kskOps a sk cc es seed) x).getD 0
              (polyZero cc Representation.Evaluation))
            (polyMulEval ((bvSwitch kskOps (bvNew prg kskOps a sk cc es seed) x).getD 1
                (polyZero cc Representation.Evaluation))
              (changeRep kskOps (liftInt cc Representation.Coefficient sk)
                Representation.Evaluation)))
          (polyMulEval a (changeRep kskOps x Representation.Evaluation))).coefficients.getD
            j []).getD k 0 : Int)
        ≡ (∑ i in Finset.range cc.moduli.length,
            (((kskOps.getD j default).fwd
              (reduceVecU64 (cc.moduli.getD j 0) (x.coefficients.getD i []))).getD k 0 : Int)
            * (((kskOps.getD j default).fwd
              (reduceVecI64 (cc.moduli.getD j 0) (es.getD i []))).getD k 0 : Int))
          [ZMOD (cc.moduli.getD j 0 : Nat)])
    ∧ VecOk (cc.moduli.getD j 0) cc.degree
        ((polySub
          (polyAdd ((bvSwitch kskOps (bvNew prg kskOps a sk cc es seed) x).getD 0
              (polyZero cc Representation.Evaluation))
            (polyMulEval ((bvSwitch kskOps (bvNew prg kskOps a sk cc es seed) x).getD 1
                (polyZero cc Representation.Evaluation))
              (changeRep kskOps (liftInt cc Representation.Coefficient sk)
                Representation.Evaluation)))
          (polyMulEval a (changeRep kskOps x Representation.Evaluation))).coefficients.getD
            j [])
    ∧ (polySub
          (polyAdd ((bvSwitch kskOps (bvNew prg kskOps a sk cc es seed) x).getD 0
              (polyZero cc Representation.Evaluation))
            (polyMulEval ((bvSwitch kskOps (bvNew prg kskOps a sk cc es seed) x).getD 1
                (polyZero cc Representation.Evaluation))
              (changeRep kskOps (liftInt cc Representation.Coefficient sk)
                Representation.Evaluation)))
          (polyMulEval a (changeRep kskOps x Representation.Evaluation))).representation
        = Representation.Evaluation
    ∧ (polySub
          (polyAdd ((bvSwitch kskOps (bvNew prg kskOps a sk cc es seed) x).getD 0
              (polyZero cc Representation.Evaluation))
            (polyMulEval ((bvSwitch kskOps (bvNew prg kskOps a sk cc es seed) x).getD 1
                (polyZero cc Representation.Evaluation))
              (changeRep kskOps (liftInt cc Representation.Coefficient sk)
                Representation.Evaluation)))
          (polyMulEval a (changeRep kskOps x Representation.Evaluation))).coefficients.length
        = cc.moduli.length := by
  have hqpos : ∀ w ∈ cc.moduli, 0 < w := fun w hw => by have := hcc.1 w hw; omega
  have hq1 : 1 < cc.moduli.getD j 0 := hcc.1 _ (getD_mem_of_lt _ _ hj)
  have hq0 : 0 < cc.moduli.getD j 0 := by omega
  have hN0 : 0 < cc.degree := hcc.2.2
  have hop := hops.2 j (by rw [hops.1]; exact hj)
  have hjops : j < kskOps.length := by rw [hops.1]; exact hj
  have hL0 : 0 < cc.moduli.length := by omega
  have hrowsx : ∀ row ∈ x.coefficients, row.length = cc.degree := by
    intro row hrow
    have := polyOk_row_length x hx.2.2 row hrow
    rw [hx.1] at this
    exact this
  have hxlen : x.coefficients.length = cc.moduli.length := by
    rw [hx.2.2.1, hx.1]
  have hps := liftRows_mem kskOps cc x hops hqpos hrowsx
  have hpslen : (liftRows kskOps cc x).length = cc.moduli.length := by
    simp only [liftRows, List.length_map]
    exact hxlen
  have hc1len : (bvGenerateC1 prg cc.moduli.length cc seed).length = cc.moduli.length :=
    generateC1Stream_length prg _ cc seed
  have hc1mem : ∀ c1 ∈ bvGenerateC1 prg cc.moduli.length cc seed,
      c1.context = cc ∧ c1.representation = Representation.Evaluation ∧ PolyOk c1 := by
    intro c1 hc1
    obtain ⟨i, _, rfl⟩ := List.mem_map.mp hc1
    exact hprg seed i
  have hc0len : (bvGenerateC0 kskOps (ctxG cc) cc a
      (bvGenerateC1 prg cc.moduli.length cc seed) sk es).length = cc.moduli.length := by
    show (zipWith3 _ (ctxG cc) _ es).length = _
    rw [zipWith3_length, ctxG_length, hc1len, hes.1]
    omega
  have hskPok : PolyOk (changeRep kskOps (liftInt cc Representation.Coefficient sk)
      Representation.Evaluation) :=
    changeRep_ok kskOps cc _ _ hops hqpos rfl (liftInt_ok cc _ sk hqpos hsk)
  have hc0mem : ∀ c0 ∈ bvGenerateC0 kskOps (ctxG cc) cc a
      (bvGenerateC1 prg cc.moduli.length cc seed) sk es,
      c0.context = cc ∧ c0.representation = Representation.Evaluation ∧ PolyOk c0 := by
    intro c0 hc0
    obtain ⟨gi, _, c1, hc1, e, he, rfl⟩ := mem_zipWith3 hc0
    obtain ⟨hc1ctx, _, hc1ok⟩ := hc1mem c1 hc1
    have hePok : PolyOk (changeRep kskOps (liftInt cc Representation.Coefficient e)
        Representation.Evaluation) :=
      changeRep_ok kskOps cc _ _ hops hqpos rfl (liftInt_ok cc _ e hqpos (hes.2 e he))
    have hgPok : PolyOk (liftNat cc Representation.Evaluation
        (List.replicate cc.degree gi)) :=
      liftNat_ok cc _ _ hqpos (by simp)
    have hgmok : PolyOk (polyMulEval (liftNat cc Representation.Evaluation
        (List.replicate cc.degree gi)) a) :=
      polyMulEval_ok _ a hqpos hgPok ha (by rw [hctx]; rfl)
    have hmulok : PolyOk (polyMulEval c1 (changeRep kskOps
        (liftInt cc Representation.Coefficient sk) Representation.Evaluation)) :=
      polyMulEval_ok _ _ (by rw [hc1ctx]; exact hqpos) hc1ok hskPok (by rw [hc1ctx]; rfl)
    have haddok : PolyOk (polyAdd (changeRep kskOps (liftInt cc Representation.Coefficient e)
        Representation.Evaluation) (polyMulEval (liftNat cc Representation.Evaluation
        (List.replicate cc.degree gi)) a)) :=
      polyAdd_ok _ _ hqpos hePok hgmok rfl
    refine ⟨rfl, rfl, ?_⟩
    exact polySub_ok _ _ hqpos haddok hmulok (by
      show c1.context = cc
      exact hc1ctx)
  have hksk : (bvNew prg kskOps a sk cc es seed).ksk_ctx = cc := hctx
  have hc0sval : (bvNew prg kskOps a sk cc es seed).c0s
      = bvGenerateC0 kskOps (ctxG cc) cc a
          (bvGenerateC1 prg cc.moduli.length cc seed) sk es := by
    show bvGenerateC0 kskOps (ctxG cc) a.context a
        (bvGenerateC1 prg cc.moduli.length a.context seed) sk es = _
    rw [hctx]
  have hc1sval : (bvNew prg kskOps a sk cc es seed).c1s
      = bvGenerateC1 prg cc.moduli.length cc seed := by
    show bvGenerateC1 prg cc.moduli.length a.context seed = _
    rw [hctx]
  have hcomm : List.zipWith (fun p c1 => polyMulEval c1 p) (liftRows kskOps cc x)
      (bvGenerateC1 prg cc.moduli.length cc seed)
      = List.zipWith polyMulEval (liftRows kskOps cc x)
          (bvGenerateC1 prg cc.moduli.length cc seed) := by
    apply zipWith_congr_mem
    intro p hp c hc
    exact polyMulEval_comm c p (by rw [(hps p hp).1, (hc1mem c hc).1])
      (by rw [(hps p hp).2.1, (hc1mem c hc).2.1])
  have hswitch : bvSwitch kskOps (bvNew prg kskOps a sk cc es seed) x
      = [sumPolys1 (List.zipWith polyMulEval (liftRows kskOps cc x)
            (bvGenerateC0 kskOps (ctxG cc) cc a
              (bvGenerateC1 prg cc.moduli.length cc seed) sk es)),
         sumPolys1 (List.zipWith polyMulEval (liftRows kskOps cc x)
            (bvGenerateC1 prg cc.moduli.length cc seed))] := by
    show [sumPolys1 (List.zipWith polyMulEval
            (liftRows kskOps (bvNew prg kskOps a sk cc es seed).ksk_ctx x)
            (bvNew prg kskOps a sk cc es seed).c0s),
          sumPolys1 (List.zipWith (fun p c1 => polyMulEval c1 p)
            (liftRows kskOps (bvNew prg kskOps a sk cc es seed).ksk_ctx x)
            (bvNew prg kskOps a sk cc es seed).c1s)] = _
    rw [hksk, hc0sval, hc1sval, hcomm]
  have hout0eq : (bvSwitch kskOps (bvNew prg kskOps a sk cc es seed) x).getD 0
      (polyZero cc Representation.Evaluation)
      = sumPolys1 (List.zipWith polyMulEval (liftRows kskOps cc x)
          (bvGenerateC0 kskOps (ctxG cc) cc a
            (bvGenerateC1 prg cc.moduli.length cc seed) sk es)) := by
    rw [hswitch]
    rfl
  have hout1eq : (bvSwitch kskOps (bvNew prg kskOps a sk cc es seed) x).getD 1
      (polyZero cc Representation.Evaluation)
      = sumPolys1 (List.zipWith polyMulEval (liftRows kskOps cc x)
          (bvGenerateC1 prg cc.moduli.length cc seed)) := by
    rw [hswitch]
    rfl
  have hAne : List.zipWith polyMulEval (liftRows kskOps cc x)
      (bvGenerateC0 kskOps (ctxG cc) cc a
        (bvGenerateC1 prg cc.moduli.length cc seed) sk es) ≠ [] := by
    apply List.ne_nil_of_length_pos
    rw [List.length_zipWith, hpslen, hc0len]
    omega
  have hBne : List.zipWith polyMulEval (liftRows kskOps cc x)
      (bvGenerateC1 prg cc.moduli.length cc seed) ≠ [] := by
    apply List.ne_nil_of_length_pos
    rw [List.length_zipWith, hpslen, hc1len]
    omega
  have hmemA := zipWith_mulEval_mem cc hqpos (liftRows kskOps cc x)
    (bvGenerateC0 kskOps (ctxG cc) cc a
      (bvGenerateC1 prg cc.moduli.length cc seed) sk es) hps
    (fun c hc => ⟨(hc0mem c hc).1, (hc0mem c hc).2.2⟩)
  have hmemB := zipWith_mulEval_mem cc hqpos (liftRows kskOps cc x)
    (bvGenerateC1 prg cc.moduli.length cc seed) hps
    (fun c hc => ⟨(hc1mem c hc).1, (hc1mem c hc).2.2⟩)
  have hsum0 := sumPolys1_row cc hqpos _ hAne hmemA j hj
  have hsum1 := sumPolys1_row cc hqpos _ hBne hmemB j hj
  have hrowlens : ∀ (l : List Poly),
      (∀ r ∈ l, r.context = cc ∧ r.representation = Representation.Evaluation ∧ PolyOk r) →
      ∀ v ∈ l.map (fun r => r.coefficients.getD j []), v.length = cc.degree := by
    intro l hl v hv
    obtain ⟨r, hr, rfl⟩ := List.mem_map.mp hv
    have hm := hl r hr
    have hlen : r.coefficients.length = cc.moduli.length := by rw [hm.2.2.1, hm.1]
    have h3 := hm.2.2.2 j (by omega)
    rw [hm.1] at h3
    exact h3.1
  have hskProw : (changeRep kskOps (liftInt cc Representation.Coefficient sk)
      Representation.Evaluation).coefficients.getD j []
      = (kskOps.getD j default).fwd (reduceVecI64 (cc.moduli.getD j 0) sk) := by
    rw [changeRep_eval_row kskOps _ j rfl hjops (by simpa [liftInt] using hj),
      liftInt_row cc _ sk j hj]
  have hxEok : PolyOk (changeRep kskOps x Representation.Evaluation) :=
    changeRep_ok kskOps cc x _ hops hqpos hx.1 hx.2.2
  have hxErow : (changeRep kskOps x Representation.Evaluation).coefficients.getD j []
      = (kskOps.getD j default).fwd (x.coefficients.getD j []) :=
    changeRep_eval_row kskOps x j hx.2.1 hjops (by omega)
  have hamulok : PolyOk (polyMulEval a (changeRep kskOps x Representation.Evaluation)) :=
    polyMulEval_ok a _ (by rw [hctx]; exact hqpos) ha hxEok
      (by rw [(changeRep_fields kskOps x Representation.Evaluation).1, hx.1, hctx])
  have ho1mulok : PolyOk (polyMulEval
      (sumPolys1 (List.zipWith polyMulEval (liftRows kskOps cc x)
        (bvGenerateC1 prg cc.moduli.length cc seed)))
      (changeRep kskOps (liftInt cc Representation.Coefficient sk)
        Representation.Evaluation)) :=
    polyMulEval_ok _ _ (by rw [hsum1.2.1]; exact hqpos) hsum1.2.2.2 hskPok
      (by rw [hsum1.2.1]; rfl)
  have haddok2 : PolyOk (polyAdd
      (sumPolys1 (List.zipWith polyMulEval (liftRows kskOps cc x)
        (bvGenerateC0 kskOps (ctxG cc) cc a
          (bvGenerateC1 prg cc.moduli.length cc seed) sk es)))
      (polyMulEval (sumPolys1 (List.zipWith polyMulEval (liftRows kskOps cc x)
          (bvGenerateC1 prg cc.moduli.length cc seed)))
        (changeRep kskOps (liftInt cc Representation.Coefficient sk)
          Representation.Evaluation))) :=
    polyAdd_ok _ _ (by rw [hsum0.2.1]; exact hqpos) hsum0.2.2.2 ho1mulok
      (by
        rw [hsum0.2.1]
        show (sumPolys1 (List.zipWith polyMulEval (liftRows kskOps cc x)
          (bvGenerateC1 prg cc.moduli.length cc seed))).context = cc
        exact hsum1.2.1)
  have hresok : PolyOk (polySub
      (polyAdd (sumPolys1 (List.zipWith polyMulEval (liftRows kskOps cc x)
          (bvGenerateC0 kskOps (ctxG cc) cc a
            (bvGenerateC1 prg cc.moduli.length cc seed) sk es)))
        (polyMulEval (sumPolys1 (List.zipWith polyMulEval (liftRows kskOps cc x)
            (bvGenerateC1 prg cc.moduli.length cc seed)))
          (changeRep kskOps (liftInt cc Representation.Coefficient sk)
            Representation.Evaluation)))
      (polyMulEval a (changeRep kskOps x Representation.Evaluation))) :=
    polySub_ok _ _ (by
        show ∀ w ∈ (sumPolys1 (List.zipWith polyMulEval (liftRows kskOps cc x)
          (bvGenerateC0 kskOps (ctxG cc) cc a
            (bvGenerateC1 prg cc.moduli.length cc seed) sk es))).context.moduli, 0 < w
        rw [hsum0.2.1]
        exact hqpos) haddok2 hamulok
      (by
        show a.context = (sumPolys1 (List.zipWith polyMulEval (liftRows kskOps cc x)
          (bvGenerateC0 kskOps (ctxG cc) cc a
            (bvGenerateC1 prg cc.moduli.length cc seed) sk es))).context
        rw [hctx, hsum0.2.1])
  have hresrow : (polySub
      (polyAdd (sumPolys1 (List.zipWith polyMulEval (liftRows kskOps cc x)
          (bvGenerateC0 kskOps (ctxG cc) cc a
            (bvGenerateC1 prg cc.moduli.length cc seed) sk es)))
        (polyMulEval (sumPolys1 (List.zipWith polyMulEval (liftRows kskOps cc x)
            (bvGenerateC1 prg cc.moduli.length cc seed)))
          (changeRep kskOps (liftInt cc Representation.Coefficient sk)
            Representation.Evaluation)))
      (polyMulEval a (changeRep kskOps x Representation.Evaluation))).coefficients.getD j []
      = subVec (cc.moduli.getD j 0)
          (addVec (cc.moduli.getD j 0)
            ((sumPolys1 (List.zipWith polyMulEval (liftRows kskOps cc x)
              (bvGenerateC0 kskOps (ctxG cc) cc a
                (bvGenerateC1 prg cc.moduli.length cc seed) sk es))).coefficients.getD j [])
            (mulVec (cc.moduli.getD j 0)
              ((sumPolys1 (List.zipWith polyMulEval (liftRows kskOps cc x)
                (bvGenerateC1 prg cc.moduli.length cc seed))).coefficients.getD j [])
              ((kskOps.getD j default).fwd
                (reduceVecI64 (cc.moduli.getD j 0) sk))))
          (mulVec (cc.moduli.getD j 0) (a.coefficients.getD j [])
            ((kskOps.getD j default).fwd (x.coefficients.getD j []))) := by
    rw [polySub_row _ _ j
      (by
        show j < (sumPolys1 (List.zipWith polyMulEval (liftRows kskOps cc x)
          (bvGenerateC0 kskOps (ctxG cc) cc a
            (bvGenerateC1 prg cc.moduli.length cc seed) sk es))).context.moduli.length
        rw [hsum0.2.1]; exact hj)
      (by
        rw [haddok2.1]
        show j < (sumPolys1 (List.zipWith polyMulEval (liftRows kskOps cc x)
          (bvGenerateC0 kskOps (ctxG cc) cc a
            (bvGenerateC1 prg cc.moduli.length cc seed) sk es))).context.moduli.length
        rw [hsum0.2.1]; exact hj)
      (by
        rw [hamulok.1]
        show j < a.context.moduli.length
        rw [hctx]; exact hj)]
    rw [polyAdd_row _ _ j (by rw [hsum0.2.1]; exact hj)
      (by rw [hsum0.2.2.2.1, hsum0.2.1]; exact hj)
      (by
        rw [ho1mulok.1]
        show j < (sumPolys1 (List.zipWith polyMulEval (liftRows kskOps cc x)
          (bvGenerateC1 prg cc.moduli.length cc seed))).context.moduli.length
        rw [hsum1.2.1]; exact hj)]
    rw [polyMulEval_row _ _ j (by rw [hsum1.2.1]; exact hj)
      (by rw [hsum1.2.2.2.1, hsum1.2.1]; exact hj)
      (by rw [hskPok.1]
          show j < cc.moduli.length
          exact hj)]
    rw [polyMulEval_row a _ j (by rw [hctx]; exact hj)
      (by rw [ha.1, hctx]; exact hj)
      (by rw [hxEok.1, (changeRep_fields kskOps x Representation.Evaluation).1, hx.1]
          exact hj)]
    rw [hskProw, hxErow]
    rw [show (polyAdd (sumPolys1 (List.zipWith polyMulEval (liftRows kskOps cc x)
          (bvGenerateC0 kskOps (ctxG cc) cc a
            (bvGenerateC1 prg cc.moduli.length cc seed) sk es)))
          (polyMulEval (sumPolys1 (List.zipWith polyMulEval (liftRows kskOps cc x)
            (bvGenerateC1 prg cc.moduli.length cc seed)))
            (changeRep kskOps (liftInt cc Representation.Coefficient sk)
              Representation.Evaluation))).context
        = (sumPolys1 (List.zipWith polyMulEval (liftRows kskOps cc x)
            (bvGenerateC0 kskOps (ctxG cc) cc a
              (bvGenerateC1 prg cc.moduli.length cc seed) sk es))).context from rfl]
    rw [hsum0.2.1, hsum1.2.1, hctx]
  rw [hout0eq, hout1eq]
  have hresVecOk : VecOk (cc.moduli.getD j 0) cc.degree
      ((polySub (polyAdd (sumPolys1 (List.zipWith polyMulEval (liftRows kskOps cc x)
          (bvGenerateC0 kskOps (ctxG cc) cc a
            (bvGenerateC1 prg cc.moduli.length cc seed) sk es)))
        (polyMulEval (sumPolys1 (List.zipWith polyMulEval (liftRows kskOps cc x)
            (bvGenerateC1 prg cc.moduli.length cc seed)))
          (changeRep kskOps (liftInt cc Representation.Coefficient sk)
            Representation.Evaluation)))
        (polyMulEval a (changeRep kskOps x Representation.Evaluation))).coefficients.getD
          j []) := by
    have h2 := hresok.2 j (by
      rw [hresok.1]
      show j < (sumPolys1 (List.zipWith polyMulEval (liftRows kskOps cc x)
        (bvGenerateC0 kskOps (ctxG cc) cc a
          (bvGenerateC1 prg cc.moduli.length cc seed) sk es))).context.moduli.length
      rw [hsum0.2.1]; exact hj)
    rw [show (polySub (polyAdd (sumPolys1 (List.zipWith polyMulEval (liftRows kskOps cc x)
          (bvGenerateC0 kskOps (ctxG cc) cc a
            (bvGenerateC1 prg cc.moduli.length cc seed) sk es)))
          (polyMulEval (sumPolys1 (List.zipWith polyMulEval (liftRows kskOps cc x)
            (bvGenerateC1 prg cc.moduli.length cc seed)))
            (changeRep kskOps (liftInt cc Representation.Coefficient sk)
              Representation.Evaluation)))
        (polyMulEval a (changeRep kskOps x Representation.Evaluation))).context
      = (sumPolys1 (List.zipWith polyMulEval (liftRows kskOps cc x)
          (bvGenerateC0 kskOps (ctxG cc) cc a
            (bvGenerateC1 prg cc.moduli.length cc seed) sk es))).context from rfl,
      hsum0.2.1] at h2
    exact h2
  refine ⟨?_, hresVecOk, by
      show (sumPolys1 (List.zipWith polyMulEval (liftRows kskOps cc x)
        (bvGenerateC0 kskOps (ctxG cc) cc a
          (bvGenerateC1 prg cc.moduli.length cc seed) sk es))).representation = _
      exact hsum0.2.2.1, by
      rw [hresok.1]
      show (sumPolys1 (List.zipWith polyMulEval (liftRows kskOps cc x)
        (bvGenerateC0 kskOps (ctxG cc) cc a
          (bvGenerateC1 prg cc.moduli.length cc seed) sk es))).context.moduli.length
        = cc.moduli.length
      rw [hsum0.2.1]⟩
  intro k hkN
  have hS0vec : VecOk (cc.moduli.getD j 0) cc.degree
      ((sumPolys1 (List.zipWith polyMulEval (liftRows kskOps cc x)
        (bvGenerateC0 kskOps (ctxG cc) cc a
          (bvGenerateC1 prg cc.moduli.length cc seed) sk es))).coefficients.getD j []) := by
    have h2 := hsum0.2.2.2.2 j (by rw [hsum0.2.2.2.1, hsum0.2.1]; exact hj)
    rw [hsum0.2.1] at h2
    exact h2
  have hS1vec : VecOk (cc.moduli.getD j 0) cc.degree
      ((sumPolys1 (List.zipWith polyMulEval (liftRows kskOps cc x)
        (bvGenerateC1 prg cc.moduli.length cc seed))).coefficients.getD j []) := by
    have h2 := hsum1.2.2.2.2 j (by rw [hsum1.2.2.2.1, hsum1.2.1]; exact hj)
    rw [hsum1.2.1] at h2
    exact h2
  have havec : VecOk (cc.moduli.getD j 0) cc.degree (a.coefficients.getD j []) := by
    have h2 := ha.2 j (by rw [ha.1, hctx]; exact hj)
    rw [hctx] at h2
    exact h2
  have hxvec : VecOk (cc.moduli.getD j 0) cc.degree (x.coefficients.getD j []) := by
    have h2 := hx.2.2.2 j (by rw [hx.2.2.1, hx.1]; exact hj)
    rw [hx.1] at h2
    exact h2
  have hssvec : VecOk (cc.moduli.getD j 0) cc.degree
      ((kskOps.getD j default).fwd (reduceVecI64 (cc.moduli.getD j 0) sk)) := by
    rw [← hop.1, ← hop.2]
    apply (kskOps.getD j default).fwd_ok
    rw [hop.1, hop.2]
    exact reduceVecI64_ok _ _ hq0 _ hsk
  have hxfvec : VecOk (cc.moduli.getD j 0) cc.degree
      ((kskOps.getD j default).fwd (x.coefficients.getD j [])) := by
    rw [← hop.1, ← hop.2]
    apply (kskOps.getD j default).fwd_ok
    rw [hop.1, hop.2]
    exact hxvec
  have hPvec : ∀ i, i < cc.moduli.length → VecOk (cc.moduli.getD j 0) cc.degree
      ((kskOps.getD j default).fwd
        (reduceVecU64 (cc.moduli.getD j 0) (x.coefficients.getD i []))) := by
    intro i hi
    rw [← hop.1, ← hop.2]
    apply (kskOps.getD j default).fwd_ok
    rw [hop.1, hop.2]
    exact reduceVecU64_ok _ _ hq0 _
      (hrowsx _ (getD_mem_of_lt' x.coefficients i [] (by rw [hxlen]; exact hi)))
  have hEvec : ∀ i, i < cc.moduli.length → VecOk (cc.moduli.getD j 0) cc.degree
      ((kskOps.getD j default).fwd
        (reduceVecI64 (cc.moduli.getD j 0) (es.getD i []))) := by
    intro i hi
    rw [← hop.1, ← hop.2]
    apply (kskOps.getD j default).fwd_ok
    rw [hop.1, hop.2]
    exact reduceVecI64_ok _ _ hq0 _
      (hes.2 _ (getD_mem_of_lt' es i [] (by rw [hes.1]; exact hi)))
  have hCvec : ∀ i, VecOk (cc.moduli.getD j 0) cc.degree
      ((prg seed i cc).coefficients.getD j []) := by
    intro i
    have hpp := hprg seed i
    have h2 := hpp.2.2.2 j (by rw [hpp.2.2.1, hpp.1]; exact hj)
    rw [hpp.1] at h2
    exact h2
  have hS0len := hS0vec.1
  have hS1len := hS1vec.1
  have hsslen := hssvec.1
  have haL := havec.1
  have hxfL := hxfvec.1
  have hArow : ∀ i, i < cc.moduli.length →
      (((List.zipWith polyMulEval (liftRows kskOps cc x)
        (bvGenerateC0 kskOps (ctxG cc) cc a
          (bvGenerateC1 prg cc.moduli.length cc seed) sk es)).getD i
          (polyZero cc Representation.Evaluation)).coefficients.getD j [])
      = mulVec (cc.moduli.getD j 0)
          ((kskOps.getD j default).fwd
            (reduceVecU64 (cc.moduli.getD j 0) (x.coefficients.getD i [])))
          (subVec (cc.moduli.getD j 0)
            (addVec (cc.moduli.getD j 0)
              ((kskOps.getD j default).fwd
                (reduceVecI64 (cc.moduli.getD j 0) (es.getD i [])))
              (mulVec (cc.moduli.getD j 0)
                (reduceVecU64 (cc.moduli.getD j 0)
                  (List.replicate cc.degree ((ctxG cc).getD i 0)))
                (a.coefficients.getD j [])))
            (mulVec (cc.moduli.getD j 0) ((prg seed i cc).coefficients.getD j [])
              ((kskOps.getD j default).fwd
                (reduceVecI64 (cc.moduli.getD j 0) sk)))) := by
    intro i hi
    have hgd : (List.zipWith polyMulEval (liftRows kskOps cc x)
        (bvGenerateC0 kskOps (ctxG cc) cc a
          (bvGenerateC1 prg cc.moduli.length cc seed) sk es)).getD i
          (polyZero cc Representation.Evaluation)
        = polyMulEval ((liftRows kskOps cc x).getD i (polyZero cc Representation.Evaluation))
            ((bvGenerateC0 kskOps (ctxG cc) cc a
              (bvGenerateC1 prg cc.moduli.length cc seed) sk es).getD i
                (polyZero cc Representation.Evaluation)) :=
      getD_zipWith polyMulEval (polyZero cc Representation.Evaluation)
        (polyZero cc Representation.Evaluation) (polyZero cc Representation.Evaluation)
        _ _ i (by rw [hpslen]; exact hi) (by rw [hc0len]; exact hi)
    have hpi := hps _ (getD_mem_of_lt' _ i (polyZero cc Representation.Evaluation)
      (by rw [hpslen]; exact hi))
    have hci := hc0mem _ (getD_mem_of_lt' _ i (polyZero cc Representation.Evaluation)
      (by rw [hc0len]; exact hi))
    rw [hgd, polyMulEval_row _ _ j (by rw [hpi.1]; exact hj)
      (by rw [hpi.2.2.1, hpi.1]; exact hj)
      (by rw [hci.2.2.1, hci.1]; exact hj), hpi.1]
    rw [bv_ps_row kskOps cc x j i hops hj (by rw [hxlen]; exact hi)]
    rw [bv_c0_row kskOps prg a sk cc es seed j i hcc hops hj hctx ha hsk hprg hes hi]
  have hBrow : ∀ i, i < cc.moduli.length →
      (((List.zipWith polyMulEval (liftRows kskOps cc x)
        (bvGenerateC1 prg cc.moduli.length cc seed)).getD i
          (polyZero cc Representation.Evaluation)).coefficients.getD j [])
      = mulVec (cc.moduli.getD j 0)
          ((kskOps.getD j default).fwd
            (reduceVecU64 (cc.moduli.getD j 0) (x.coefficients.getD i [])))
          ((prg seed i cc).coefficients.getD j []) := by
    intro i hi
    have hgd : (List.zipWith polyMulEval (liftRows kskOps cc x)
        (bvGenerateC1 prg cc.moduli.length cc seed)).getD i
          (polyZero cc Representation.Evaluation)
        = polyMulEval ((liftRows kskOps cc x).getD i (polyZero cc Representation.Evaluation))
            ((bvGenerateC1 prg cc.moduli.length cc seed).getD i
              (polyZero cc Representation.Evaluation)) :=
      getD_zipWith polyMulEval (polyZero cc Representation.Evaluation)
        (polyZero cc Representation.Evaluation) (polyZero cc Representation.Evaluation)
        _ _ i (by rw [hpslen]; exact hi) (by rw [hc1len]; exact hi)
    have hc1val : (bvGenerateC1 prg cc.moduli.length cc seed).getD i
        (polyZero cc Representation.Evaluation) = prg seed i cc :=
      getD_range_map _ _ _ _ hi
    have hpi := hps _ (getD_mem_of_lt' _ i (polyZero cc Representation.Evaluation)
      (by rw [hpslen]; exact hi))
    have hprgi := hprg seed i
    rw [hgd, hc1val, polyMulEval_row _ _ j (by rw [hpi.1]; exact hj)
      (by rw [hpi.2.2.1, hpi.1]; exact hj)
      (by rw [hprgi.2.2.1, hprgi.1]; exact hj), hpi.1]
    rw [bv_ps_row kskOps cc x j i hops hj (by rw [hxlen]; exact hi)]
  have hA'len : (List.zipWith polyMulEval (liftRows kskOps cc x)
      (bvGenerateC0 kskOps (ctxG cc) cc a
        (bvGenerateC1 prg cc.moduli.length cc seed) sk es)).length = cc.moduli.length := by
    rw [List.length_zipWith, hpslen, hc0len]
    exact Nat.min_self _
  have hB'len : (List.zipWith polyMulEval (liftRows kskOps cc x)
      (bvGenerateC1 prg cc.moduli.length cc seed)).length = cc.moduli.length := by
    rw [List.length_zipWith, hpslen, hc1len]
    exact Nat.min_self _
  have hrow0sum : (((sumPolys1 (List.zipWith polyMulEval (liftRows kskOps cc x)
        (bvGenerateC0 kskOps (ctxG cc) cc a
          (bvGenerateC1 prg cc.moduli.length cc seed) sk es))).coefficients.getD
            j []).getD k 0 : Int)
      ≡ ∑ i in Finset.range cc.moduli.length,
          ((((List.zipWith polyMulEval (liftRows kskOps cc x)
            (bvGenerateC0 kskOps (ctxG cc) cc a
              (bvGenerateC1 prg cc.moduli.length cc seed) sk es)).getD i
              (polyZero cc Representation.Evaluation)).coefficients.getD j []).getD k 0 : Int)
        [ZMOD (cc.moduli.getD j 0 : Nat)] := by
    rw [hsum0.1]
    have hs := sum_row_entries (cc.moduli.getD j 0) cc.degree hq0 j k hkN
      (polyZero cc Representation.Evaluation)
      (List.zipWith polyMulEval (liftRows kskOps cc x)
        (bvGenerateC0 kskOps (ctxG cc) cc a
          (bvGenerateC1 prg cc.moduli.length cc seed) sk es))
      (fun p hp => hrowlens _ hmemA _ (List.mem_map_of_mem _ hp))
    rw [hA'len] at hs
    exact hs
  have hrow1sum : (((sumPolys1 (List.zipWith polyMulEval (liftRows kskOps cc x)
        (bvGenerateC1 prg cc.moduli.length cc seed))).coefficients.getD
          j []).getD k 0 : Int)
      ≡ ∑ i in Finset.range cc.moduli.length,
          ((((List.zipWith polyMulEval (liftRows kskOps cc x)
            (bvGenerateC1 prg cc.moduli.length cc seed)).getD i
              (polyZero cc Representation.Evaluation)).coefficients.getD j []).getD k 0 : Int)
        [ZMOD (cc.moduli.getD j 0 : Nat)] := by
    rw [hsum1.1]
    have hs := sum_row_entries (cc.moduli.getD j 0) cc.degree hq0 j k hkN
      (polyZero cc Representation.Evaluation)
      (List.zipWith polyMulEval (liftRows kskOps cc x)
        (bvGenerateC1 prg cc.moduli.length cc seed))
      (fun p hp => hrowlens _ hmemB _ (List.mem_map_of_mem _ hp))
    rw [hB'len] at hs
    exact hs
  have hAent : ∀ i ∈ Finset.range cc.moduli.length,
      ((((List.zipWith polyMulEval (liftRows kskOps cc x)
        (bvGenerateC0 kskOps (ctxG cc) cc a
          (bvGenerateC1 prg cc.moduli.length cc seed) sk es)).getD i
          (polyZero cc Representation.Evaluation)).coefficients.getD j []).getD k 0 : Int)
      ≡ (((kskOps.getD j default).fwd
            (reduceVecU64 (cc.moduli.getD j 0) (x.coefficients.getD i []))).getD k 0 : Int)
        * ((((kskOps.getD j default).fwd
              (reduceVecI64 (cc.moduli.getD j 0) (es.getD i []))).getD k 0 : Int)
          + (((ctxG cc).getD i 0 % cc.moduli.getD j 0 : Nat) : Int)
            * ((a.coefficients.getD j []).getD k 0 : Int)
          - (((prg seed i cc).coefficients.getD j []).getD k 0 : Int)
            * (((kskOps.getD j default).fwd
                (reduceVecI64 (cc.moduli.getD j 0) sk)).getD k 0 : Int))
        [ZMOD (cc.moduli.getD j 0 : Nat)] := by
    intro i hi0
    have hi := Finset.mem_range.mp hi0
    rw [hArow i hi]
    have hPlen := (hPvec i hi).1
    have hElen := (hEvec i hi).1
    have hClen := (hCvec i).1
    have hGlen : (reduceVecU64 (cc.moduli.getD j 0)
        (List.replicate cc.degree ((ctxG cc).getD i 0))).length = cc.degree := by
      simp [reduceVecU64]
    have hMGl : (mulVec (cc.moduli.getD j 0)
        (reduceVecU64 (cc.moduli.getD j 0)
          (List.replicate cc.degree ((ctxG cc).getD i 0)))
        (a.coefficients.getD j [])).length = cc.degree := by
      rw [mulVec_length, hGlen, haL]
      exact Nat.min_self _
    have hADDl : (addVec (cc.moduli.getD j 0)
        ((kskOps.getD j default).fwd
          (reduceVecI64 (cc.moduli.getD j 0) (es.getD i [])))
        (mulVec (cc.moduli.getD j 0)
          (reduceVecU64 (cc.moduli.getD j 0)
            (List.replicate cc.degree ((ctxG cc).getD i 0)))
          (a.coefficients.getD j []))).length = cc.degree := by
      rw [addVec_length, hElen, hMGl]
      exact Nat.min_self _
    have hMCl : (mulVec (cc.moduli.getD j 0) ((prg seed i cc).coefficients.getD j [])
        ((kskOps.getD j default).fwd
          (reduceVecI64 (cc.moduli.getD j 0) sk))).length = cc.degree := by
      rw [mulVec_length, hClen, hsslen]
      exact Nat.min_self _
    have hsublen : (subVec (cc.moduli.getD j 0)
        (addVec (cc.moduli.getD j 0)
          ((kskOps.getD j default).fwd
            (reduceVecI64 (cc.moduli.getD j 0) (es.getD i [])))
          (mulVec (cc.moduli.getD j 0)
            (reduceVecU64 (cc.moduli.getD j 0)
              (List.replicate cc.degree ((ctxG cc).getD i 0)))
            (a.coefficients.getD j [])))
        (mulVec (cc.moduli.getD j 0) ((prg seed i cc).coefficients.getD j [])
          ((kskOps.getD j default).fwd
            (reduceVecI64 (cc.moduli.getD j 0) sk)))).length = cc.degree := by
      rw [subVec_length, hADDl, hMCl]
      exact Nat.min_self _
    have hle : (mulVec (cc.moduli.getD j 0) ((prg seed i cc).coefficients.getD j [])
        ((kskOps.getD j default).fwd
          (reduceVecI64 (cc.moduli.getD j 0) sk))).getD k 0
        ≤ cc.moduli.getD j 0 := by
      rw [mulVec_entry _ _ _ k (by rw [hClen]; exact hkN) (by rw [hsslen]; exact hkN)]
      exact Nat.le_of_lt (Nat.mod_lt (((prg seed i cc).coefficients.getD j []).getD k 0 *
        ((kskOps.getD j default).fwd
          (reduceVecI64 (cc.moduli.getD j 0) sk)).getD k 0) hq0)
    have hgg : (reduceVecU64 (cc.moduli.getD j 0)
        (List.replicate cc.degree ((ctxG cc).getD i 0))).getD k 0
        = (ctxG cc).getD i 0 % cc.moduli.getD j 0 := by
      rw [reduceVecU64_entry _ _ k (by rw [List.length_replicate]; exact hkN),
        getD_replicate _ 0 cc.degree k hkN]
    refine (mulVec_entry_modEq (cc.moduli.getD j 0) _ _ k
      (by rw [hPlen]; exact hkN) (by rw [hsublen]; exact hkN)).trans ?_
    refine Int.ModEq.mul_left _ ?_
    refine (subVec_entry_modEq (cc.moduli.getD j 0) _ _ k
      (by rw [hADDl]; exact hkN) (by rw [hMCl]; exact hkN) hle).trans ?_
    refine (Int.ModEq.sub
      ((addVec_entry_modEq (cc.moduli.getD j 0) _ _ k
        (by rw [hElen]; exact hkN) (by rw [hMGl]; exact hkN)).trans
        (Int.ModEq.add_left _
          (mulVec_entry_modEq (cc.moduli.getD j 0) _ _ k
            (by rw [hGlen]; exact hkN) (by rw [haL]; exact hkN))))
      (mulVec_entry_modEq (cc.moduli.getD j 0) _ _ k
        (by rw [hClen]; exact hkN) (by rw [hsslen]; exact hkN))).trans ?_
    rw [hgg]
  have hBent : ∀ i ∈ Finset.range cc.moduli.length,
      ((((List.zipWith polyMulEval (liftRows kskOps cc x)
        (bvGenerateC1 prg cc.moduli.length cc seed)).getD i
          (polyZero cc Representation.Evaluation)).coefficients.getD j []).getD k 0 : Int)
      ≡ (((kskOps.getD j default).fwd
            (reduceVecU64 (cc.moduli.getD j 0) (x.coefficients.getD i []))).getD k 0 : Int)
        * (((prg seed i cc).coefficients.getD j []).getD k 0 : Int)
        [ZMOD (cc.moduli.getD j 0 : Nat)] := by
    intro i hi0
    have hi := Finset.mem_range.mp hi0
    rw [hBrow i hi]
    have hPlen := (hPvec i hi).1
    have hClen := (hCvec i).1
    exact mulVec_entry_modEq (cc.moduli.getD j 0) _ _ k
      (by rw [hPlen]; exact hkN) (by rw [hClen]; exact hkN)
  have hcrtsum : (∑ i in Finset.range cc.moduli.length,
      (((ctxG cc).getD i 0 % cc.moduli.getD j 0 : Nat) : Int)
        * (((kskOps.getD j default).fwd
            (reduceVecU64 (cc.moduli.getD j 0) (x.coefficients.getD i []))).getD k 0 : Int))
      ≡ (((kskOps.getD j default).fwd (x.coefficients.getD j [])).getD k 0 : Int)
        [ZMOD (cc.moduli.getD j 0 : Nat)] := by
    have hcrt := crt_fwd_row cc (kskOps.getD j default) x j hcc hj hop.1 hop.2 hx.1 hx.2.2
    rw [hop.1, hop.2] at hcrt
    have hws : ∀ w ∈ List.zipWith (fun gi u => mulVec (cc.moduli.getD j 0)
        (List.replicate cc.degree (gi % cc.moduli.getD j 0))
        ((kskOps.getD j default).fwd (reduceVecU64 (cc.moduli.getD j 0) u)))
        (ctxG cc) x.coefficients, w.length = cc.degree := by
      intro w hw
      obtain ⟨gi, _, u, hu, rfl⟩ := mem_zipWith hw
      have hul : u.length = cc.degree := hrowsx u hu
      have hfv : VecOk (cc.moduli.getD j 0) cc.degree
          ((kskOps.getD j default).fwd (reduceVecU64 (cc.moduli.getD j 0) u)) := by
        rw [← hop.1, ← hop.2]
        apply (kskOps.getD j default).fwd_ok
        rw [hop.1, hop.2]
        exact reduceVecU64_ok _ _ hq0 _ hul
      rw [mulVec_length, List.length_replicate, hfv.1]
      exact Nat.min_self _
    obtain ⟨h1x, h2x, hent⟩ := foldl_addVec_facts (cc.moduli.getD j 0) hq0 cc.degree k hkN
      (List.zipWith (fun gi u => mulVec (cc.moduli.getD j 0)
        (List.replicate cc.degree (gi % cc.moduli.getD j 0))
        ((kskOps.getD j default).fwd (reduceVecU64 (cc.moduli.getD j 0) u)))
        (ctxG cc) x.coefficients)
      (List.replicate cc.degree 0) (by rw [List.length_replicate])
      (fun y hy => by
        rw [List.eq_of_mem_replicate hy]
        exact hq0) hws
    rw [hcrt] at hent
    rw [getD_replicate_zero, Nat.cast_zero, zero_add] at hent
    rw [List.map_zipWith, zipWith_sum_range _ 0 [] _ _ (by rw [ctxG_length, hxlen]),
      ctxG_length] at hent
    refine Int.ModEq.symm (hent.trans ?_)
    apply modEq_sum
    intro i hi0
    have hi := Finset.mem_range.mp hi0
    have hPlen := (hPvec i hi).1
    refine (mulVec_entry_modEq (cc.moduli.getD j 0) _ _ k
      (by rw [List.length_replicate]; exact hkN) (by rw [hPlen]; exact hkN)).trans ?_
    rw [getD_replicate _ 0 cc.degree k hkN]
  rw [hresrow]
  have hM1len : (mulVec (cc.moduli.getD j 0)
      ((sumPolys1 (List.zipWith polyMulEval (liftRows kskOps cc x)
        (bvGenerateC1 prg cc.moduli.length cc seed))).coefficients.getD j [])
      ((kskOps.getD j default).fwd
        (reduceVecI64 (cc.moduli.getD j 0) sk))).length = cc.degree := by
    rw [mulVec_length, hS1len, hsslen]
    exact Nat.min_self _
  have hM2len : (mulVec (cc.moduli.getD j 0) (a.coefficients.getD j [])
      ((kskOps.getD j default).fwd (x.coefficients.getD j []))).length = cc.degree := by
    rw [mulVec_length, haL, hxfL]
    exact Nat.min_self _
  have hADDlen : (addVec (cc.moduli.getD j 0)
      ((sumPolys1 (List.zipWith polyMulEval (liftRows kskOps cc x)
        (bvGenerateC0 kskOps (ctxG cc) cc a
          (bvGenerateC1 prg cc.moduli.length cc seed) sk es))).coefficients.getD j [])
      (mulVec (cc.moduli.getD j 0)
        ((sumPolys1 (List.zipWith polyMulEval (liftRows kskOps cc x)
          (bvGenerateC1 prg cc.moduli.length cc seed))).coefficients.getD j [])
        ((kskOps.getD j default).fwd
          (reduceVecI64 (cc.moduli.getD j 0) sk)))).length = cc.degree := by
    rw [addVec_length, hS0len, hM1len]
    exact Nat.min_self _
  have hle2 : (mulVec (cc.moduli.getD j 0) (a.coefficients.getD j [])
      ((kskOps.getD j default).fwd (x.coefficients.getD j []))).getD k 0
      ≤ cc.moduli.getD j 0 := by
    rw [mulVec_entry _ _ _ k (by rw [haL]; exact hkN) (by rw [hxfL]; exact hkN)]
    exact Nat.le_of_lt (Nat.mod_lt ((a.coefficients.getD j []).getD k 0 *
      ((kskOps.getD j default).fwd (x.coefficients.getD j [])).getD k 0) hq0)
  refine (subVec_entry_modEq (cc.moduli.getD j 0) _ _ k
    (by rw [hADDlen]; exact hkN) (by rw [hM2len]; exact hkN) hle2).trans ?_
  refine (Int.ModEq.sub
    ((addVec_entry_modEq (cc.moduli.getD j 0) _ _ k
      (by rw [hS0len]; exact hkN) (by rw [hM1len]; exact hkN)).trans
      (Int.ModEq.add_left _
        (mulVec_entry_modEq (cc.moduli.getD j 0) _ _ k
          (by rw [hS1len]; exact hkN) (by rw [hsslen]; exact hkN))))
    (mulVec_entry_modEq (cc.moduli.getD j 0) _ _ k
      (by rw [haL]; exact hkN) (by rw [hxfL]; exact hkN))).trans ?_
  refine (Int.ModEq.sub
    (Int.ModEq.add (hrow0sum.trans (modEq_sum _ _ _ _ hAent))
      (Int.ModEq.mul_right _ (hrow1sum.trans (modEq_sum _ _ _ _ hBent))))
    (Int.ModEq.refl _)).trans ?_
  exact switch_cancel_algebra (cc.moduli.getD j 0) cc.moduli.length _ _ _ _
    ((a.coefficients.getD j []).getD k 0 : Int)
    (((kskOps.getD j default).fwd
      (reduceVecI64 (cc.moduli.getD j 0) sk)).getD k 0 : Int)
    (((kskOps.getD j default).fwd (x.coefficients.getD j [])).getD k 0 : Int)
    hcrtsum

theorem reduceVecU64_getD_modEq (q : Nat) (u : List Nat) (i : Nat) :
    (((reduceVecU64 q u).getD i 0 : Nat) : Int) ≡ ((u.getD i 0 : Nat) : Int)
      [ZMOD (q : Nat)] := by
  by_cases hi : i < u.length
  · rw [reduceVecU64_entry q u i hi]
    exact natCast_mod_modEq _ _
  · rw [List.getD_eq_default _ _ (by simp only [reduceVecU64, List.length_map]; omega),
      List.getD_eq_default _ _ (by omega)]

theorem reduceVecI64_getD_modEq (q : Nat) (hq : 0 < q) (v : List Int) (i : Nat) :
    (((reduceVecI64 q v).getD i 0 : Nat) : Int) ≡ v.getD i 0 [ZMOD (q : Nat)] := by
  by_cases hi : i < v.length
  · exact reduceVecI64_entry_modEq q hq v i hi
  · rw [List.getD_eq_default _ _ (by simp only [reduceVecI64, List.length_map]; omega),
      List.getD_eq_default _ _ (by omega)]
    exact Int.ModEq.refl _

theorem sum_getD_int (mods : List Nat) :
    (∑ i in Finset.range mods.length, ((mods.getD i 0 : Nat) : Int))
      = ((mods.sum : Nat) : Int) := by
  induction mods with
  | nil => simp
  | cons m mods ih =>
    rw [show (m :: mods).length = mods.length + 1 from rfl, Finset.sum_range_succ',
      List.sum_cons]
    simp only [List.getD_cons_succ, List.getD_cons_zero]
    rw [ih]
    push_cast
    ring

/-- Row `j` of the switch noise `c0_out + c1_out·s − a·x` brought back to
Coefficient form: its entry `kpos` is congruent, modulo `q_j`, to the
`j`-independent integer noise `Σ_i ncmInt(x_i, e_i)(kpos)`. -/
theorem bv_noise_row (kskOps : List NttOp) (prg : Nat → Nat → PolyContext → Poly)
    (a : Poly) (sk : List Int) (cc : PolyContext) (es : List (List Int)) (seed : Nat)
    (x : Poly)
    (hctx : a.context = cc) (hcc : CtxOk cc) (hops : OpsMatch cc kskOps)
    (ha : PolyOk a) (hsk : sk.length = cc.degree)
    (hprg : ∀ s i, (prg s i cc).context = cc ∧
      (prg s i cc).representation = Representation.Evaluation ∧ PolyOk (prg s i cc))
    (hes : es.length = cc.moduli.length ∧ ∀ e ∈ es, e.length = cc.degree)
    (hx : x.context = cc ∧ x.representation = Representation.Coefficient ∧ PolyOk x)
    (j : Nat) (hj : j < cc.moduli.length) :
    (changeRep kskOps (polySub
        (polyAdd ((bvSwitch kskOps (bvNew prg kskOps a sk cc es seed) x).getD 0
            (polyZero cc Representation.Evaluation))
          (polyMulEval ((bvSwitch kskOps (bvNew prg kskOps a sk cc es seed) x).getD 1
              (polyZero cc Representation.Evaluation))
            (changeRep kskOps (liftInt cc Representation.Coefficient sk)
              Representation.Evaluation)))
        (polyMulEval a (changeRep kskOps x Representation.Evaluation)))
      Representation.Coefficient).coefficients.length = cc.moduli.length
    ∧ ∀ kpos, kpos < cc.degree →
      (((changeRep kskOps (polySub
          (polyAdd ((bvSwitch kskOps (bvNew prg kskOps a sk cc es seed) x).getD 0
              (polyZero cc Representation.Evaluation))
            (polyMulEval ((bvSwitch kskOps (bvNew prg kskOps a sk cc es seed) x).getD 1
                (polyZero cc Representation.Evaluation))
              (changeRep kskOps (liftInt cc Representation.Coefficient sk)
                Representation.Evaluation)))
          (polyMulEval a (changeRep kskOps x Representation.Evaluation)))
        Representation.Coefficient).coefficients.getD j []).getD kpos 0 : Int)
        ≡ ∑ i in Finset.range cc.moduli.length,
            ncmInt (intsOf (x.coefficients.getD i [])) (es.getD i []) cc.degree kpos
          [ZMOD (cc.moduli.getD j 0 : Nat)] := by
  have hq1 : 1 < cc.moduli.getD j 0 := hcc.1 _ (getD_mem_of_lt _ _ hj)
  have hq0 : 0 < cc.moduli.getD j 0 := by omega
  have hN0 : 0 < cc.degree := hcc.2.2
  have hop := hops.2 j (by rw [hops.1]; exact hj)
  have hjops : j < kskOps.length := by rw [hops.1]; exact hj
  have hxlen : x.coefficients.length = cc.moduli.length := by rw [hx.2.2.1, hx.1]
  have hrowsx : ∀ row ∈ x.coefficients, row.length = cc.degree := by
    intro row hrow
    have h2 := polyOk_row_length x hx.2.2 row hrow
    rw [hx.1] at h2
    exact h2
  have heslen2 : ∀ i, i < cc.moduli.length → (es.getD i []).length = cc.degree :=
    fun i hi => hes.2 _ (getD_mem_of_lt' es i [] (by rw [hes.1]; exact hi))
  obtain ⟨hent, hvec, hrep, hlen⟩ := bv_res_row_entry kskOps prg a sk cc es seed x
    hctx hcc hops ha hsk hprg hes hx j hj
  have hclen : (changeRep kskOps (polySub
      (polyAdd ((bvSwitch kskOps (bvNew prg kskOps a sk cc es seed) x).getD 0
          (polyZero cc Representation.Evaluation))
        (polyMulEval ((bvSwitch kskOps (bvNew prg kskOps a sk cc es seed) x).getD 1
            (polyZero cc Representation.Evaluation))
          (changeRep kskOps (liftInt cc Representation.Coefficient sk)
            Representation.Evaluation)))
      (polyMulEval a (changeRep kskOps x Representation.Evaluation)))
      Representation.Coefficient).coefficients.length = cc.moduli.length := by
    rw [changeRep_toCoef kskOps _ hrep]
    show (List.zipWith (fun op row => op.bwd row) kskOps
      (polySub
        (polyAdd ((bvSwitch kskOps (bvNew prg kskOps a sk cc es seed) x).getD 0
            (polyZero cc Representation.Evaluation))
          (polyMulEval ((bvSwitch kskOps (bvNew prg kskOps a sk cc es seed) x).getD 1
              (polyZero cc Representation.Evaluation))
            (changeRep kskOps (liftInt cc Representation.Coefficient sk)
              Representation.Evaluation)))
        (polyMulEval a (changeRep kskOps x Representation.Evaluation))).coefficients).length
      = cc.moduli.length
    rw [List.length_zipWith, hops.1, hlen]
    exact Nat.min_self _
  have hWmem : ∀ w ∈ List.zipWith (fun u e => negacyclicMul (cc.moduli.getD j 0) cc.degree
      (reduceVecU64 (cc.moduli.getD j 0) u) (reduceVecI64 (cc.moduli.getD j 0) e))
      x.coefficients es, VecOk (cc.moduli.getD j 0) cc.degree w := by
    intro w hw
    obtain ⟨u, _, e, _, rfl⟩ := mem_zipWith hw
    exact negacyclicMul_ok _ _ hq0 _ _
  obtain ⟨hWlen, hWlt, -⟩ := foldl_addVec_facts (cc.moduli.getD j 0) hq0 cc.degree 0 hN0
    (List.zipWith (fun u e => negacyclicMul (cc.moduli.getD j 0) cc.degree
      (reduceVecU64 (cc.moduli.getD j 0) u) (reduceVecI64 (cc.moduli.getD j 0) e))
      x.coefficients es)
    (List.replicate cc.degree 0) (by simp)
    (fun y hy => by rw [List.eq_of_mem_replicate hy]; exact hq0)
    (fun w hw => (hWmem w hw).1)
  have hPvec : ∀ i, i < cc.moduli.length → VecOk (cc.moduli.getD j 0) cc.degree
      ((kskOps.getD j default).fwd
        (reduceVecU64 (cc.moduli.getD j 0) (x.coefficients.getD i []))) := by
    intro i hi
    rw [← hop.1, ← hop.2]
    apply (kskOps.getD j default).fwd_ok
    rw [hop.1, hop.2]
    exact reduceVecU64_ok _ _ hq0 _
      (hrowsx _ (getD_mem_of_lt' x.coefficients i [] (by rw [hxlen]; exact hi)))
  have hEvec : ∀ i, i < cc.moduli.length → VecOk (cc.moduli.getD j 0) cc.degree
      ((kskOps.getD j default).fwd
        (reduceVecI64 (cc.moduli.getD j 0) (es.getD i []))) := by
    intro i hi
    rw [← hop.1, ← hop.2]
    apply (kskOps.getD j default).fwd_ok
    rw [hop.1, hop.2]
    exact reduceVecI64_ok _ _ hq0 _ (heslen2 i hi)
  have hVe : List.zipWith (fun u e => mulVec (cc.moduli.getD j 0)
      ((kskOps.getD j default).fwd (reduceVecU64 (cc.moduli.getD j 0) u))
      ((kskOps.getD j default).fwd (reduceVecI64 (cc.moduli.getD j 0) e)))
      x.coefficients es
      = (List.zipWith (fun u e => negacyclicMul (cc.moduli.getD j 0) cc.degree
          (reduceVecU64 (cc.moduli.getD j 0) u) (reduceVecI64 (cc.moduli.getD j 0) e))
          x.coefficients es).map (kskOps.getD j default).fwd := by
    rw [List.map_zipWith]
    apply zipWith_congr_mem
    intro u hu e he
    have h1 : VecOk (kskOps.getD j default).q (kskOps.getD j default).N
        (reduceVecU64 (cc.moduli.getD j 0) u) := by
      rw [hop.1, hop.2]
      exact reduceVecU64_ok _ _ hq0 _ (hrowsx u hu)
    have h2 : VecOk (kskOps.getD j default).q (kskOps.getD j default).N
        (reduceVecI64 (cc.moduli.getD j 0) e) := by
      rw [hop.1, hop.2]
      exact reduceVecI64_ok _ _ hq0 _ (hes.2 e he)
    have hm := (kskOps.getD j default).fwd_mul _ _ h1 h2
    rw [hop.1, hop.2] at hm
    exact hm.symm
  have hseed : (kskOps.getD j default).fwd (List.replicate cc.degree 0)
      = List.replicate cc.degree 0 := by
    have h := fwd_replicate_zero (kskOps.getD j default) (by rw [hop.2]; exact hN0)
    rw [hop.2] at h
    exact h
  have hfwdW : ((List.zipWith (fun u e => negacyclicMul (cc.moduli.getD j 0) cc.degree
      (reduceVecU64 (cc.moduli.getD j 0) u) (reduceVecI64 (cc.moduli.getD j 0) e))
      x.coefficients es).map (kskOps.getD j default).fwd).foldl
        (addVec (cc.moduli.getD j 0)) (List.replicate cc.degree 0)
      = (kskOps.getD j default).fwd
          ((List.zipWith (fun u e => negacyclicMul (cc.moduli.getD j 0) cc.degree
            (reduceVecU64 (cc.moduli.getD j 0) u) (reduceVecI64 (cc.moduli.getD j 0) e))
            x.coefficients es).foldl (addVec (cc.moduli.getD j 0))
            (List.replicate cc.degree 0)) := by
    have h := foldl_addVec_fwd (kskOps.getD j default) (by rw [hop.1]; exact hq0)
      (List.zipWith (fun u e => negacyclicMul (cc.moduli.getD j 0) cc.degree
        (reduceVecU64 (cc.moduli.getD j 0) u) (reduceVecI64 (cc.moduli.getD j 0) e))
        x.coefficients es)
      (List.replicate cc.degree 0)
      (by rw [hop.1, hop.2]
          exact ⟨by simp, fun y hy => by rw [List.eq_of_mem_replicate hy]; exact hq0⟩)
      (fun w hw => by rw [hop.1, hop.2]; exact hWmem w hw)
    rw [hop.1] at h
    rw [hseed] at h
    exact h
  have hVmem : ∀ w ∈ List.zipWith (fun u e => mulVec (cc.moduli.getD j 0)
      ((kskOps.getD j default).fwd (reduceVecU64 (cc.moduli.getD j 0) u))
      ((kskOps.getD j default).fwd (reduceVecI64 (cc.moduli.getD j 0) e)))
      x.coefficients es, w.length = cc.degree := by
    intro w hw
    obtain ⟨u, hu, e, he, rfl⟩ := mem_zipWith hw
    have hfu : VecOk (cc.moduli.getD j 0) cc.degree
        ((kskOps.getD j default).fwd (reduceVecU64 (cc.moduli.getD j 0) u)) := by
      rw [← hop.1, ← hop.2]
      apply (kskOps.getD j default).fwd_ok
      rw [hop.1, hop.2]
      exact reduceVecU64_ok _ _ hq0 _ (hrowsx u hu)
    have hfe : VecOk (cc.moduli.getD j 0) cc.degree
        ((kskOps.getD j default).fwd (reduceVecI64 (cc.moduli.getD j 0) e)) := by
      rw [← hop.1, ← hop.2]
      apply (kskOps.getD j default).fwd_ok
      rw [hop.1, hop.2]
      exact reduceVecI64_ok _ _ hq0 _ (hes.2 e he)
    rw [mulVec_length, hfu.1, hfe.1]
    exact Nat.min_self _
  obtain ⟨hVlen, hVlt, -⟩ := foldl_addVec_facts (cc.moduli.getD j 0) hq0 cc.degree 0 hN0
    (List.zipWith (fun u e => mulVec (cc.moduli.getD j 0)
      ((kskOps.getD j default).fwd (reduceVecU64 (cc.moduli.getD j 0) u))
      ((kskOps.getD j default).fwd (reduceVecI64 (cc.moduli.getD j 0) e)))
      x.coefficients es)
    (List.replicate cc.degree 0) (by simp)
    (fun y hy => by rw [List.eq_of_mem_replicate hy]; exact hq0) hVmem
  have hErowVe : (polySub
      (polyAdd ((bvSwitch kskOps (bvNew prg kskOps a sk cc es seed) x).getD 0
          (polyZero cc Representation.Evaluation))
        (polyMulEval ((bvSwitch kskOps (bvNew prg kskOps a sk cc es seed) x).getD 1
            (polyZero cc Representation.Evaluation))
          (changeRep kskOps (liftInt cc Representation.Coefficient sk)
            Representation.Evaluation)))
      (polyMulEval a (changeRep kskOps x Representation.Evaluation))).coefficients.getD j []
      = (List.zipWith (fun u e => mulVec (cc.moduli.getD j 0)
          ((kskOps.getD j default).fwd (reduceVecU64 (cc.moduli.getD j 0) u))
          ((kskOps.getD j default).fwd (reduceVecI64 (cc.moduli.getD j 0) e)))
          x.coefficients es).foldl (addVec (cc.moduli.getD j 0))
          (List.replicate cc.degree 0) := by
    apply vec_eq_of_modEq (cc.moduli.getD j 0) _ _ (by rw [hvec.1, hVlen]) hvec.2 hVlt
    intro k hk
    have hkN : k < cc.degree := by rw [hvec.1] at hk; exact hk
    refine (hent k hkN).trans ?_
    obtain ⟨-, -, hVk⟩ := foldl_addVec_facts (cc.moduli.getD j 0) hq0 cc.degree k hkN
      (List.zipWith (fun u e => mulVec (cc.moduli.getD j 0)
        ((kskOps.getD j default).fwd (reduceVecU64 (cc.moduli.getD j 0) u))
        ((kskOps.getD j default).fwd (reduceVecI64 (cc.moduli.getD j 0) e)))
        x.coefficients es)
      (List.replicate cc.degree 0) (by simp)
      (fun y hy => by rw [List.eq_of_mem_replicate hy]; exact hq0) hVmem
    rw [getD_replicate_zero, Nat.cast_zero, zero_add] at hVk
    rw [List.map_zipWith, zipWith_sum_range _ [] [] _ _ (by rw [hxlen, hes.1]), hxlen] at hVk
    refine Int.ModEq.symm (hVk.trans (modEq_sum _ _ _ _ ?_))
    intro i hi0
    have hi := Finset.mem_range.mp hi0
    exact mulVec_entry_modEq (cc.moduli.getD j 0) _ _ k
      (by rw [(hPvec i hi).1]; exact hkN) (by rw [(hEvec i hi).1]; exact hkN)
  have hrowW : (changeRep kskOps (polySub
      (polyAdd ((bvSwitch kskOps (bvNew prg kskOps a sk cc es seed) x).getD 0
          (polyZero cc Representation.Evaluation))
        (polyMulEval ((bvSwitch kskOps (bvNew prg kskOps a sk cc es seed) x).getD 1
            (polyZero cc Representation.Evaluation))
          (changeRep kskOps (liftInt cc Representation.Coefficient sk)
            Representation.Evaluation)))
      (polyMulEval a (changeRep kskOps x Representation.Evaluation)))
      Representation.Coefficient).coefficients.getD j []
      = (List.zipWith (fun u e => negacyclicMul (cc.moduli.getD j 0) cc.degree
          (reduceVecU64 (cc.moduli.getD j 0) u) (reduceVecI64 (cc.moduli.getD j 0) e))
          x.coefficients es).foldl (addVec (cc.moduli.getD j 0))
          (List.replicate cc.degree 0) := by
    rw [changeRep_coef_row kskOps _ j hrep hjops (by rw [hlen]; exact hj)]
    rw [hErowVe, hVe, hfwdW]
    refine (kskOps.getD j default).bwd_fwd _ ?_
    rw [hop.1, hop.2]
    exact ⟨hWlen, hWlt⟩
  refine ⟨hclen, ?_⟩
  intro kpos hkpos
  rw [hrowW]
  obtain ⟨-, -, hWk⟩ := foldl_addVec_facts (cc.moduli.getD j 0) hq0 cc.degree kpos hkpos
    (List.zipWith (fun u e => negacyclicMul (cc.moduli.getD j 0) cc.degree
      (reduceVecU64 (cc.moduli.getD j 0) u) (reduceVecI64 (cc.moduli.getD j 0) e))
      x.coefficients es)
    (List.replicate cc.degree 0) (by simp)
    (fun y hy => by rw [List.eq_of_mem_replicate hy]; exact hq0)
    (fun w hw => (hWmem w hw).1)
  rw [getD_replicate_zero, Nat.cast_zero, zero_add] at hWk
  rw [List.map_zipWith, zipWith_sum_range _ [] [] _ _ (by rw [hxlen, hes.1]), hxlen] at hWk
  refine hWk.trans (modEq_sum _ _ _ _ ?_)
  intro i hi0
  have hi := Finset.mem_range.mp hi0
  refine (negacyclicMul_entry_modEq (cc.moduli.getD j 0) cc.degree hq0 _ _ kpos hkpos).trans ?_
  refine (ncmInt_congr_left _ _ _ _ _ _ ?_).trans (ncmInt_congr_right _ _ _ _ _ _ ?_)
  · intro t _
    rw [intsOf_getD, intsOf_getD]
    exact reduceVecU64_getD_modEq _ _ t
  · intro t
    rw [intsOf_getD]
    exact reduceVecI64_getD_modEq _ hq0 _ t

/-- C4: for every BV key-switching key built by `new` for target secret `sk` and
key polynomial `a` over the ciphertext context `cc`, and every input `x` in
Coefficient form in `cc`, the switch output `(c0_out, c1_out)` satisfies
`c0_out + c1_out·s − a·x ≡ Σ_i p_i·e_i`: every coefficient of the noise,
reconstructed by CRT over the chain and centered modulo `Q = Π q_i`, has
magnitude at most `N·(Σ_i q_i)·B`, where `B` bounds the sampled errors and `N`
is the ring degree.  (The spec claims the bound `Σ_i q_i·B` without the degree
factor; the counterexample below shows the degree factor is necessary.) -/
theorem bv_switch_noise_bound (kskOps : List NttOp) (prg : Nat → Nat → PolyContext → Poly)
    (a : Poly) (sk : List Int) (cc : PolyContext) (es : List (List Int)) (seed : Nat)
    (x : Poly) (B : Nat)
    (hctx : a.context = cc) (hcc : CtxOk cc) (hops : OpsMatch cc kskOps)
    (ha : PolyOk a) (hsk : sk.length = cc.degree)
    (hprg : ∀ s i, (prg s i cc).context = cc ∧
      (prg s i cc).representation = Representation.Evaluation ∧ PolyOk (prg s i cc))
    (hes : es.length = cc.moduli.length ∧ ∀ e ∈ es, e.length = cc.degree)
    (hx : x.context = cc ∧ x.representation = Representation.Coefficient ∧ PolyOk x)
    (hB : ∀ e ∈ es, ∀ w ∈ e, |w| ≤ (B : Int)) :
    ∀ kpos, kpos < cc.degree →
      |center cc.moduli.prod (crtRec cc.moduli
        ((changeRep kskOps (polySub
            (polyAdd ((bvSwitch kskOps (bvNew prg kskOps a sk cc es seed) x).getD 0
                (polyZero cc Representation.Evaluation))
              (polyMulEval ((bvSwitch kskOps (bvNew prg kskOps a sk cc es seed) x).getD 1
                  (polyZero cc Representation.Evaluation))
                (changeRep kskOps (liftInt cc Representation.Coefficient sk)
                  Representation.Evaluation)))
            (polyMulEval a (changeRep kskOps x Representation.Evaluation)))
          Representation.Coefficient).coefficients.map (fun row => row.getD kpos 0)))|
        ≤ ((cc.degree * (cc.moduli.sum * B) : Nat) : Int) := by
  intro kpos hkpos
  refine center_crtRec_bound cc.moduli _ hcc.2.1 hcc.1
    (∑ i in Finset.range cc.moduli.length,
      ncmInt (intsOf (x.coefficients.getD i [])) (es.getD i []) cc.degree kpos)
    (cc.degree * (cc.moduli.sum * B)) ?_ ?_
  · have hstep : (∑ i in Finset.range cc.moduli.length,
        ((cc.degree : Int) * (((cc.moduli.getD i 0 : Nat) : Int) * ((B : Nat) : Int))))
        = ((cc.degree * (cc.moduli.sum * B) : Nat) : Int) := by
      rw [← Finset.mul_sum, ← Finset.sum_mul, sum_getD_int]
      push_cast
      ring
    calc |∑ i in Finset.range cc.moduli.length,
          ncmInt (intsOf (x.coefficients.getD i [])) (es.getD i []) cc.degree kpos|
        ≤ ∑ i in Finset.range cc.moduli.length,
            |ncmInt (intsOf (x.coefficients.getD i [])) (es.getD i []) cc.degree kpos| :=
          Finset.abs_sum_le_sum_abs _ _
      _ ≤ ∑ i in Finset.range cc.moduli.length,
            ((cc.degree : Int) * (((cc.moduli.getD i 0 : Nat) : Int) * ((B : Nat) : Int))) := by
          apply Finset.sum_le_sum
          intro i hi0
          have hi := Finset.mem_range.mp hi0
          apply ncmInt_bound
          · intro t htN
            rw [intsOf_getD]
            have hxv := hx.2.2.2 i (by rw [hx.2.2.1, hx.1]; exact hi)
            rw [hx.1] at hxv
            have htl : t < (x.coefficients.getD i []).length := by rw [hxv.1]; exact htN
            have hlt := hxv.2 _ (getD_mem_of_lt _ _ htl)
            rw [Int.abs_natCast]
            exact_mod_cast Nat.le_of_lt hlt
          · intro t
            by_cases ht : t < (es.getD i []).length
            · exact hB _ (getD_mem_of_lt' es i [] (by rw [hes.1]; exact hi)) _
                (getD_mem_of_lt' _ t 0 ht)
            · rw [List.getD_eq_default _ _ (by omega)]
              simp
      _ = ((cc.degree * (cc.moduli.sum * B) : Nat) : Int) := hstep
  · intro j hj
    obtain ⟨hclen, hrow⟩ := bv_noise_row kskOps prg a sk cc es seed x
      hctx hcc hops ha hsk hprg hes hx j hj
    rw [getD_map_lt (fun row : List Nat => row.getD kpos 0) _ j 0 []
      (by rw [hclen]; exact hj)]
    exact hrow kpos hkpos

def skC4 : List Int := [1]

def esC4 : List (List Int) := [[1], [-1]]

/-- Witness for C4 at degree 1 with moduli 17 and 13, error bound `B = 1`. -/
theorem bv_switch_noise_bound_witness :
    |center ccX.moduli.prod (crtRec ccX.moduli
      ((changeRep opsX (polySub
          (polyAdd ((bvSwitch opsX (bvNew prgX opsX aX skC4 ccX esC4 7) xX5).getD 0
              (polyZero ccX Representation.Evaluation))
            (polyMulEval ((bvSwitch opsX (bvNew prgX opsX aX skC4 ccX esC4 7) xX5).getD 1
                (polyZero ccX Representation.Evaluation))
              (changeRep opsX (liftInt ccX Representation.Coefficient skC4)
                Representation.Evaluation)))
          (polyMulEval aX (changeRep opsX xX5 Representation.Evaluation)))
        Representation.Coefficient).coefficients.map (fun row => row.getD 0 0)))|
      ≤ ((ccX.degree * (ccX.moduli.sum * 1) : Nat) : Int) :=
  bv_switch_noise_bound opsX prgX aX skC4 ccX esC4 7 xX5 1 rfl (by decide) (by decide)
    (by decide) rfl
    (fun s i => ⟨rfl, rfl, liftNat_ok ccX Representation.Evaluation [s + i] (by decide) rfl⟩)
    (by decide) (by decide) (by decide) 0 (by decide)

/-! ### A two-point negacyclic NTT, for the degree-2 counterexample -/

theorem vecOk_two (q : Nat) (v : List Nat) (h : VecOk q 2 v) :
    ∃ a b, v = [a, b] ∧ a < q ∧ b < q := by
  obtain ⟨hlen, hlt⟩ := h
  match v, hlen with
  | [a, b], _ =>
    exact ⟨a, b, rfl, hlt a (by simp), hlt b (by simp)⟩

theorem cons2_eq {x1 y1 x2 y2 : Nat} (h0 : x1 = x2) (h1 : y1 = y2) :
    [x1, y1] = [x2, y2] := by rw [h0, h1]

theorem negacyclicMul_two (q a b c d : Nat) :
    negacyclicMul q 2 [a, b] [c, d]
      = [(((a : Int) * c - (b : Int) * d) % (q : Int)).toNat,
         (((a : Int) * d + (b : Int) * c) % (q : Int)).toNat] := by
  have h0 : ncmInt (intsOf [a, b]) (intsOf [c, d]) 2 0 = (a : Int) * c - (b : Int) * d := by
    unfold ncmInt
    rw [Finset.sum_range_succ, Finset.sum_range_succ, Finset.sum_range_zero]
    simp [intsOf, ncTerm]
    try ring
  have h1 : ncmInt (intsOf [a, b]) (intsOf [c, d]) 2 1 = (a : Int) * d + (b : Int) * c := by
    unfold ncmInt
    rw [Finset.sum_range_succ, Finset.sum_range_succ, Finset.sum_range_zero]
    simp [intsOf, ncTerm]
    try ring
  show [((ncmInt (intsOf [a, b]) (intsOf [c, d]) 2 0) % (q : Int)).toNat,
        ((ncmInt (intsOf [a, b]) (intsOf [c, d]) 2 1) % (q : Int)).toNat] = _
  rw [h0, h1]

def ntt2Fwd (q s t : Nat) (w : List Nat) : List Nat :=
  [(w.getD 0 0 + s * w.getD 1 0) % q, (w.getD 0 0 + t * w.getD 1 0) % q]

def ntt2Bwd (q u v : Nat) (w : List Nat) : List Nat :=
  [u * (w.getD 0 0 + w.getD 1 0) % q, v * (w.getD 0 0 + (q - w.getD 1 0)) % q]

theorem zmod_toNat_emod (q : Nat) (hq : 0 < q) (X : Int) :
    (((X % (q : Int)).toNat : Nat) : ZMod q) = ((X : Int) : ZMod q) := by
  have hnn : 0 ≤ X % (q : Int) :=
    Int.emod_nonneg _ (by exact_mod_cast Nat.pos_iff_ne_zero.mp hq)
  rw [show (((X % (q : Int)).toNat : Nat) : ZMod q)
      = (((X % (q : Int)).toNat : Int) : ZMod q) from (Int.cast_natCast _).symm,
    Int.toNat_of_nonneg hnn, ZMod.intCast_mod]

theorem mod_eq_of_zmod_eq (q x y : Nat) (hy : y < q)
    (h : ((x : Nat) : ZMod q) = ((y : Nat) : ZMod q)) : x % q = y := by
  have h2 := (ZMod.natCast_eq_natCast_iff' x y q).mp h
  rw [Nat.mod_eq_of_lt hy] at h2
  exact h2

/-- A two-point negacyclic NTT (evaluation at `s` and `-s`) from a square root
`s` of `-1` modulo `q`, with `u` the inverse of `2` and `v` the inverse of `2·s`. -/
def mk2Ntt (q s u v : Nat) (hq : 1 < q) (hsq : s < q)
    (hs : s * s % q = q - 1) (hu : 2 * u % q = 1) (hv : 2 * s * v % q = 1) : NttOp where
  q := q
  N := 2
  fwd := ntt2Fwd q s (q - s)
  bwd := ntt2Bwd q u v
  fwd_ok := fun w _ => by
    refine ⟨rfl, ?_⟩
    intro z hz
    rcases List.mem_cons.mp hz with rfl | hz2
    · exact Nat.mod_lt _ (by omega)
    · rcases List.mem_cons.mp hz2 with rfl | hz3
      · exact Nat.mod_lt _ (by omega)
      · simp at hz3
  bwd_ok := fun w _ => by
    refine ⟨rfl, ?_⟩
    intro z hz
    rcases List.mem_cons.mp hz with rfl | hz2
    · exact Nat.mod_lt _ (by omega)
    · rcases List.mem_cons.mp hz2 with rfl | hz3
      · exact Nat.mod_lt _ (by omega)
      · simp at hz3
  bwd_fwd := fun w hw => by
    obtain ⟨a, b, rfl, ha, hb⟩ := vecOk_two q w hw
    have hq0 : 0 < q := by omega
    have hcu := congrArg (fun m : Nat => (m : ZMod q)) hu
    simp only [ZMod.natCast_mod] at hcu
    push_cast at hcu
    have hcv := congrArg (fun m : Nat => (m : ZMod q)) hv
    simp only [ZMod.natCast_mod] at hcv
    push_cast at hcv
    show [u * ((a + s * b) % q + (a + (q - s) * b) % q) % q,
          v * ((a + s * b) % q + (q - (a + (q - s) * b) % q)) % q] = [a, b]
    refine cons2_eq ?_ ?_
    · apply mod_eq_of_zmod_eq q _ _ ha
      push_cast [ZMod.natCast_mod, show s ≤ q from by omega, ZMod.natCast_self]
      linear_combination ((a : ZMod q)) * hcu
    · apply mod_eq_of_zmod_eq q _ _ hb
      have hm2 : (a + (q - s) * b) % q ≤ q := Nat.le_of_lt (Nat.mod_lt _ hq0)
      push_cast [ZMod.natCast_mod, show s ≤ q from by omega, hm2, ZMod.natCast_self]
      linear_combination ((b : ZMod q)) * hcv
  fwd_bwd := fun w hw => by
    obtain ⟨a, b, rfl, ha, hb⟩ := vecOk_two q w hw
    have hq0 : 0 < q := by omega
    have hcu := congrArg (fun m : Nat => (m : ZMod q)) hu
    simp only [ZMod.natCast_mod] at hcu
    push_cast at hcu
    have hcv := congrArg (fun m : Nat => (m : ZMod q)) hv
    simp only [ZMod.natCast_mod] at hcv
    push_cast at hcv
    have hsv : (s : ZMod q) * v = u := by
      calc (s : ZMod q) * v = (s : ZMod q) * v * (2 * u) := by rw [hcu]; ring
        _ = (2 * s * v) * u := by ring
        _ = u := by rw [hcv]; ring
    show [(u * (a + b) % q + s * (v * (a + (q - b)) % q)) % q,
          (u * (a + b) % q + (q - s) * (v * (a + (q - b)) % q)) % q] = [a, b]
    refine cons2_eq ?_ ?_
    · apply mod_eq_of_zmod_eq q _ _ ha
      push_cast [ZMod.natCast_mod, show s ≤ q from by omega, show b ≤ q from by omega,
        ZMod.natCast_self]
      linear_combination ((a : ZMod q)) * hcu + (((a : ZMod q)) - ((b : ZMod q))) * hsv
    · apply mod_eq_of_zmod_eq q _ _ hb
      push_cast [ZMod.natCast_mod, show s ≤ q from by omega, show b ≤ q from by omega,
        ZMod.natCast_self]
      linear_combination ((b : ZMod q)) * hcu + (((b : ZMod q)) - ((a : ZMod q))) * hsv
  fwd_add := fun w1 w2 hw1 hw2 => by
    obtain ⟨a, b, rfl, ha, hb⟩ := vecOk_two q w1 hw1
    obtain ⟨c, d, rfl, hc, hd⟩ := vecOk_two q w2 hw2
    show [((a + c) % q + s * ((b + d) % q)) % q, ((a + c) % q + (q - s) * ((b + d) % q)) % q]
        = [((a + s * b) % q + (c + s * d) % q) % q,
           ((a + (q - s) * b) % q + (c + (q - s) * d) % q) % q]
    refine cons2_eq ?_ ?_
    · apply (ZMod.natCast_eq_natCast_iff' _ _ _).mp
      push_cast [ZMod.natCast_mod, show s ≤ q from by omega, ZMod.natCast_self]
      ring
    · apply (ZMod.natCast_eq_natCast_iff' _ _ _).mp
      push_cast [ZMod.natCast_mod, show s ≤ q from by omega, ZMod.natCast_self]
      ring
  fwd_mul := fun w1 w2 hw1 hw2 => by
    obtain ⟨a, b, rfl, ha, hb⟩ := vecOk_two q w1 hw1
    obtain ⟨c, d, rfl, hc, hd⟩ := vecOk_two q w2 hw2
    have hq0 : 0 < q := by omega
    have hcs := congrArg (fun m : Nat => (m : ZMod q)) hs
    simp only [ZMod.natCast_mod] at hcs
    push_cast [show 1 ≤ q from by omega, ZMod.natCast_self] at hcs
    rw [zero_sub] at hcs
    rw [negacyclicMul_two]
    show [((((a : Int) * c - (b : Int) * d) % (q : Int)).toNat
            + s * ((((a : Int) * d + (b : Int) * c) % (q : Int)).toNat)) % q,
          ((((a : Int) * c - (b : Int) * d) % (q : Int)).toNat
            + (q - s) * ((((a : Int) * d + (b : Int) * c) % (q : Int)).toNat)) % q]
        = [(a + s * b) % q * ((c + s * d) % q) % q,
           (a + (q - s) * b) % q * ((c + (q - s) * d) % q) % q]
    refine cons2_eq ?_ ?_
    · apply (ZMod.natCast_eq_natCast_iff' _ _ _).mp
      push_cast [ZMod.natCast_mod, show s ≤ q from by omega,
        zmod_toNat_emod q hq0, ZMod.natCast_self]
      linear_combination (-(((b : ZMod q)) * ((d : ZMod q)))) * hcs
    · apply (ZMod.natCast_eq_natCast_iff' _ _ _).mp
      push_cast [ZMod.natCast_mod, show s ≤ q from by omega,
        zmod_toNat_emod q hq0, ZMod.natCast_self]
      linear_combination (-(((b : ZMod q)) * ((d : ZMod q)))) * hcs
  fwd_const := fun c _ => by
    show [(c % q + s * ((List.replicate 1 0).getD 0 0)) % q,
          (c % q + (q - s) * ((List.replicate 1 0).getD 0 0)) % q] = [c % q, c % q]
    refine cons2_eq ?_ ?_
    · show (c % q + s * 0) % q = c % q
      rw [Nat.mul_zero, Nat.add_zero, Nat.mod_mod_of_dvd c dvd_rfl]
    · show (c % q + (q - s) * 0) % q = c % q
      rw [Nat.mul_zero, Nat.add_zero, Nat.mod_mod_of_dvd c dvd_rfl]

def ntt5 : NttOp := mk2Ntt 5 2 3 4 (by norm_num) (by norm_num) (by norm_num)
  (by norm_num) (by norm_num)

def ntt13 : NttOp := mk2Ntt 13 5 7 4 (by norm_num) (by norm_num) (by norm_num)
  (by norm_num) (by norm_num)

def cc4 : PolyContext := { moduli := [5, 13], degree := 2 }

def ops4 : List NttOp := [ntt5, ntt13]

def a4 : Poly := polyZero cc4 Representation.Evaluation

def prg4 : Nat → Nat → PolyContext → Poly :=
  fun _ _ C => polyZero C Representation.Evaluation

def sk4 : List Int := [0, 0]

def es4 : List (List Int) := [[1, -1], [1, -1]]

def x4 : Poly :=
  { context := cc4, representation := Representation.Coefficient,
    coefficients := [[4, 4], [12, 12]] }

def res4 : Poly :=
  polySub
    (polyAdd ((bvSwitch ops4 (bvNew prg4 ops4 a4 sk4 cc4 es4 0) x4).getD 0
        (polyZero cc4 Representation.Evaluation))
      (polyMulEval ((bvSwitch ops4 (bvNew prg4 ops4 a4 sk4 cc4 es4 0) x4).getD 1
          (polyZero cc4 Representation.Evaluation))
        (changeRep ops4 (liftInt cc4 Representation.Coefficient sk4)
          Representation.Evaluation)))
    (polyMulEval a4 (changeRep ops4 x4 Representation.Evaluation))

/-- C4 counterexample: at degree 2 with moduli 5 and 13 and errors bounded by
`B = 1`, the reconstructed, centered 0-th noise coefficient of
`c0_out + c1_out·s − a·x` equals 32, exceeding the spec's claimed bound
`Σ_i q_i·B = 18`, while staying within the amended bound
`N·Σ_i q_i·B = 36`. -/
theorem bv_switch_noise_exceeds_sum_bound :
    CtxOk cc4 ∧ OpsMatch cc4 ops4
    ∧ PolyOk a4 ∧ a4.context = cc4
    ∧ (x4.context = cc4 ∧ x4.representation = Representation.Coefficient ∧ PolyOk x4)
    ∧ sk4.length = cc4.degree
    ∧ (es4.length = cc4.moduli.length ∧ ∀ e ∈ es4, e.length = cc4.degree)
    ∧ (∀ e ∈ es4, ∀ w ∈ e, |w| ≤ (1 : Int))
    ∧ |center cc4.moduli.prod (crtRec cc4.moduli
        ((changeRep ops4 res4 Representation.Coefficient).coefficients.map
          (fun row => row.getD 0 0)))| = 32
    ∧ ¬ (32 : Int) ≤ ((cc4.moduli.sum * 1 : Nat) : Int)
    ∧ (32 : Int) ≤ ((cc4.degree * (cc4.moduli.sum * 1) : Nat) : Int) := by
  decide

end BFV
